import Mathlib

/-!
liblitmus cache benchmarks: arena construction and walk engine

A shallow embedding of the arena code shared by the `mc2*` / `resspin`
benchmarks (`include/cache_common.h`, `bin/mc2pollute.c`, `bin/mc2thrash.c`,
`bin/mc2thrash2.c`, `bin/resspin.c`, `bin/mc2spin.c`).

Modelling conventions:

* a C `int` is an `Int`; arithmetic that can leave the 32-bit range is wrapped
  with `wrap32` (two's complement), `/` and `%` are the truncating `Int.tdiv`
  and `Int.tmod`;
* `rand()` pops the head of an explicit list of PRNG outputs; a run that needs
  another output when the list is empty stops with `Stop.rand_exhausted`;
* a memory access outside the modelled buffer and a division by zero stop the
  run (`Stop.out_of_bounds`, `Stop.div_by_zero`);
* the constants `RAND_MAX` (from `<stdlib.h>`) and `CACHELINE_SIZE` (compiler
  or architecture provided, as `cache_common.h` has it when it declares
  `cacheline_t`) and the width `SIZE_BITS` of `size_t` are parameters; the
  value 32 that mc2thrash2.c and resspin.c give `CACHELINE_SIZE` after the
  include is the constant `mc2thrash2.CACHELINE_SIZE`;
* a call that ends the process (`die`, `bail_out`, a failed `assert`) returns
  a `Fatal` value; a `static` variable is passed in and returned;
* the results of external calls (`open`, `mmap`, `sscanf`) are parameters, and
  the readings of the CPU and wall clocks, like every `double`, are exact
  rationals, supplied per iteration;
* what `litmus.h` declares (`ms2ns`, `lt_t`) is a parameter, and so are the
  width `LONG_BITS` of `unsigned long` and, where a property is stated for
  every choice, the values returned by `randrange`.
-/

namespace Litmus

/-- Reasons for which a modelled run does not return a value. -/
inductive Stop
  | rand_exhausted
  | div_by_zero
  | out_of_bounds
  | int_overflow
  deriving DecidableEq, Repr

deriving instance DecidableEq for Except

/-- A run either returns a value or stops. -/
abbrev Run (α : Type) := Except Stop α

/-- Largest value of a 32-bit C `int`. -/
def INT_MAX : Int := 2147483647

/-- Smallest value of a 32-bit C `int`. -/
def INT_MIN : Int := -2147483648

/-- Two's complement reduction of a mathematical integer to a 32-bit `int`. -/
def wrap32 (x : Int) : Int := (x + 2147483648) % 4294967296 - 2147483648

/-- The C loop `for (i = start; <count more iterations>; i++) body`, threading
the state through the iterations. -/
def for_loop {σ : Type} (body : Nat → σ → Run σ) : Nat → Nat → σ → Run σ
  | 0, _, s => .ok s
  | count + 1, i, s => body i s >>= for_loop body count (i + 1)

/-! ## Cache lines and the arena -/

/-- A `cacheline_t`: the `int line[INTS_IN_CACHELINE]` member. -/
abbrev Line := List Int

/-- The arena: an array of `cacheline_t`. -/
abbrev Arena := List Line

/-- `#define INTS_IN_CACHELINE (CACHELINE_SIZE/sizeof(int))`, `sizeof(int) = 4`. -/
def INTS_IN_CACHELINE (CACHELINE_SIZE : Nat) : Nat := CACHELINE_SIZE / 4

/-- `sizeof(cacheline_t)`: the struct is `aligned(CACHELINE_SIZE)` and holds
`CACHELINE_SIZE / 4` ints. -/
def sizeof_cacheline_t (CACHELINE_SIZE : Nat) : Nat := CACHELINE_SIZE

/-- `#define CACHELINES_IN_1KB (1024 / sizeof(cacheline_t))`. -/
def CACHELINES_IN_1KB (CACHELINE_SIZE : Nat) : Nat := 1024 / sizeof_cacheline_t CACHELINE_SIZE

/-- `#define INTS_IN_1KB (1024 / sizeof(int))`. -/
def INTS_IN_1KB : Nat := 1024 / 4

/-- Read `arena[i]` for an `int` index. -/
def read_line (arena : Arena) (i : Int) : Run Line :=
  if i < 0 then .error .out_of_bounds
  else
    match arena[i.toNat]? with
    | some l => .ok l
    | none => .error .out_of_bounds

/-- Store `arena[i] = l` for an `int` index. -/
def write_line (arena : Arena) (i : Int) (l : Line) : Run Arena :=
  if i < 0 then .error .out_of_bounds
  else if i.toNat < arena.length then .ok (arena.set i.toNat l)
  else .error .out_of_bounds

/-- Read `arena[i].line[j]`. -/
def read_slot (arena : Arena) (i : Int) (j : Nat) : Run Int := do
  let l ← read_line arena i
  match l[j]? with
  | some v => .ok v
  | none => .error .out_of_bounds

/-- Store `arena[i].line[j] = v`. -/
def write_slot (arena : Arena) (i : Int) (j : Nat) (v : Int) : Run Arena := do
  let l ← read_line arena i
  if j < l.length then write_line arena i (l.set j v) else .error .out_of_bounds

/-! ## `randrange` (cache_common.h, mc2pollute.c) -/

/-- The `do { retval = rand() / devisor; } while (retval == limit);` loop. -/
def randrange_loop (devisor limit : Int) : List Nat → Run (Int × List Nat)
  | [] => .error .rand_exhausted
  | x :: rs =>
    if devisor = 0 then .error .div_by_zero
    else
      let retval := Int.tdiv (x : Int) devisor
      if retval = limit then randrange_loop devisor limit rs else .ok (retval, rs)

/-- `static int randrange(int min, int max)`: returns the value and the PRNG
outputs that are left. -/
def randrange (RAND_MAX : Nat) (min max : Int) (rs : List Nat) : Run (Int × List Nat) :=
  let limit := wrap32 (max - min)
  if limit = 0 then .error .div_by_zero
  else
    let devisor := Int.tdiv (RAND_MAX : Int) limit
    match randrange_loop devisor limit rs with
    | .ok (retval, rs') => .ok (wrap32 (retval + min), rs')
    | .error e => .error e

/-! ## `init_arena` (cache_common.h, mc2pollute.c) -/

/-- The first loop of `init_arena`: every slot of line `i` is set to `i`. -/
def init_lines (CACHELINE_SIZE : Nat) (num_arena_elem : Nat) (arena : Arena) : Run Arena :=
  for_loop
    (fun i a => write_line a (i : Int) (List.replicate (INTS_IN_CACHELINE CACHELINE_SIZE) (i : Int)))
    num_arena_elem 0 arena

/-- The body of the shuffle loop: `temp = arena[j]; arena[j] = arena[i];
arena[i] = temp;`. -/
def swap_lines (arena : Arena) (j i : Int) : Run Arena := do
  let temp ← read_line arena j
  let li ← read_line arena i
  let arena1 ← write_line arena j li
  write_line arena1 i temp

/-- The loop `while (1 < i--) { j = randrange(0, i); swap arena[j], arena[i] }`
entered with the given value of `i`. -/
def shuffle (RAND_MAX : Nat) : Nat → Arena → List Nat → Run (Arena × List Nat)
  | 0, arena, rs => .ok (arena, rs)
  | i + 1, arena, rs =>
    if 1 < i + 1 then do
      let (j, rs') ← randrange RAND_MAX 0 (i : Int) rs
      let arena' ← swap_lines arena j (i : Int)
      shuffle RAND_MAX i arena' rs'
    else .ok (arena, rs)

/-- `static void init_arena(cacheline_t* arena, size_t size)`. The counter `i`
is an `int`: counting up to more than `INT_MAX` lines overflows it. -/
def init_arena (RAND_MAX CACHELINE_SIZE : Nat) (arena : Arena) (size : Nat) (rs : List Nat) :
    Run (Arena × List Nat) :=
  let num_arena_elem := size / sizeof_cacheline_t CACHELINE_SIZE
  if INT_MAX < (num_arena_elem : Int) then .error .int_overflow
  else do
    let arena1 ← init_lines CACHELINE_SIZE num_arena_elem arena
    shuffle RAND_MAX num_arena_elem arena1 rs

/-! ## Walks -/

/-- The state of a random walk. `sum`, `next` and `arena` are the C variables
and the global arena; `lines`, `reads` and `writes` record, in order, the
lines entered (`which_line`), the slots read and the slots stored to. -/
structure WalkState where
  sum : Int
  next : Int
  arena : Arena
  lines : List Int
  reads : List (Int × Nat)
  writes : List (Int × Nat)
  deriving DecidableEq, Repr

/-- The state of a sequential walk over a raw `int` buffer; `writes` records
the offsets stored to, in order. -/
structure SeqState where
  sum : Int
  mem : List Int
  writes : List Nat
  deriving DecidableEq, Repr

namespace mc2thrash2

/-- `#define CACHELINE_SIZE 32` of mc2thrash2.c (and likewise of resspin.c).
It comes after the `#include "cache_common.h"` in which `cacheline_t` was
declared, so it does not change the lines; it is the value the macro
`INTS_IN_CACHELINE` has in the functions of the file. The parameter
`CACHELINE_SIZE` of the definitions below is the value the header saw: it
gives `sizeof(cacheline_t)` and the number of slots of a line. -/
def CACHELINE_SIZE : Nat := 32

/-- One iteration of the inner loop of the read-only branch:
`next = arena[which_line].line[j]; sum += next;`. -/
def read_step (which_line : Int) (j : Nat) (s : WalkState) : Run WalkState := do
  let next ← read_slot s.arena which_line j
  .ok { s with next := next, sum := wrap32 (s.sum + next),
               reads := s.reads ++ [(which_line, j)] }

/-- One iteration of the inner loop of the `write_cycle != 0` branch. -/
def write_step (write_cycle w which_line : Int) (j : Nat) (s : WalkState) : Run WalkState := do
  let next ← read_slot s.arena which_line j
  if Int.tmod w write_cycle ≠ wrap32 (write_cycle - 1) then
    .ok { s with next := next, sum := wrap32 (s.sum + next),
                 reads := s.reads ++ [(which_line, j)] }
  else do
    let arena' ← write_slot s.arena which_line j next
    .ok { s with next := next, arena := arena',
                 reads := s.reads ++ [(which_line, j)],
                 writes := s.writes ++ [(which_line, j)] }

/-- The body of `random_walk` (mc2thrash2.c, and verbatim resspin.c) with the
whole final state; `start` is `mem - arena`. The inner loop runs over
`INTS_IN_CACHELINE` slots with the file's own `CACHELINE_SIZE` (8 slots),
`numlines` is computed from `sizeof(cacheline_t)`. The counter `w` is set to 0
by the loop header and is not changed by the loop. -/
def random_walk_run (CACHELINE_SIZE : Nat) (arena : Arena) (start wss write_cycle : Int) :
    Run WalkState :=
  let numlines := wrap32 (wss * (CACHELINES_IN_1KB CACHELINE_SIZE : Int))
  let init : WalkState := ⟨0, start, arena, [], [], []⟩
  if write_cycle = 0 then
    for_loop
      (fun _ s =>
        let which_line := s.next
        for_loop (read_step which_line) (INTS_IN_CACHELINE mc2thrash2.CACHELINE_SIZE) 0
          { s with lines := s.lines ++ [which_line] })
      numlines.toNat 0 init
  else
    let w : Int := 0
    for_loop
      (fun _ s =>
        let which_line := s.next
        for_loop (write_step write_cycle w which_line)
          (INTS_IN_CACHELINE mc2thrash2.CACHELINE_SIZE) 0
          { s with lines := s.lines ++ [which_line] })
      numlines.toNat 0 init

/-- `static int random_walk(cacheline_t *mem, int wss, int write_cycle)`:
the returned sum and the arena it leaves. -/
def random_walk (CACHELINE_SIZE : Nat) (arena : Arena) (start wss write_cycle : Int) :
    Run (Int × Arena) :=
  (random_walk_run CACHELINE_SIZE arena start wss write_cycle).map (fun s => (s.sum, s.arena))

/-- One iteration of the `write_cycle > 0` loop of `sequential_walk`. -/
def seq_write_step (write_cycle : Int) (i : Nat) (s : SeqState) : Run SeqState :=
  match s.mem[i]? with
  | none => .error .out_of_bounds
  | some v =>
    if Int.tmod (i : Int) write_cycle = wrap32 (write_cycle - 1) then
      .ok { s with mem := s.mem.set i (wrap32 (v + 1)), writes := s.writes ++ [i] }
    else
      .ok { s with sum := wrap32 (s.sum + v) }

/-- One iteration of the pure-read loop of `sequential_walk`. -/
def seq_read_step (i : Nat) (s : SeqState) : Run SeqState :=
  match s.mem[i]? with
  | none => .error .out_of_bounds
  | some v => .ok { s with sum := wrap32 (s.sum + v) }

/-- The body of `sequential_walk` (mc2thrash2.c, and verbatim resspin.c) with
the whole final state; `mem` is the raw `int` buffer starting at `_mem`. -/
def sequential_walk_run (mem : List Int) (wss write_cycle : Int) : Run SeqState :=
  let num_ints := wrap32 (wss * (INTS_IN_1KB : Int))
  let init : SeqState := ⟨0, mem, []⟩
  if write_cycle > 0 then for_loop (seq_write_step write_cycle) num_ints.toNat 0 init
  else for_loop seq_read_step num_ints.toNat 0 init

/-- `static int sequential_walk(cacheline_t *_mem, int wss, int write_cycle)`:
the returned sum and the buffer it leaves. -/
def sequential_walk (mem : List Int) (wss write_cycle : Int) : Run (Int × List Int) :=
  (sequential_walk_run mem wss write_cycle).map (fun s => (s.sum, s.mem))

end mc2thrash2

namespace mc2pollute

/-- One iteration of the read-only loop: `next = arena[next].line[0];
sum += next;`. -/
def read_step (s : WalkState) : Run WalkState := do
  let next ← read_slot s.arena s.next 0
  .ok { s with next := next, sum := wrap32 (s.sum + next),
               lines := s.lines ++ [s.next], reads := s.reads ++ [(s.next, 0)] }

/-- One iteration of the `write_cycle != 0` loop. -/
def write_step (write_cycle w : Int) (s : WalkState) : Run WalkState := do
  let which_line := s.next
  let next ← read_slot s.arena s.next 0
  if Int.tmod w write_cycle ≠ wrap32 (write_cycle - 1) then
    .ok { s with next := next, sum := wrap32 (s.sum + next),
                 lines := s.lines ++ [which_line], reads := s.reads ++ [(which_line, 0)] }
  else do
    let arena' ← write_slot s.arena which_line 0 next
    .ok { s with next := next, arena := arena',
                 lines := s.lines ++ [which_line], reads := s.reads ++ [(which_line, 0)],
                 writes := s.writes ++ [(which_line, 0)] }

/-- The body of `random_walk` (mc2pollute.c) with the whole final state. -/
def random_walk_run (CACHELINE_SIZE : Nat) (arena : Arena) (start wss write_cycle : Int) :
    Run WalkState :=
  let numlines := wrap32 (wss * (CACHELINES_IN_1KB CACHELINE_SIZE : Int))
  let init : WalkState := ⟨0, start, arena, [], [], []⟩
  if write_cycle = 0 then for_loop (fun _ s => read_step s) numlines.toNat 0 init
  else
    let w : Int := 0
    for_loop (fun _ s => write_step write_cycle w s) numlines.toNat 0 init

/-- `static int random_walk(cacheline_t *mem, int wss, int write_cycle)`
of mc2pollute.c. -/
def random_walk (CACHELINE_SIZE : Nat) (arena : Arena) (start wss write_cycle : Int) :
    Run (Int × Arena) :=
  (random_walk_run CACHELINE_SIZE arena start wss write_cycle).map (fun s => (s.sum, s.arena))

end mc2pollute

namespace mc2thrash

/-- `#define WSS 1024`. -/
def WSS : Int := 1024

/-- The body of `random_walk` (mc2thrash.c): the loops of mc2pollute.c with
`numlines = WSS * CACHELINES_IN_1KB`. -/
def random_walk_run (CACHELINE_SIZE : Nat) (arena : Arena) (start write_cycle : Int) :
    Run WalkState :=
  mc2pollute.random_walk_run CACHELINE_SIZE arena start WSS write_cycle

/-- `static int random_walk(cacheline_t *mem, int write_cycle)` of mc2thrash.c. -/
def random_walk (CACHELINE_SIZE : Nat) (arena : Arena) (start write_cycle : Int) :
    Run (Int × Arena) :=
  (random_walk_run CACHELINE_SIZE arena start write_cycle).map (fun s => (s.sum, s.arena))

end mc2thrash

namespace resspin

/-- The body of `random_walk` in resspin.c, the same text as in mc2thrash2.c,
under the same `#define CACHELINE_SIZE 32` made after the include. -/
def random_walk_run (CACHELINE_SIZE : Nat) (arena : Arena) (start wss write_cycle : Int) :
    Run WalkState :=
  mc2thrash2.random_walk_run CACHELINE_SIZE arena start wss write_cycle

/-- `random_walk` of resspin.c. -/
def random_walk (CACHELINE_SIZE : Nat) (arena : Arena) (start wss write_cycle : Int) :
    Run (Int × Arena) :=
  (random_walk_run CACHELINE_SIZE arena start wss write_cycle).map (fun s => (s.sum, s.arena))

/-- The body of `sequential_walk` in resspin.c, the same text as in mc2thrash2.c. -/
def sequential_walk_run (mem : List Int) (wss write_cycle : Int) : Run SeqState :=
  mc2thrash2.sequential_walk_run mem wss write_cycle

/-- `sequential_walk` of resspin.c. -/
def sequential_walk (mem : List Int) (wss write_cycle : Int) : Run (Int × List Int) :=
  (sequential_walk_run mem wss write_cycle).map (fun s => (s.sum, s.mem))

end resspin

/-! ## Process termination and `size_t` -/

/-- Ways in which a call ends the process instead of returning. -/
inductive Fatal
  | exit (code : Int)
  | bail_out
  | assert_failed
  deriving DecidableEq, Repr

/-- `die` of cache_common.h: prints the error and calls `exit(1)`. -/
def die : Fatal := .exit 1

/-- Conversion of an `int` to `size_t`, an unsigned type of `SIZE_BITS` bits
(32 on 32-bit ARM, 64 on x86-64). -/
def to_size_t (SIZE_BITS : Nat) (x : Int) : Int := x % 2 ^ SIZE_BITS

/-! ## `sequential_start` (mc2thrash2.c, resspin.c)

The `static int pos` cursor is passed in and returned next to the result; the
returned region is given by its offset `mem - arena` in lines. -/

namespace mc2thrash2

/-- `#define ARENA_SIZE_KB 1024`. -/
def ARENA_SIZE_KB : Nat := 1024

/-- `#define NUM_ARENA_ELEM ((ARENA_SIZE_KB * 1024)/sizeof(cacheline_t))`. -/
def NUM_ARENA_ELEM (CACHELINE_SIZE : Nat) : Nat :=
  (ARENA_SIZE_KB * 1024) / sizeof_cacheline_t CACHELINE_SIZE

/-- `int num_cachelines = wss * CACHELINES_IN_1KB;`. -/
def num_cachelines (CACHELINE_SIZE : Nat) (wss : Int) : Int :=
  wrap32 (wss * (CACHELINES_IN_1KB CACHELINE_SIZE : Int))

/-- `static cacheline_t* sequential_start(int wss)` of mc2thrash2.c: the
result (the offset of the region, or the fatal `die`) and the cursor after the
call. The `int` sides of both comparisons are converted to `size_t`. -/
def sequential_start (SIZE_BITS CACHELINE_SIZE : Nat) (pos wss : Int) : Except Fatal Int × Int :=
  let num_cachelines := num_cachelines CACHELINE_SIZE wss
  if to_size_t SIZE_BITS (wrap32 (num_cachelines * 2)) > (NUM_ARENA_ELEM CACHELINE_SIZE : Int) then
    (.error die, pos)
  else if to_size_t SIZE_BITS (wrap32 (pos + num_cachelines))
      > (NUM_ARENA_ELEM CACHELINE_SIZE : Int) then
    (.ok 0, num_cachelines)
  else
    (.ok pos, wrap32 (pos + num_cachelines))

end mc2thrash2

namespace resspin

/-- `static cacheline_t* sequential_start(int wss)` of resspin.c: the size
check is commented out and the wrap bound is `(wss * 1024)/sizeof(cacheline_t)`
(`wss * 1024` is an `int` product, divided as `size_t`). Returns the offset of
the region and the cursor after the call. -/
def sequential_start (SIZE_BITS CACHELINE_SIZE : Nat) (pos wss : Int) : Int × Int :=
  let num_cachelines := wrap32 (wss * (CACHELINES_IN_1KB CACHELINE_SIZE : Int))
  if to_size_t SIZE_BITS (wrap32 (pos + num_cachelines))
      > to_size_t SIZE_BITS (wrap32 (wss * 1024)) / (sizeof_cacheline_t CACHELINE_SIZE : Int) then
    (0, num_cachelines)
  else
    (pos, wrap32 (pos + num_cachelines))

end resspin

/-! ## `alloc_arena` (cache_common.h, mc2pollute.c)

Pointers and file descriptors are integers. The external calls are
parameters: `open_dev` is what `open(UNCACHE_DEV, ...)` returns when called,
and `mmap size flags fd` is what `mmap(0, size, PROT_READ | PROT_WRITE, flags,
fd, 0)` returns. -/

/-- The null pointer. -/
def NULL : Int := 0

/-- `MAP_FAILED`, the value `(void *) -1` by which `mmap` reports failure. -/
def MAP_FAILED : Int := -1

/-- `MAP_PRIVATE` of Linux `<sys/mman.h>`. -/
def MAP_PRIVATE : Nat := 0x02

/-- `MAP_ANONYMOUS` of Linux `<sys/mman.h>`. -/
def MAP_ANONYMOUS : Nat := 0x20

/-- `MAP_POPULATE` of Linux `<sys/mman.h>`. -/
def MAP_POPULATE : Nat := 0x8000

/-- `MAP_HUGETLB` of Linux `<sys/mman.h>`. -/
def MAP_HUGETLB : Nat := 0x40000

/-- The body of `alloc_arena` after a failed `open` has been dealt with by
`on_open_failure`: flags, `mmap`, `assert(arena)`, `return arena`. -/
def alloc_arena_body (on_open_failure : Fatal) (mmap : Nat → Nat → Int → Int) (open_dev : Int)
    (size : Nat) (use_huge_pages use_uncache_pages : Int) : Except Fatal Int :=
  let flags := MAP_PRIVATE ||| MAP_POPULATE
  let flags := if use_huge_pages ≠ 0 then flags ||| MAP_HUGETLB else flags
  if use_uncache_pages ≠ 0 ∧ open_dev = -1 then .error on_open_failure
  else
    let fd := if use_uncache_pages ≠ 0 then open_dev else -1
    let flags := if use_uncache_pages ≠ 0 then flags else flags ||| MAP_ANONYMOUS
    let arena := mmap size flags fd
    if arena = NULL then .error .assert_failed
    else .ok arena

/-- `static cacheline_t* alloc_arena(size_t size, int use_huge_pages,
int use_uncache_pages)` of cache_common.h: a failed `open` ends in `die`. -/
def alloc_arena (mmap : Nat → Nat → Int → Int) (open_dev : Int)
    (size : Nat) (use_huge_pages use_uncache_pages : Int) : Except Fatal Int :=
  alloc_arena_body die mmap open_dev size use_huge_pages use_uncache_pages

namespace mc2pollute

/-- `alloc_arena` of mc2pollute.c: the same body, a failed `open` ends in
`bail_out`. -/
def alloc_arena (mmap : Nat → Nat → Int → Int) (open_dev : Int)
    (size : Nat) (use_huge_pages use_uncache_pages : Int) : Except Fatal Int :=
  alloc_arena_body .bail_out mmap open_dev size use_huge_pages use_uncache_pages

end mc2pollute

/-! ## `loop_for` (mc2spin.c, mc2thrash2.c)

Clock readings are exact rationals. Each iteration of the loop consumes one
`Tick`: the value returned by `loop_once`, the reading of `cputime()` after it
and the reading of `wctime()` in the guard. -/

/-- What one iteration of `loop_for` observes. -/
structure Tick where
  once : Int
  cpu : ℚ
  wall : ℚ
  deriving DecidableEq, Repr

/-- The outcome of `loop_for`: the returned `tmp`, the last reading `now`, the
number of iterations made, and whether the emergency-exit message was printed
to `stderr` (followed by `break`). -/
structure LoopResult where
  tmp : Int
  now : ℚ
  iterations : Nat
  emergency : Bool
  deriving DecidableEq, Repr

/-- The `while (now + last_loop < start + exec_time)` loop shared by the
`loop_for` functions; `upd tmp r` is the new `tmp` after `loop_once` returned
`r`. `none`: the loop needs another iteration but no tick is left. -/
def loop_for_loop (upd : Int → Int → Int) (exec_time emergency_exit start : ℚ) :
    List Tick → ℚ → ℚ → Int → Nat → Option LoopResult
  | [], now, last_loop, tmp, iterations =>
    if now + last_loop < start + exec_time then none
    else some ⟨tmp, now, iterations, false⟩
  | t :: ticks, now, last_loop, tmp, iterations =>
    if now + last_loop < start + exec_time then
      let loop_start := now
      let tmp := upd tmp t.once
      let now := t.cpu
      let last_loop := now - loop_start
      if emergency_exit ≠ 0 ∧ t.wall > emergency_exit then
        some ⟨tmp, now, iterations + 1, true⟩
      else loop_for_loop upd exec_time emergency_exit start ticks now last_loop tmp (iterations + 1)
    else some ⟨tmp, now, iterations, false⟩

namespace mc2spin

/-- `static int loop_for(double exec_time, double emergency_exit)` of
mc2spin.c (`tmp += loop_once()`); `start` and `now` are the two initial
readings of `cputime()`. -/
def loop_for (exec_time emergency_exit start now : ℚ) (ticks : List Tick) : Option LoopResult :=
  loop_for_loop (fun tmp r => wrap32 (tmp + r)) exec_time emergency_exit start ticks now 0 0 0

end mc2spin

namespace mc2thrash2

/-- `loop_for` of mc2thrash2.c: the same loop with `tmp = loop_once()`. -/
def loop_for (exec_time emergency_exit start now : ℚ) (ticks : List Tick) : Option LoopResult :=
  loop_for_loop (fun _ r => r) exec_time emergency_exit start ticks now 0 0 0

end mc2thrash2

/-- One iteration of the shuffle loop of `init_arena`:
`j = randrange(0, i); temp = arena[j]; arena[j] = arena[i]; arena[i] = temp;`. -/
def shuffle_step (RAND_MAX : Nat) (i : Nat) (arena : Arena) (rs : List Nat) :
    Run (Arena × List Nat) := do
  let (j, rs') ← randrange RAND_MAX 0 (i : Int) rs
  let arena' ← swap_lines arena j (i : Int)
  .ok (arena', rs')

/-! ## The fixed-iteration-count loops (resspin.c, mc2pollute.c)

`loops` is the `static int loops` set by the option `-l`. -/

namespace resspin

/-- The loop `while (cur_loop++ < loops)` of `loop_for` in resspin.c, with
`int cur_loop` and `tmp = loop_once(wss)`; the time-budget guard is commented
out in the source, so `exec_time` and `last_loop` play no part. One `Tick` is
consumed per iteration; `none`: another iteration is due but no tick is left. -/
def loop_for_loop (loops : Int) (emergency_exit : ℚ) :
    List Tick → Int → ℚ → Int → Nat → Option LoopResult
  | [], cur_loop, now, tmp, iterations =>
    if cur_loop < loops then none else some ⟨tmp, now, iterations, false⟩
  | t :: ticks, cur_loop, now, tmp, iterations =>
    if cur_loop < loops then
      let cur_loop := wrap32 (cur_loop + 1)
      let tmp := t.once
      let now := t.cpu
      if emergency_exit ≠ 0 ∧ t.wall > emergency_exit then
        some ⟨tmp, now, iterations + 1, true⟩
      else loop_for_loop loops emergency_exit ticks cur_loop now tmp (iterations + 1)
    else some ⟨tmp, now, iterations, false⟩

/-- `static int loop_for(int wss, double exec_time, double emergency_exit)` of
resspin.c; `now` is the initial reading of `cputime()`, and `iterations`
counts the calls of `loop_once`. -/
def loop_for (loops : Int) (emergency_exit now : ℚ) (ticks : List Tick) : Option LoopResult :=
  loop_for_loop loops emergency_exit ticks 0 now 0 0

end resspin

namespace mc2pollute

/-- The loop `while (iter++ < loops) { loop_once(wss); }` of `job` in
mc2pollute.c entered with the given value of `iter`. `iter` is a `register
unsigned int`, so the comparison converts the `int loops` to `unsigned int`.
Returns the number of calls of `loop_once` made and the state they leave. -/
def job_loop {σ : Type} (loop_once : σ → Run σ) (loops : Int) (iter calls : Nat) (s : σ) :
    Run (Nat × σ) :=
  if iter < (loops % 4294967296).toNat then
    match loop_once s with
    | .ok s' => job_loop loop_once loops ((iter + 1) % 4294967296) (calls + 1) s'
    | .error e => .error e
  else .ok (calls, s)
termination_by (loops % 4294967296).toNat - iter
decreasing_by omega

/-- `static int job(int wss, double exec_time, double program_end)` of
mc2pollute.c: the return value, the number of calls of `loop_once` and the
state; `wctime` is the reading of `wctime()`. -/
def job {σ : Type} (loop_once : σ → Run σ) (loops : Int) (wctime program_end : ℚ) (s : σ) :
    Run (Int × Nat × σ) :=
  if wctime > program_end then .ok (0, 0, s)
  else (job_loop loop_once loops 0 0 s).map (fun r => (1, r.1, r.2))

/-- `static cacheline_t* random_start(int wss)` of mc2pollute.c, as the offset
`mem - arena`: `wss * 1024` is an `int` product, divided as `size_t` and
passed as the `int max`. -/
def random_start (RAND_MAX SIZE_BITS CACHELINE_SIZE : Nat) (wss : Int) (rs : List Nat) :
    Run (Int × List Nat) :=
  randrange RAND_MAX 0
    (wrap32 (to_size_t SIZE_BITS (wrap32 (wss * 1024)) / (sizeof_cacheline_t CACHELINE_SIZE : Int)))
    rs

/-- `static int loop_once(int wss)` of mc2pollute.c on the state made of the
arena, the PRNG outputs left and `dont_optimize_me`. -/
def loop_once (RAND_MAX SIZE_BITS CACHELINE_SIZE : Nat) (wss : Int)
    (s : Arena × List Nat × Int) : Run (Arena × List Nat × Int) := do
  let (mem, rs') ← random_start RAND_MAX SIZE_BITS CACHELINE_SIZE wss s.2.1
  let (temp, arena') ← random_walk CACHELINE_SIZE s.1 mem wss 0
  .ok (arena', rs', temp)

/-- Lines 363 to 390 of `main` of mc2pollute.c, up to the end of the first
job: `arena_sz = wss*1024; arena = alloc_arena(arena_sz, 0, 0);
init_arena(arena, arena_sz); ... job(wss, ...)`. `mem` is the memory found at
the pointer returned by `mmap`; the calls into LITMUS^RT in between are taken
to succeed. The outer result is the end of the process by a fatal call. -/
def main_first_job (RAND_MAX SIZE_BITS CACHELINE_SIZE : Nat) (mmap : Nat → Nat → Int → Int)
    (mem : Arena) (wss loops : Int) (wctime program_end : ℚ) (rs : List Nat) :
    Except Fatal (Run (Int × Nat × Arena × List Nat × Int)) :=
  let arena_sz := (to_size_t SIZE_BITS (wrap32 (wss * 1024))).toNat
  match alloc_arena mmap (-1) arena_sz 0 0 with
  | .error f => .error f
  | .ok _ => .ok (do
      let (arena, rs1) ← init_arena RAND_MAX CACHELINE_SIZE mem arena_sz rs
      job (loop_once RAND_MAX SIZE_BITS CACHELINE_SIZE wss) loops wctime program_end
        (arena, rs1, 0))

end mc2pollute

/-! ## `parse_td_intervals` (mc2spin.c)

`ms2ns` and the type `lt_t` of the members of `struct lt_interval` come from
`litmus.h` and are parameters; a `double` is an exact rational. The result of
`sscanf` on each of the buffers `arg[i]` is given. -/

/-- `EXIT_FAILURE` of glibc's `<stdlib.h>`. -/
def EXIT_FAILURE : Int := 1

namespace mc2spin

/-- `usage` of mc2spin.c: prints the usage text and calls `exit(EXIT_FAILURE)`. -/
def usage : Fatal := .exit EXIT_FAILURE

/-- What `sscanf(arg[i], "[%lf,%lf]", &start, &end)` yields on one buffer: the
number of conversions made and the values of `start` and `end` after the
call. -/
structure Scan where
  matched : Int
  start : ℚ
  end_ : ℚ
  deriving DecidableEq, Repr

/-- `struct lt_interval`: the members `start` and `end`, of type `lt_t`. -/
structure lt_interval (lt_t : Type) where
  start : lt_t
  end_ : lt_t
  deriving DecidableEq, Repr

/-- The second `for (i=0; i<num; i++)` loop of `parse_td_intervals`, with
`count` iterations to go; `slots` holds `slots[0..i-1]`. Each failure is
`exit(5)`. -/
def parse_td_intervals_loop {lt_t : Type} [LinearOrder lt_t] (ms2ns : ℚ → lt_t)
    (arg : Nat → Scan) :
    Nat → Nat → List (lt_interval lt_t) → Nat → Except Fatal (List (lt_interval lt_t) × Nat)
  | 0, _, slots, num_intervals => .ok (slots, num_intervals)
  | count + 1, i, slots, num_intervals =>
    if (arg i).matched ≠ 2 then .error (.exit 5)
    else if (arg i).start < 0 then .error (.exit 5)
    else if (arg i).end_ ≤ (arg i).start then .error (.exit 5)
    else
      let slot : lt_interval lt_t := ⟨ms2ns (arg i).start, ms2ns (arg i).end_⟩
      match (if i > 0 then slots[i - 1]? else none) with
      | some prev =>
        if prev.end_ ≥ slot.start then .error (.exit 5)
        else parse_td_intervals_loop ms2ns arg count (i + 1) (slots ++ [slot]) (num_intervals + 1)
      | none =>
        parse_td_intervals_loop ms2ns arg count (i + 1) (slots ++ [slot]) (num_intervals + 1)

/-- `struct lt_interval* parse_td_intervals(int num, char* optarg, unsigned
int *num_intervals)`: the returned `slots` and `*num_intervals`, or the end of
the process. `arg i` is the outcome of `sscanf` on the buffer `arg[i]`, which
holds the `i`-th `':'`-separated token of `optarg`. -/
def parse_td_intervals {lt_t : Type} [LinearOrder lt_t] (ms2ns : ℚ → lt_t) (num : Int)
    (arg : Nat → Scan) : Except Fatal (List (lt_interval lt_t) × Nat) :=
  parse_td_intervals_loop ms2ns arg num.toNat 0 [] 0

end mc2spin

/-- The shuffle loop of `init_arena` entered with the given value of `i`, with
the value returned by the call `randrange(0, i)` given as `j i`. -/
def shuffle_choices (j : Nat → Int) : Nat → Arena → Run Arena
  | 0, arena => .ok arena
  | i + 1, arena =>
    if 1 < i + 1 then do
      let arena' ← swap_lines arena (j i) (i : Int)
      shuffle_choices j i arena'
    else .ok arena

/-- `init_arena` with the values returned by its calls of `randrange` given:
`j i` is the value returned by `randrange(0, i)`. -/
def init_arena_choices (CACHELINE_SIZE : Nat) (j : Nat → Int) (arena : Arena) (size : Nat) :
    Run Arena :=
  let num_arena_elem := size / sizeof_cacheline_t CACHELINE_SIZE
  if INT_MAX < (num_arena_elem : Int) then .error .int_overflow
  else do
    let arena1 ← init_lines CACHELINE_SIZE num_arena_elem arena
    shuffle_choices j num_arena_elem arena1

/-! ## `randrange` and `sattolo` (mc2spin.c)

The array `unsigned long *items` is a list of integers in `[0, 2^LONG_BITS)`,
where `LONG_BITS` is the width of `unsigned long`; the index `i` of `sattolo`
is an `unsigned long`, `j` and `t` are `int`. -/

namespace mc2spin

/-- `static int randrange(const int max)` of mc2spin.c:
`rand() / (RAND_MAX / max + 1)`. -/
def randrange (RAND_MAX : Nat) (max : Int) : List Nat → Run (Int × List Nat)
  | [] => .error .rand_exhausted
  | x :: rs =>
    if max = 0 then .error .div_by_zero
    else
      let d := wrap32 (Int.tdiv (RAND_MAX : Int) max + 1)
      if d = 0 then .error .div_by_zero else .ok (Int.tdiv (x : Int) d, rs)

/-- Read `items[i]`. -/
def read_item (items : List Int) (i : Int) : Run Int :=
  if i < 0 then .error .out_of_bounds
  else
    match items[i.toNat]? with
    | some v => .ok v
    | none => .error .out_of_bounds

/-- Store `items[i] = v`. -/
def write_item (items : List Int) (i : Int) (v : Int) : Run (List Int) :=
  if i < 0 then .error .out_of_bounds
  else if i.toNat < items.length then .ok (items.set i.toNat v)
  else .error .out_of_bounds

/-- The first loop of `sattolo`: `for (i = 0; i < len; i++) items[i] = i;`. -/
def sattolo_fill (len : Nat) (items : List Int) : Run (List Int) :=
  for_loop (fun i a => write_item a (i : Int) (i : Int)) len 0 items

/-- The loop `while (1 < i--) { int t, j = randrange(i); t = items[i];
items[i] = items[j]; items[j] = t; }` of `sattolo`, entered with the given
value of `i`: `randrange` takes `i` as an `int`, `t` holds `items[i]` as an
`int`, and the store `items[j] = t` converts it back to `unsigned long`. -/
def sattolo_loop (RAND_MAX LONG_BITS : Nat) : Nat → List Int → List Nat → Run (List Int × List Nat)
  | 0, items, rs => .ok (items, rs)
  | i + 1, items, rs =>
    if 1 < i + 1 then do
      let (j, rs') ← randrange RAND_MAX (wrap32 (i : Int)) rs
      let vi ← read_item items (i : Int)
      let t := wrap32 vi
      let vj ← read_item items j
      let items1 ← write_item items (i : Int) vj
      let items2 ← write_item items1 j (t % 2 ^ LONG_BITS)
      sattolo_loop RAND_MAX LONG_BITS i items2 rs'
    else .ok (items, rs)

/-- `static void sattolo(unsigned long *items, const unsigned long len)`: the
array and the PRNG outputs it leaves. -/
def sattolo (RAND_MAX LONG_BITS : Nat) (items : List Int) (len : Nat) (rs : List Nat) :
    Run (List Int × List Nat) := do
  let items1 ← sattolo_fill len items
  sattolo_loop RAND_MAX LONG_BITS len items1 rs

end mc2spin

/-! ## Vocabulary of the properties

Predicates and functions in which the properties below are stated: the map
"next" of an arena, slot-uniform arenas, single cycles, the trace of a walk,
the offsets selected by a write cycle, and the concrete inputs used in the
evaluations. -/

/-- Every line of the `N`-line arena holds one value in all of its `ints`
slots, and that value is a line index below `N`. -/
def slot_uniform (ints N : Nat) (a : Arena) : Prop :=
  a.length = N ∧ ∀ i, i < N → ∃ v, v < N ∧ a[i]? = some (List.replicate ints (v : Int))

instance (ints N : Nat) (a : Arena) : Decidable (slot_uniform ints N a) := by
  unfold slot_uniform; infer_instance

/-- The map "next": `next_line arena i` is `arena[i].line[0]` as a line index
(0 when the slot is missing or negative). -/
def next_line (arena : Arena) (i : Nat) : Nat := ((arena.getD i []).getD 0 0).toNat

/-- The slots `(l, 0), ..., (l, ints - 1)` of each line `l` of a list of lines. -/
def slots_of (ints : Nat) : List Int → List (Int × Nat)
  | [] => []
  | l :: ls => (List.range ints).map (fun j => (l, j)) ++ slots_of ints ls

/-- The lines entered by a walk of `n` steps from line `p` along "next". -/
def walk_lines (arena : Arena) (p n : Nat) : List Int :=
  (List.range n).map (fun t => (((next_line arena)^[t] p : Nat) : Int))

/-- The sum of the "next" values met by a walk of `n` steps from line `p`. -/
def walk_total (arena : Arena) (p n : Nat) : Int :=
  ((List.range n).map (fun t => (((next_line arena)^[t + 1] p : Nat) : Int))).sum

/-- Following "next" from line `s` returns to `s` after exactly `N` steps: the
`N`-th iterate is `s`, and the `N - 1` intermediate lines are pairwise
distinct and different from `s`. -/
def cycle_from (N : Nat) (arena : Arena) (s : Nat) : Prop :=
  (next_line arena)^[N] s = s ∧
  (∀ t, t < N → 0 < t → (next_line arena)^[t] s ≠ s) ∧
  (∀ t, t < N → ∀ u, u < N → 0 < t → t < u →
    (next_line arena)^[t] s ≠ (next_line arena)^[u] s)

instance (N : Nat) (arena : Arena) (s : Nat) : Decidable (cycle_from N arena s) := by
  unfold cycle_from; infer_instance

/-- The map "next" of an `N`-line arena is a single `N`-cycle: the walk from
every start line `s < N` is a cycle of length `N`. -/
def single_cycle (N : Nat) (arena : Arena) : Prop :=
  ∀ s, s < N → cycle_from N arena s

instance (N : Nat) (arena : Arena) : Decidable (single_cycle N arena) := by
  unfold single_cycle; infer_instance

/-- PRNG outputs for the failing run of `init_arena` on 47968 lines: the first
makes `randrange(0, 47967)` return 47966, the second makes
`randrange(0, 47966)` return 47967, the others make `randrange(0, i)` return 0. -/
def failing_outputs : List Nat := 2147437820 :: 2147482590 :: List.replicate 47965 0

/-- The arena handed to `init_arena` in the failing run: 47968 lines of
32 bytes (1499 KB). -/
def failing_arena : Arena := List.replicate 47968 (List.replicate 8 0)

/-- An arena of `N` lines of `ints` slots whose "next" is `i ↦ (i + 1) mod N`. -/
def ring_arena (ints N : Nat) : Arena :=
  (List.range N).map (fun i => List.replicate ints (((i + 1) % N : Nat) : Int))

/-- Offset `i` is one of the `k`-th, `2k`-th, ... visited slots:
`i mod k = k - 1`. -/
def seq_selected (k : Int) (i : Nat) : Prop := (i : Int) % k = k - 1

instance (k : Int) (i : Nat) : Decidable (seq_selected k i) := by
  unfold seq_selected; infer_instance

/-- The value held by slot `s = (line, slot)` of an arena (0 when missing). -/
def slot_value (arena : Arena) (s : Int × Nat) : Int := (arena.getD s.1.toNat []).getD s.2 0

/-- The line ranges `[off1, off1 + n1)` and `[off2, off2 + n2)` do not meet. -/
def ranges_disjoint (off1 n1 off2 n2 : Int) : Prop := off1 + n1 ≤ off2 ∨ off2 + n2 ≤ off1

instance (off1 n1 off2 n2 : Int) : Decidable (ranges_disjoint off1 n1 off2 n2) := by
  unfold ranges_disjoint; infer_instance

/-- The cursor of mc2thrash2's `sequential_start` after the calls with the
given `wss` arguments, made in order from the cursor `pos`; `none` when one of
the calls is fatal. -/
def cursor_after (SIZE_BITS CACHELINE_SIZE : Nat) : Int → List Int → Option Int
  | pos, [] => some pos
  | pos, wss :: rest =>
    match mc2thrash2.sequential_start SIZE_BITS CACHELINE_SIZE pos wss with
    | (.ok _, pos') => cursor_after SIZE_BITS CACHELINE_SIZE pos' rest
    | (.error _, _) => none

/-- The values of `now` and `last_loop` at the test of the `while` loop of
`loop_for` before iteration `i` (counted from 0), from their values before the
first iteration and the CPU readings of the iterations made: each iteration
does `loop_start = now; now = cputime(); last_loop = now - loop_start`. -/
def loop_for_clock : List Tick → ℚ → ℚ → Nat → ℚ × ℚ
  | _, now, last_loop, 0 => (now, last_loop)
  | [], now, last_loop, _ + 1 => (now, last_loop)
  | t :: ticks, now, _, i + 1 => loop_for_clock ticks t.cpu (t.cpu - now) i

/-- The loop test `now + last_loop < start + exec_time` before iteration `i`:
less than `exec_time` of processor time is recorded. -/
def budget_left (exec_time start : ℚ) (ticks : List Tick) (now last_loop : ℚ) (i : Nat) : Prop :=
  (loop_for_clock ticks now last_loop i).1 + (loop_for_clock ticks now last_loop i).2
    < start + exec_time

/-- Sequencing of runs that keep a log of calls: a run that stopped keeps its
log and its reason, a run that returned is continued with its value and its
log. -/
def logged_bind {α β : Type} (r : List (Int × Int) × Run α)
    (f : α → List (Int × Int) → List (Int × Int) × Run β) : List (Int × Int) × Run β :=
  match r.2 with
  | .ok a => f a r.1
  | .error e => (r.1, .error e)

/-- The call `randrange(min, max)` with the call recorded: the pair
`(min, max)` it is called with is appended to the log of calls, whatever the
call then does. -/
def randrange_logged (RAND_MAX : Nat) (min max : Int) (rs : List Nat) (log : List (Int × Int)) :
    List (Int × Int) × Run (Int × List Nat) :=
  (log ++ [(min, max)], randrange RAND_MAX min max rs)

/-- The body of the shuffle loop of `init_arena`, with its call of `randrange`
recorded: `j = randrange(0, i); temp = arena[j]; arena[j] = arena[i];
arena[i] = temp;`. -/
def shuffle_step_logged (RAND_MAX : Nat) (i : Nat) (arena : Arena) (rs : List Nat)
    (log : List (Int × Int)) : List (Int × Int) × Run (Arena × List Nat) :=
  logged_bind (randrange_logged RAND_MAX 0 (i : Int) rs log) (fun p log' =>
    (log', (swap_lines arena p.1 (i : Int)).map (fun arena' => (arena', p.2))))

/-- The loop `while (1 < i--) { j = randrange(0, i); swap arena[j], arena[i] }`
entered with the given value of `i`, with the calls of `randrange` recorded:
the log of calls when the run returns or stops, and the outcome of the run. -/
def shuffle_logged (RAND_MAX : Nat) :
    Nat → Arena → List Nat → List (Int × Int) → List (Int × Int) × Run (Arena × List Nat)
  | 0, arena, rs, log => (log, .ok (arena, rs))
  | i + 1, arena, rs, log =>
    if 1 < i + 1 then
      logged_bind (shuffle_step_logged RAND_MAX i arena rs log)
        (fun p log' => shuffle_logged RAND_MAX i p.1 p.2 log')
    else (log, .ok (arena, rs))

/-- `init_arena` with the calls of `randrange` recorded: the first loop makes
none, the shuffle loop records its own. -/
def init_arena_logged (RAND_MAX CACHELINE_SIZE : Nat) (arena : Arena) (size : Nat)
    (rs : List Nat) : List (Int × Int) × Run (Arena × List Nat) :=
  let num_arena_elem := size / sizeof_cacheline_t CACHELINE_SIZE
  if INT_MAX < (num_arena_elem : Int) then ([], .error .int_overflow)
  else
    logged_bind (([] : List (Int × Int)), init_lines CACHELINE_SIZE num_arena_elem arena)
      (fun arena1 log => shuffle_logged RAND_MAX num_arena_elem arena1 rs log)

/-- The calls `randrange(min, max)` made by `init_arena`, in order, as the run
itself recorded them. -/
def init_arena_calls (RAND_MAX CACHELINE_SIZE : Nat) (arena : Arena) (size : Nat)
    (rs : List Nat) : List (Int × Int) :=
  (init_arena_logged RAND_MAX CACHELINE_SIZE arena size rs).1

/-- The calls `randrange(0, N - 1)`, ..., `randrange(0, 1)`. -/
def sattolo_calls (N : Nat) : List (Int × Int) :=
  (List.range (N - 1)).map (fun k => ((0 : Int), ((N - 1 - k : Nat) : Int)))

/-- Token `i` is well-formed for `parse_td_intervals`: it parses as
`"[start,end]"` with `0 ≤ start < end` and, when it is not the first, starts
strictly after the end of the previous token. -/
def token_ok (arg : Nat → mc2spin.Scan) (i : Nat) : Prop :=
  (arg i).matched = 2 ∧ 0 ≤ (arg i).start ∧ (arg i).start < (arg i).end_ ∧
    (0 < i → (arg (i - 1)).end_ < (arg i).start)

/-- Token `i` passes the checks of `parse_td_intervals`: it parses as
`"[start,end]"` with `0 ≤ start < end` and, when it is not the first, its
stored start `ms2ns(start)` is strictly greater than the stored end
`ms2ns(end)` of the previous token. -/
def stored_ok {lt_t : Type} [LinearOrder lt_t] (ms2ns : ℚ → lt_t) (arg : Nat → mc2spin.Scan)
    (i : Nat) : Prop :=
  (arg i).matched = 2 ∧ 0 ≤ (arg i).start ∧ (arg i).start < (arg i).end_ ∧
    (0 < i → ms2ns (arg (i - 1)).end_ < ms2ns (arg i).start)

/-- The interval stored for token `i`. -/
def slot_of {lt_t : Type} (ms2ns : ℚ → lt_t) (arg : Nat → mc2spin.Scan) (i : Nat) :
    mc2spin.lt_interval lt_t :=
  ⟨ms2ns (arg i).start, ms2ns (arg i).end_⟩

/-- The map "next" of an array of items: `next_item items i` is `items[i]` as
an index (0 when the entry is missing or negative). -/
def next_item (items : List Int) (i : Nat) : Nat := (items.getD i 0).toNat

/-- The orbit of `s` under `f` is a cycle of length `N`: the `N`-th iterate is
`s`, and the `N - 1` points in between are pairwise distinct and different
from `s`. -/
def orbit_cycle (N : Nat) (f : Nat → Nat) (s : Nat) : Prop :=
  f^[N] s = s ∧
  (∀ t, t < N → 0 < t → f^[t] s ≠ s) ∧
  (∀ t, t < N → ∀ u, u < N → 0 < t → t < u → f^[t] s ≠ f^[u] s)

instance (N : Nat) (f : Nat → Nat) (s : Nat) : Decidable (orbit_cycle N f s) := by
  unfold orbit_cycle; infer_instance

/-! ## Arithmetic helpers -/

theorem wrap32_of_range (x : Int) (h1 : INT_MIN ≤ x) (h2 : x ≤ INT_MAX) : wrap32 x = x := by
  unfold wrap32; unfold INT_MIN at h1; unfold INT_MAX at h2; omega

theorem wrap32_add_wrap32 (a b : Int) : wrap32 (wrap32 a + b) = wrap32 (a + b) := by
  unfold wrap32; omega

theorem tdiv_natCast (x d : Nat) : Int.tdiv (x : Int) (d : Int) = ((x / d : Nat) : Int) := by
  rw [Int.ofNat_tdiv]

/-- A returned value of the rejection loop is the quotient of one of the
supplied PRNG outputs, and differs from `limit`. -/
theorem randrange_loop_ok (devisor limit : Int) (rs rs' : List Nat) (r : Int)
    (h : randrange_loop devisor limit rs = .ok (r, rs')) :
    devisor ≠ 0 ∧ r ≠ limit ∧ ∃ x ∈ rs, r = Int.tdiv (x : Int) devisor := by
  induction rs with
  | nil => simp [randrange_loop] at h
  | cons x rs ih =>
    unfold randrange_loop at h
    by_cases hd : devisor = 0
    · simp [hd] at h
    · simp only [hd, if_false] at h
      by_cases hr : Int.tdiv (x : Int) devisor = limit
      · simp only [hr, if_true] at h
        obtain ⟨h1, h2, y, hy, h3⟩ := ih h
        exact ⟨h1, h2, y, List.mem_cons_of_mem _ hy, h3⟩
      · simp only [hr, if_false] at h
        injection h with h
        injection h with h1 h2
        subst h1
        exact ⟨hd, hr, x, List.mem_cons_self _ _, rfl⟩

theorem randrange_ok (RAND_MAX : Nat) (min max : Int) (rs rs' : List Nat) (r : Int)
    (h : randrange RAND_MAX min max rs = .ok (r, rs')) :
    ∃ retval, randrange_loop (Int.tdiv (RAND_MAX : Int) (wrap32 (max - min))) (wrap32 (max - min)) rs
        = .ok (retval, rs') ∧ r = wrap32 (retval + min) := by
  unfold randrange at h
  by_cases hl : wrap32 (max - min) = 0
  · simp [hl] at h
  · simp only [hl, if_false] at h
    split at h
    · rename_i retval rs1 heq
      injection h with h
      injection h with h1 h2
      subst h1; subst h2
      exact ⟨retval, heq, rfl⟩
    · simp at h

/-! ## `randrange`: range, bias and upper bound -/

/-- C2 (code at the failing input): with glibc's `RAND_MAX = 2147483647`,
`randrange(0, 46409)` on the PRNG output `RAND_MAX` returns 46410, a value
above the exclusive upper bound: a quotient larger than `limit` is not
rejected by `while (retval == limit)`. -/
theorem randrange_exceeds_range :
    randrange 2147483647 0 46409 [2147483647] = .ok (46410, []) ∧ ¬ ((46410 : Int) < 46409) := by
  decide

/-- C4: for `min < max` with `max - min ≤ RAND_MAX` and PRNG outputs in
`[0, RAND_MAX]`, a value returned by `randrange(min, max)` is never the
exclusive upper bound `max`. -/
theorem randrange_never_max (RAND_MAX : Nat) (min max : Int) (rs rs' : List Nat) (r : Int)
    (hRM : (RAND_MAX : Int) ≤ INT_MAX) (hlt : min < max) (hlim : max - min ≤ (RAND_MAX : Int))
    (hrs : ∀ x ∈ rs, x ≤ RAND_MAX)
    (h : randrange RAND_MAX min max rs = .ok (r, rs')) : r ≠ max := by
  obtain ⟨retval, hloop, hr⟩ := randrange_ok RAND_MAX min max rs rs' r h
  obtain ⟨hd, hne, x, hx, hq⟩ := randrange_loop_ok _ _ rs rs' retval hloop
  have hxle := hrs x hx
  have hlimit : wrap32 (max - min) = max - min := by
    apply wrap32_of_range <;> unfold INT_MIN INT_MAX at * <;> omega
  rw [hlimit] at hne hq hd
  have hdpos : 0 ≤ Int.tdiv (RAND_MAX : Int) (max - min) :=
    Int.tdiv_nonneg (Int.ofNat_nonneg _) (by omega)
  have h0 : 0 ≤ retval := by
    rw [hq]; exact Int.tdiv_nonneg (Int.ofNat_nonneg _) hdpos
  have h1 : retval ≤ (x : Int) := by
    rw [hq, Int.tdiv_eq_ediv (Int.ofNat_nonneg _) hdpos]
    exact Int.ediv_le_self _ (Int.ofNat_nonneg _)
  have h2 : (x : Int) ≤ (RAND_MAX : Int) := by exact_mod_cast hxle
  rw [hr]
  unfold wrap32
  unfold INT_MIN INT_MAX at *
  omega

/-- Witness for `randrange_never_max`: `randrange(3, 10)` with
`RAND_MAX = 32767` on the outputs 32767 (rejected) and 20000. -/
theorem randrange_never_max_witness :
    randrange 32767 3 10 [32767, 20000] = .ok (7, []) ∧ (7 : Int) ≠ 10 :=
  ⟨by decide,
   randrange_never_max 32767 3 10 [32767, 20000] [] 7 (by decide) (by decide) (by decide)
     (by decide) (by decide)⟩

/-- The PRNG outputs in `[0, RAND_MAX]` whose quotient by `d` is `k`. -/
theorem card_quotient_eq (M d k : Nat) (hd : 0 < d) (hk : (k + 1) * d ≤ M) :
    ((Finset.range (M + 1)).filter (fun x => x / d = k)).card = d := by
  have hset : (Finset.range (M + 1)).filter (fun x => x / d = k) = Finset.Ico (k * d) (k * d + d) := by
    ext x
    simp only [Finset.mem_filter, Finset.mem_range, Finset.mem_Ico]
    have hmul : (k + 1) * d = k * d + d := by ring
    constructor
    · rintro ⟨_, hx⟩
      subst hx
      constructor
      · exact Nat.div_mul_le_self x d
      · have := Nat.lt_succ_iff.mpr (le_refl (x / d))
        have h2 := (Nat.div_lt_iff_lt_mul hd).mp this
        rw [Nat.succ_eq_add_one, hmul] at h2
        exact h2
    · rintro ⟨h1, h2⟩
      refine ⟨by omega, ?_⟩
      apply Nat.le_antisymm
      · apply Nat.lt_succ_iff.mp
        apply (Nat.div_lt_iff_lt_mul hd).mpr
        rw [Nat.succ_eq_add_one, hmul]; exact h2
      · exact (Nat.le_div_iff_mul_le hd).mpr h1
  rw [hset, Nat.card_Ico]
  omega

/-- On a single PRNG output `x ≤ RAND_MAX`, `randrange(min, max)` returns the
in-range value `v` exactly when `x / devisor = v - min`. -/
theorem randrange_single_iff (RAND_MAX : Nat) (min max v : Int) (x : Nat)
    (hRM : (RAND_MAX : Int) ≤ INT_MAX) (hmin : INT_MIN ≤ min) (hmax : max ≤ INT_MAX)
    (hlt : min < max) (hlim : max - min ≤ (RAND_MAX : Int))
    (hv1 : min ≤ v) (hv2 : v < max) (hx : x ≤ RAND_MAX) :
    randrange RAND_MAX min max [x] = .ok (v, []) ↔
      x / (RAND_MAX / (max - min).toNat) = (v - min).toNat := by
  unfold INT_MIN at hmin
  unfold INT_MAX at hmax hRM
  have hlimit : wrap32 (max - min) = max - min := by
    unfold wrap32; omega
  have hL : ((max - min).toNat : Int) = max - min := Int.toNat_of_nonneg (by omega)
  have hdpos : 0 < RAND_MAX / (max - min).toNat := by
    apply Nat.div_pos
    · have : ((max - min).toNat : Int) ≤ (RAND_MAX : Int) := by rw [hL]; exact hlim
      exact_mod_cast this
    · have : (0 : Int) < ((max - min).toNat : Int) := by rw [hL]; omega
      exact_mod_cast this
  have hdev : Int.tdiv (RAND_MAX : Int) (max - min) = ((RAND_MAX / (max - min).toNat : Nat) : Int) := by
    rw [← tdiv_natCast, hL]
  have hq : Int.tdiv (x : Int) ((RAND_MAX / (max - min).toNat : Nat) : Int)
      = ((x / (RAND_MAX / (max - min).toNat) : Nat) : Int) := tdiv_natCast _ _
  have hqle : x / (RAND_MAX / (max - min).toNat) ≤ x := Nat.div_le_self _ _
  have hdne : ((RAND_MAX / (max - min).toNat : Nat) : Int) ≠ 0 := by
    have : (0 : Int) < ((RAND_MAX / (max - min).toNat : Nat) : Int) := by exact_mod_cast hdpos
    omega
  have hne0 : max - min ≠ 0 := by omega
  unfold randrange
  simp only [hlimit, hne0, if_false, hdev, randrange_loop, hdne, hq]
  generalize x / (RAND_MAX / (max - min).toNat) = q at hqle ⊢
  have hqx : (q : Int) ≤ (RAND_MAX : Int) := by exact_mod_cast (le_trans hqle hx)
  by_cases hrej : (q : Int) = max - min
  · simp only [hrej, if_true]
    constructor
    · intro h; simp at h
    · intro h; omega
  · simp only [hrej, if_false]
    constructor
    · intro h
      injection h with h
      injection h with h _
      unfold wrap32 at h
      omega
    · intro h
      have hv : wrap32 ((q : Int) + min) = v := by
        unfold wrap32
        omega
      rw [hv]

/-- C3: `randrange(min, max)` is unbiased over its target range: whenever
`min < max` and `limit = max - min ≤ RAND_MAX`, every value `v` in `[min, max)`
is the result of exactly `RAND_MAX / limit` single PRNG outputs `x` in
`[0, RAND_MAX]`, the same number for every `v`, also when `limit` does not
divide the size of the PRNG output space. -/
theorem randrange_unbiased (RAND_MAX : Nat) (min max v : Int)
    (hRM : (RAND_MAX : Int) ≤ INT_MAX) (hmin : INT_MIN ≤ min) (hmax : max ≤ INT_MAX)
    (hlt : min < max) (hlim : max - min ≤ (RAND_MAX : Int))
    (hv1 : min ≤ v) (hv2 : v < max) :
    ((Finset.range (RAND_MAX + 1)).filter
        (fun x => randrange RAND_MAX min max [x] = .ok (v, []))).card
      = RAND_MAX / (max - min).toNat := by
  have hL : ((max - min).toNat : Int) = max - min := Int.toNat_of_nonneg (by omega)
  have hLle : (max - min).toNat ≤ RAND_MAX := by
    have : ((max - min).toNat : Int) ≤ (RAND_MAX : Int) := by rw [hL]; exact hlim
    exact_mod_cast this
  have hLpos : 0 < (max - min).toNat := by
    have : (0 : Int) < ((max - min).toNat : Int) := by rw [hL]; omega
    exact_mod_cast this
  have hdpos : 0 < RAND_MAX / (max - min).toNat := Nat.div_pos hLle hLpos
  have hk : (v - min).toNat + 1 ≤ (max - min).toNat := by omega
  have hbound : ((v - min).toNat + 1) * (RAND_MAX / (max - min).toNat) ≤ RAND_MAX :=
    le_trans (Nat.mul_le_mul_right _ hk) (Nat.mul_div_le _ _)
  rw [← card_quotient_eq RAND_MAX (RAND_MAX / (max - min).toNat) (v - min).toNat hdpos hbound]
  congr 1
  apply Finset.filter_congr
  intro x hx
  rw [Finset.mem_range] at hx
  exact randrange_single_iff RAND_MAX min max v x hRM hmin hmax hlt hlim hv1 hv2 (by omega)

/-- Witness for `randrange_unbiased`: with `RAND_MAX = 32767` the value 5 of
the range `[3, 10)` comes from exactly `32767 / 7 = 4681` outputs. -/
theorem randrange_unbiased_witness :
    ((Finset.range (32767 + 1)).filter
        (fun x => randrange 32767 3 10 [x] = .ok (5, []))).card = 32767 / (10 - 3 : Int).toNat :=
  randrange_unbiased 32767 3 10 5 (by decide) (by decide) (by decide) (by decide) (by decide)
    (by decide) (by decide)

/-! ## Runs and loops -/

theorem bind_ok {α β : Type} (x : Run α) (f : α → Run β) (b : β) :
    (x >>= f) = .ok b ↔ ∃ a, x = .ok a ∧ f a = .ok b := by
  cases x with
  | error e => simp [bind, Except.bind]
  | ok a => simp [bind, Except.bind]

/-- Invariant rule for `for_loop`. -/
theorem for_loop_inv {σ : Type} (P : Nat → σ → Prop) (body : Nat → σ → Run σ) :
    ∀ (count i0 : Nat),
      (∀ i s s', i0 ≤ i → i < i0 + count → P i s → body i s = .ok s' → P (i + 1) s') →
      ∀ (s s' : σ), P i0 s → for_loop body count i0 s = .ok s' → P (i0 + count) s' := by
  intro count
  induction count with
  | zero =>
    intro i0 _ s s' hP h
    simp only [for_loop] at h
    injection h with h
    subst h
    simpa using hP
  | succ n ih =>
    intro i0 hstep s s' hP h
    simp only [for_loop] at h
    obtain ⟨s1, h1, h2⟩ := (bind_ok _ _ _).mp h
    have hP1 := hstep i0 s s1 (le_refl _) (by omega) hP h1
    have := ih (i0 + 1)
      (fun i t t' h1 h2 hPt ht => hstep i t t' (by omega) (by omega) hPt ht) s1 s' hP1 h2
    have e : i0 + (n + 1) = i0 + 1 + n := by omega
    rw [e]; exact this

/-- Progress rule for `for_loop`: if the body returns from every state that
satisfies the invariant, the loop returns. -/
theorem for_loop_total {σ : Type} (P : Nat → σ → Prop) (body : Nat → σ → Run σ) :
    ∀ (count i0 : Nat),
      (∀ i s, i0 ≤ i → i < i0 + count → P i s → ∃ s', body i s = .ok s' ∧ P (i + 1) s') →
      ∀ (s : σ), P i0 s → ∃ s', for_loop body count i0 s = .ok s' ∧ P (i0 + count) s' := by
  intro count
  induction count with
  | zero =>
    intro i0 _ s hP
    exact ⟨s, rfl, by simpa using hP⟩
  | succ n ih =>
    intro i0 hstep s hP
    obtain ⟨s1, h1, hP1⟩ := hstep i0 s (le_refl _) (by omega) hP
    obtain ⟨s2, h2, hP2⟩ := ih (i0 + 1)
      (fun i t h1 h2 hPt => hstep i t (by omega) (by omega) hPt) s1 hP1
    refine ⟨s2, ?_, ?_⟩
    · simp only [for_loop]
      exact (bind_ok _ _ _).mpr ⟨s1, h1, h2⟩
    · have e : i0 + (n + 1) = i0 + 1 + n := by omega
      rw [e]; exact hP2

/-! ## Memory accesses -/

theorem read_line_ok (arena : Arena) (i : Int) (l : Line) (h : read_line arena i = .ok l) :
    0 ≤ i ∧ arena[i.toNat]? = some l := by
  unfold read_line at h
  by_cases hi : i < 0
  · simp [hi] at h
  · simp only [hi, if_false] at h
    split at h
    · rename_i l1 heq
      injection h with h
      subst h
      exact ⟨by omega, heq⟩
    · simp at h

theorem read_line_natCast (arena : Arena) (i : Nat) (l : Line) (h : arena[i]? = some l) :
    read_line arena (i : Int) = .ok l := by
  unfold read_line
  have : ¬ ((i : Int) < 0) := by omega
  simp [this, h]

theorem write_line_ok (arena arena' : Arena) (i : Int) (l : Line)
    (h : write_line arena i l = .ok arena') :
    0 ≤ i ∧ i.toNat < arena.length ∧ arena' = arena.set i.toNat l := by
  unfold write_line at h
  by_cases hi : i < 0
  · simp [hi] at h
  · simp only [hi, if_false] at h
    by_cases hb : i.toNat < arena.length
    · simp only [hb, if_true] at h
      injection h with h
      exact ⟨by omega, hb, h.symm⟩
    · simp [hb] at h

theorem write_line_natCast (arena : Arena) (i : Nat) (l : Line) (h : i < arena.length) :
    write_line arena (i : Int) l = .ok (arena.set i l) := by
  unfold write_line
  have : ¬ ((i : Int) < 0) := by omega
  simp [this, h]

/-- A successful `swap_lines` exchanges the two lines. -/
theorem swap_lines_ok (arena arena' : Arena) (j i : Int) (h : swap_lines arena j i = .ok arena') :
    ∃ lj li, 0 ≤ j ∧ 0 ≤ i ∧ arena[j.toNat]? = some lj ∧ arena[i.toNat]? = some li ∧
      arena' = (arena.set j.toNat li).set i.toNat lj := by
  unfold swap_lines at h
  obtain ⟨temp, h1, h⟩ := (bind_ok _ _ _).mp h
  obtain ⟨li, h2, h⟩ := (bind_ok _ _ _).mp h
  obtain ⟨arena1, h3, h4⟩ := (bind_ok _ _ _).mp h
  obtain ⟨hj, hjr⟩ := read_line_ok _ _ _ h1
  obtain ⟨hi, hir⟩ := read_line_ok _ _ _ h2
  obtain ⟨_, _, e1⟩ := write_line_ok _ _ _ _ h3
  obtain ⟨_, _, e2⟩ := write_line_ok _ _ _ _ h4
  exact ⟨temp, li, hj, hi, hjr, hir, by rw [e2, e1]⟩

theorem swap_lines_natCast (arena : Arena) (j i : Nat) (lj li : Line)
    (hj : arena[j]? = some lj) (hi : arena[i]? = some li) :
    swap_lines arena (j : Int) (i : Int) = .ok ((arena.set j li).set i lj) := by
  have hjlt : j < arena.length := by
    by_contra hc
    rw [List.getElem?_eq_none (by omega)] at hj
    simp at hj
  have hilt : i < arena.length := by
    by_contra hc
    rw [List.getElem?_eq_none (by omega)] at hi
    simp at hi
  unfold swap_lines
  rw [read_line_natCast arena j lj hj, read_line_natCast arena i li hi]
  simp only [bind, Except.bind]
  rw [write_line_natCast arena j li hjlt]
  simp only []
  rw [write_line_natCast _ i lj (by simpa using hilt)]

/-! ## Slot-uniform arenas -/

theorem swap_lines_slot_uniform (ints N : Nat) (a a' : Arena) (j i : Int)
    (hu : slot_uniform ints N a) (h : swap_lines a j i = .ok a') : slot_uniform ints N a' := by
  obtain ⟨lj, li, hj0, hi0, hj, hi, e⟩ := swap_lines_ok a a' j i h
  obtain ⟨hlen, hall⟩ := hu
  have hjlt : j.toNat < N := by
    by_contra hc
    rw [List.getElem?_eq_none (by omega)] at hj
    simp at hj
  have hilt : i.toNat < N := by
    by_contra hc
    rw [List.getElem?_eq_none (by omega)] at hi
    simp at hi
  subst e
  refine ⟨by simp [hlen], ?_⟩
  intro k hk
  rw [List.getElem?_set, List.getElem?_set]
  by_cases h1 : i.toNat = k
  · obtain ⟨v, hv, hvl⟩ := hall j.toNat hjlt
    refine ⟨v, hv, ?_⟩
    rw [hvl] at hj
    injection hj with hj
    have : k < a.length := by omega
    simp [h1, this, hj]
  · simp only [h1, if_false]
    by_cases h2 : j.toNat = k
    · obtain ⟨v, hv, hvl⟩ := hall i.toNat hilt
      refine ⟨v, hv, ?_⟩
      rw [hvl] at hi
      injection hi with hi
      have : k < a.length := by omega
      simp [h2, this, hi]
    · simp only [h2, if_false]
      exact hall k hk

theorem shuffle_slot_uniform (RAND_MAX ints N : Nat) :
    ∀ (i : Nat) (a a' : Arena) (rs rs' : List Nat), slot_uniform ints N a →
      shuffle RAND_MAX i a rs = .ok (a', rs') → slot_uniform ints N a' := by
  intro i
  induction i with
  | zero =>
    intro a a' rs rs' hu h
    simp only [shuffle] at h
    injection h with h
    injection h with h1 _
    subst h1; exact hu
  | succ n ih =>
    intro a a' rs rs' hu h
    simp only [shuffle] at h
    by_cases hn : 1 < n + 1
    · simp only [hn, if_true] at h
      obtain ⟨⟨j, rs1⟩, _, h⟩ := (bind_ok _ _ _).mp h
      obtain ⟨a1, h2, h3⟩ := (bind_ok _ _ _).mp h
      exact ih a1 a' rs1 rs' (swap_lines_slot_uniform ints N a a1 j n hu h2) h3
    · simp only [hn, if_false] at h
      injection h with h
      injection h with h1 _
      subst h1; exact hu

/-- The first loop of `init_arena` on an arena of at least `N` lines returns,
keeps the length and sets line `k < N` to `k` in every slot. -/
theorem init_lines_spec (CACHELINE_SIZE N : Nat) (arena : Arena) (hlen : N ≤ arena.length) :
    ∃ a1, init_lines CACHELINE_SIZE N arena = .ok a1 ∧ a1.length = arena.length ∧
      (∀ k, k < N → a1[k]? = some (List.replicate (INTS_IN_CACHELINE CACHELINE_SIZE) (k : Int))) ∧
      (∀ k, N ≤ k → a1[k]? = arena[k]?) := by
  obtain ⟨a1, h1, hl, hP1, hP2⟩ := for_loop_total
    (fun i (a : Arena) => a.length = arena.length ∧
      (∀ k, k < i → a[k]? = some (List.replicate (INTS_IN_CACHELINE CACHELINE_SIZE) (k : Int))) ∧
        (∀ k, i ≤ k → a[k]? = arena[k]?))
    (fun i a => write_line a (i : Int) (List.replicate (INTS_IN_CACHELINE CACHELINE_SIZE) (i : Int)))
    N 0
    (by
      intro i a _ hi ⟨hl, hP1, hP2⟩
      refine ⟨_, write_line_natCast a i _ (by omega), by simp [hl], ?_, ?_⟩
      · intro k hk
        rw [List.getElem?_set]
        by_cases hki : i = k
        · subst hki
          have : i < a.length := by omega
          simp [this]
        · simp only [hki, if_false]
          exact hP1 k (by omega)
      · intro k hk
        rw [List.getElem?_set]
        have : ¬ i = k := by omega
        simp only [this, if_false]
        exact hP2 k (by omega))
    arena ⟨rfl, fun k hk => absurd hk (by omega), fun k _ => rfl⟩
  refine ⟨a1, h1, hl, ?_, ?_⟩
  · intro k hk; exact hP1 k (by omega)
  · intro k hk; exact hP2 k (by omega)

/-- An arena returned by `init_arena` is slot-uniform. -/
theorem init_arena_uniform (RAND_MAX CACHELINE_SIZE : Nat) (arena arena' : Arena)
    (size : Nat) (rs rs' : List Nat)
    (hlen : arena.length = size / sizeof_cacheline_t CACHELINE_SIZE)
    (h : init_arena RAND_MAX CACHELINE_SIZE arena size rs = .ok (arena', rs')) :
    slot_uniform (INTS_IN_CACHELINE CACHELINE_SIZE) (size / sizeof_cacheline_t CACHELINE_SIZE) arena' := by
  unfold init_arena at h
  simp only [] at h
  split at h
  · simp at h
  · obtain ⟨a1, h1, h2⟩ := (bind_ok _ _ _).mp h
    obtain ⟨a1', e1, hl, hP1, _⟩ := init_lines_spec CACHELINE_SIZE
      (size / sizeof_cacheline_t CACHELINE_SIZE) arena (by omega)
    rw [e1] at h1
    injection h1 with h1
    subst h1
    apply shuffle_slot_uniform RAND_MAX _ _ _ a1' arena' rs rs' _ h2
    exact ⟨by omega, fun i hi => ⟨i, hi, hP1 i hi⟩⟩

/-- No line `arena[j]` exists for `j` equal to the number of lines: the read
`temp = arena[j]` of the swap is outside the arena. -/
theorem swap_lines_past_end (arena : Arena) (i : Int) :
    swap_lines arena (arena.length : Int) i = .error .out_of_bounds := by
  unfold swap_lines read_line
  have h : ¬ ((arena.length : Int) < 0) := by omega
  simp [h, bind, Except.bind]

/-- C5 (code at the failing input): mc2pollute run with `-k 1488` builds an
arena of `1488 * 1024 / 32 = 47616` lines. With glibc's `RAND_MAX` the first
call of the shuffle is `randrange(0, 47615)` with `devisor = 45100`; on the
PRNG output 2147481600 it returns 47616, which is neither in `[0, 47615)` nor
the index of a line. The swap then reads `arena[47616]`, one line past the end
of the arena: `init_arena` does not produce an arena of 47616 slot-uniform
lines, whatever the later PRNG outputs are. -/
theorem init_arena_swaps_past_arena (rs : List Nat) :
    (1488 * 1024 / sizeof_cacheline_t 32 = 47616) ∧
    randrange 2147483647 0 47615 (2147481600 :: rs) = .ok (47616, rs) ∧
    init_arena 2147483647 32 (List.replicate 47616 (List.replicate 8 0)) (1488 * 1024)
      (2147481600 :: rs) = .error .out_of_bounds := by
  have hsize : 1488 * 1024 / sizeof_cacheline_t 32 = 47616 := by decide
  have hr : randrange 2147483647 0 ((47615 : Nat) : Int) (2147481600 :: rs)
      = .ok (((47616 : Nat) : Int), rs) := rfl
  refine ⟨hsize, hr, ?_⟩
  obtain ⟨a1, e1, hl, _, _⟩ := init_lines_spec 32 47616
    (List.replicate 47616 (List.replicate 8 0)) (by rw [List.length_replicate])
  rw [List.length_replicate] at hl
  unfold init_arena
  simp only [hsize]
  have : ¬ INT_MAX < ((47616 : Nat) : Int) := by decide
  rw [if_neg this, e1]
  simp only [bind, Except.bind]
  have e : (47616 : Nat) = 47615 + 1 := rfl
  rw [e, shuffle]
  have hlt : 1 < 47615 + 1 := by decide
  simp only [hlt, if_true]
  rw [hr]
  simp only [bind, Except.bind]
  have hs := swap_lines_past_end a1 ((47615 : Nat) : Int)
  rw [hl] at hs
  rw [hs]

/-! ## Slot accesses -/

theorem set_of_getElem? {α : Type} (l : List α) (i : Nat) (x : α) (h : l[i]? = some x) :
    l.set i x = l := by
  apply List.ext_getElem?
  intro n
  rw [List.getElem?_set]
  by_cases hn : i = n
  · subst hn
    have hlt : i < l.length := by
      by_contra hc
      rw [List.getElem?_eq_none (by omega)] at h
      simp at h
    simp [hlt, h]
  · simp [hn]

theorem read_slot_ok (arena : Arena) (i : Int) (j : Nat) (v : Int)
    (h : read_slot arena i j = .ok v) :
    ∃ l, 0 ≤ i ∧ arena[i.toNat]? = some l ∧ l[j]? = some v := by
  unfold read_slot at h
  obtain ⟨l, h1, h2⟩ := (bind_ok _ _ _).mp h
  obtain ⟨hi, hl⟩ := read_line_ok _ _ _ h1
  refine ⟨l, hi, hl, ?_⟩
  split at h2
  · rename_i v1 heq
    injection h2 with h2
    subst h2; exact heq
  · simp at h2

theorem read_slot_of_getElem? (arena : Arena) (i : Int) (j : Nat) (l : Line) (v : Int)
    (hi : 0 ≤ i) (hl : arena[i.toNat]? = some l) (hv : l[j]? = some v) :
    read_slot arena i j = .ok v := by
  unfold read_slot read_line
  have : ¬ i < 0 := by omega
  simp [this, hl, hv, bind, Except.bind]

/-- Storing back the value just read leaves the arena as it was. -/
theorem write_slot_same (arena : Arena) (i : Int) (j : Nat) (v : Int)
    (hr : read_slot arena i j = .ok v) : write_slot arena i j v = .ok arena := by
  obtain ⟨l, hi, hl, hv⟩ := read_slot_ok arena i j v hr
  have hjlt : j < l.length := by
    by_contra hc
    rw [List.getElem?_eq_none (by omega)] at hv
    simp at hv
  have hilt : i.toNat < arena.length := by
    by_contra hc
    rw [List.getElem?_eq_none (by omega)] at hl
    simp at hl
  unfold write_slot read_line write_line
  have : ¬ i < 0 := by omega
  simp [this, hl, hjlt, hilt, bind, Except.bind]
  rw [set_of_getElem? l j v hv, set_of_getElem? arena i.toNat l hl]

namespace mc2thrash2

theorem read_step_ok (which_line : Int) (j : Nat) (s s' : WalkState)
    (h : read_step which_line j s = .ok s') :
    ∃ v, read_slot s.arena which_line j = .ok v ∧
      s' = { s with next := v, sum := wrap32 (s.sum + v),
                    reads := s.reads ++ [(which_line, j)] } := by
  unfold read_step at h
  obtain ⟨v, h1, h2⟩ := (bind_ok _ _ _).mp h
  injection h2 with h2
  exact ⟨v, h1, h2.symm⟩

/-- The inner-loop step of the write branch either behaves as the read step
or logs a store of the value just read, which leaves the arena unchanged. -/
theorem write_step_ok (write_cycle w which_line : Int) (j : Nat) (s s' : WalkState)
    (h : write_step write_cycle w which_line j s = .ok s') :
    ∃ v, read_slot s.arena which_line j = .ok v ∧
      ((Int.tmod w write_cycle ≠ wrap32 (write_cycle - 1) ∧
          s' = { s with next := v, sum := wrap32 (s.sum + v),
                        reads := s.reads ++ [(which_line, j)] }) ∨
       (Int.tmod w write_cycle = wrap32 (write_cycle - 1) ∧
          s' = { s with next := v, reads := s.reads ++ [(which_line, j)],
                        writes := s.writes ++ [(which_line, j)] })) := by
  unfold write_step at h
  obtain ⟨v, h1, h2⟩ := (bind_ok _ _ _).mp h
  refine ⟨v, h1, ?_⟩
  by_cases hc : Int.tmod w write_cycle = wrap32 (write_cycle - 1)
  · right
    simp only [hc, ne_eq, not_true_eq_false, if_false] at h2
    rw [write_slot_same s.arena which_line j v h1] at h2
    simp only [bind, Except.bind] at h2
    injection h2 with h2
    exact ⟨hc, h2.symm⟩
  · left
    simp only [ne_eq, hc, not_false_eq_true, if_true] at h2
    injection h2 with h2
    exact ⟨hc, h2.symm⟩

/-- When the write test never fires, the write step is the read step. -/
theorem write_step_eq_read_step (write_cycle w which_line : Int) (j : Nat) (s : WalkState)
    (hc : Int.tmod w write_cycle ≠ wrap32 (write_cycle - 1)) :
    write_step write_cycle w which_line j s = read_step which_line j s := by
  unfold write_step read_step
  simp only [ne_eq, hc, not_false_eq_true, if_true]

/-- Any run of `random_walk` that returns leaves the arena as it was. -/
theorem random_walk_run_arena (CACHELINE_SIZE : Nat) (arena : Arena) (start wss write_cycle : Int)
    (st : WalkState) (h : random_walk_run CACHELINE_SIZE arena start wss write_cycle = .ok st) :
    st.arena = arena := by
  unfold random_walk_run at h
  simp only [] at h
  split at h
  · have := for_loop_inv (fun _ (s : WalkState) => s.arena = arena) _ _ 0
      (by
        intro i s s' _ _ hP hb
        have := for_loop_inv (fun _ (t : WalkState) => t.arena = arena) _ _ 0
          (by
            intro j t t' _ _ hQ ht
            obtain ⟨v, _, e⟩ := read_step_ok _ _ _ _ ht
            rw [e]; exact hQ) _ _ (by exact hP) hb
        exact this) _ _ rfl h
    exact this
  · have := for_loop_inv (fun _ (s : WalkState) => s.arena = arena) _ _ 0
      (by
        intro i s s' _ _ hP hb
        have := for_loop_inv (fun _ (t : WalkState) => t.arena = arena) _ _ 0
          (by
            intro j t t' _ _ hQ ht
            obtain ⟨v, _, e⟩ := write_step_ok _ _ _ _ _ _ ht
            rcases e with ⟨_, e⟩ | ⟨_, e⟩ <;> (rw [e]; exact hQ)) _ _ (by exact hP) hb
        exact this) _ _ rfl h
    exact this

end mc2thrash2

namespace mc2pollute

theorem pollute_read_step_ok (s s' : WalkState) (h : read_step s = .ok s') :
    ∃ v, read_slot s.arena s.next 0 = .ok v ∧
      s' = { s with next := v, sum := wrap32 (s.sum + v),
                    lines := s.lines ++ [s.next], reads := s.reads ++ [(s.next, 0)] } := by
  unfold read_step at h
  obtain ⟨v, h1, h2⟩ := (bind_ok _ _ _).mp h
  injection h2 with h2
  exact ⟨v, h1, h2.symm⟩

theorem pollute_write_step_ok (write_cycle w : Int) (s s' : WalkState)
    (h : write_step write_cycle w s = .ok s') :
    ∃ v, read_slot s.arena s.next 0 = .ok v ∧
      ((Int.tmod w write_cycle ≠ wrap32 (write_cycle - 1) ∧
          s' = { s with next := v, sum := wrap32 (s.sum + v),
                        lines := s.lines ++ [s.next], reads := s.reads ++ [(s.next, 0)] }) ∨
       (Int.tmod w write_cycle = wrap32 (write_cycle - 1) ∧
          s' = { s with next := v, lines := s.lines ++ [s.next],
                        reads := s.reads ++ [(s.next, 0)],
                        writes := s.writes ++ [(s.next, 0)] })) := by
  unfold write_step at h
  simp only [] at h
  obtain ⟨v, h1, h2⟩ := (bind_ok _ _ _).mp h
  refine ⟨v, h1, ?_⟩
  by_cases hc : Int.tmod w write_cycle = wrap32 (write_cycle - 1)
  · right
    simp only [hc, ne_eq, not_true_eq_false, if_false] at h2
    rw [write_slot_same s.arena s.next 0 v h1] at h2
    simp only [bind, Except.bind] at h2
    injection h2 with h2
    exact ⟨hc, h2.symm⟩
  · left
    simp only [ne_eq, hc, not_false_eq_true, if_true] at h2
    injection h2 with h2
    exact ⟨hc, h2.symm⟩

/-- Any run of mc2pollute's `random_walk` that returns leaves the arena as it
was. -/
theorem pollute_random_walk_run_arena (CACHELINE_SIZE : Nat) (arena : Arena) (start wss write_cycle : Int)
    (st : WalkState) (h : random_walk_run CACHELINE_SIZE arena start wss write_cycle = .ok st) :
    st.arena = arena := by
  unfold random_walk_run at h
  simp only [] at h
  split at h
  · exact for_loop_inv (fun _ (s : WalkState) => s.arena = arena) _ _ 0
      (by
        intro i s s' _ _ hP hb
        obtain ⟨v, _, e⟩ := pollute_read_step_ok _ _ hb
        rw [e]; exact hP) _ _ rfl h
  · exact for_loop_inv (fun _ (s : WalkState) => s.arena = arena) _ _ 0
      (by
        intro i s s' _ _ hP hb
        obtain ⟨v, _, e⟩ := pollute_write_step_ok _ _ _ _ hb
        rcases e with ⟨_, e⟩ | ⟨_, e⟩ <;> (rw [e]; exact hP)) _ _ rfl h

end mc2pollute

/-! ## Walks over a slot-uniform arena -/

theorem slots_of_append (ints : Nat) (ls : List Int) (l : Int) :
    slots_of ints (ls ++ [l]) = slots_of ints ls ++ (List.range ints).map (fun j => (l, j)) := by
  induction ls with
  | nil => simp [slots_of]
  | cons x xs ih => simp [slots_of, ih]

theorem slots_of_length (ints : Nat) (ls : List Int) :
    (slots_of ints ls).length = ls.length * ints := by
  induction ls with
  | nil => simp [slots_of]
  | cons x xs ih => simp [slots_of, ih]; ring

theorem slot_uniform_next_line (ints N : Nat) (arena : Arena) (hu : slot_uniform ints N arena)
    (hints : 0 < ints) (i : Nat) (hi : i < N) :
    next_line arena i < N ∧
      arena[i]? = some (List.replicate ints ((next_line arena i : Nat) : Int)) := by
  obtain ⟨v, hv, hl⟩ := hu.2 i hi
  have : next_line arena i = v := by
    unfold next_line
    simp only [List.getD_eq_getElem?_getD, hl, Option.getD_some]
    rw [List.getElem?_replicate]
    simp [hints]
  rw [this]
  exact ⟨hv, hl⟩

namespace mc2thrash2

/-- The inner loop of `random_walk` over the first `k` slots of a line whose
`ints ≥ k` slots all hold `v`. -/
theorem inner_loop_uniform (k ints : Nat) (arena : Arena) (write_cycle w wl v : Int)
    (hk : k ≤ ints)
    (hwl : 0 ≤ wl) (hline : arena[wl.toNat]? = some (List.replicate ints v))
    (s : WalkState) (hs : s.arena = arena) (hsum : wrap32 s.sum = s.sum) :
    ∃ s', for_loop (write_step write_cycle w wl) k 0 s = .ok s' ∧
      s'.arena = arena ∧ s'.lines = s.lines ∧
      s'.next = (if k = 0 then s.next else v) ∧
      s'.reads = s.reads ++ (List.range k).map (fun j => (wl, j)) ∧
      s'.writes = s.writes ++
        (if Int.tmod w write_cycle ≠ wrap32 (write_cycle - 1) then []
         else (List.range k).map (fun j => (wl, j))) ∧
      s'.sum = (if Int.tmod w write_cycle ≠ wrap32 (write_cycle - 1)
        then wrap32 (s.sum + (k : Int) * v) else s.sum) := by
  obtain ⟨s', h, hP⟩ := for_loop_total
    (fun j (t : WalkState) => t.arena = arena ∧ t.lines = s.lines ∧
      t.next = (if j = 0 then s.next else v) ∧
      t.reads = s.reads ++ (List.range j).map (fun j => (wl, j)) ∧
      t.writes = s.writes ++
        (if Int.tmod w write_cycle ≠ wrap32 (write_cycle - 1) then []
         else (List.range j).map (fun j => (wl, j))) ∧
      t.sum = (if Int.tmod w write_cycle ≠ wrap32 (write_cycle - 1)
        then wrap32 (s.sum + (j : Int) * v) else s.sum))
    (write_step write_cycle w wl) k 0
    (by
      intro j t _ hj ⟨ha, hl, hn, hr, hw, hsum⟩
      have hread : read_slot t.arena wl j = .ok v := by
        rw [ha]
        apply read_slot_of_getElem? arena wl j _ v hwl hline
        rw [List.getElem?_replicate]
        have : j < ints := by omega
        simp [this]
      by_cases hc : Int.tmod w write_cycle = wrap32 (write_cycle - 1)
      · refine ⟨{ t with next := v, reads := t.reads ++ [(wl, j)],
                         writes := t.writes ++ [(wl, j)] }, ?_, ?_⟩
        · unfold write_step
          rw [hread]
          simp only [bind, Except.bind, hc, ne_eq, not_true_eq_false, if_false]
          rw [write_slot_same t.arena wl j v hread]
        · simp only [hc, ne_eq, not_true_eq_false, if_false] at hw hsum ⊢
          refine ⟨ha, hl, by simp, ?_, ?_, hsum⟩
          · rw [hr, List.range_succ]; simp
          · rw [hw, List.range_succ]; simp
      · refine ⟨{ t with next := v, sum := wrap32 (t.sum + v),
                         reads := t.reads ++ [(wl, j)] }, ?_, ?_⟩
        · unfold write_step
          rw [hread]
          simp only [bind, Except.bind, hc, ne_eq, not_false_eq_true, if_true]
        · simp only [hc, ne_eq, not_false_eq_true, if_true] at hw hsum ⊢
          refine ⟨ha, hl, by simp, ?_, hw, ?_⟩
          · rw [hr, List.range_succ]; simp
          · rw [hsum, wrap32_add_wrap32]
            congr 1
            push_cast
            ring)
    s ⟨hs, rfl, by simp, by simp, by simp, by simp [hsum]⟩
  refine ⟨s', h, ?_⟩
  simpa using hP

end mc2thrash2
theorem wrap32_idem (x : Int) : wrap32 (wrap32 x) = wrap32 x := by
  unfold wrap32; omega

theorem next_line_iterate_lt (ints N : Nat) (arena : Arena) (hu : slot_uniform ints N arena)
    (hints : 0 < ints) (p : Nat) (hp : p < N) : ∀ t, (next_line arena)^[t] p < N := by
  intro t
  induction t with
  | zero => simpa using hp
  | succ n ih =>
    rw [Function.iterate_succ_apply']
    exact (slot_uniform_next_line ints N arena hu hints _ ih).1

theorem walk_lines_succ (arena : Arena) (p n : Nat) :
    walk_lines arena p (n + 1) = walk_lines arena p n ++ [(((next_line arena)^[n] p : Nat) : Int)] := by
  unfold walk_lines
  rw [List.range_succ, List.map_append]
  rfl

theorem walk_total_succ (arena : Arena) (p n : Nat) :
    walk_total arena p (n + 1) = walk_total arena p n + (((next_line arena)^[n + 1] p : Nat) : Int) := by
  unfold walk_total
  rw [List.range_succ, List.map_append, List.sum_append]
  simp

namespace mc2thrash2

/-- The outer loop of `random_walk` on a slot-uniform arena: it returns, and
its final state is determined by the iterates of "next". The test
`w % write_cycle != write_cycle - 1` has the same outcome in every iteration,
as `w` does not change. -/
theorem outer_loop_uniform (k ints N : Nat) (arena : Arena) (write_cycle w : Int)
    (hu : slot_uniform ints N arena) (hk0 : 0 < k) (hk : k ≤ ints) (p : Nat) (hp : p < N)
    (n : Nat) :
    ∃ st, for_loop
        (fun _ s => for_loop (write_step write_cycle w s.next) k 0
          { s with lines := s.lines ++ [s.next] })
        n 0 ⟨0, (p : Int), arena, [], [], []⟩ = .ok st ∧
      st.arena = arena ∧
      st.next = (((next_line arena)^[n] p : Nat) : Int) ∧
      st.lines = walk_lines arena p n ∧
      st.reads = slots_of k (walk_lines arena p n) ∧
      st.writes = (if Int.tmod w write_cycle ≠ wrap32 (write_cycle - 1) then []
        else slots_of k (walk_lines arena p n)) ∧
      st.sum = (if Int.tmod w write_cycle ≠ wrap32 (write_cycle - 1)
        then wrap32 ((k : Int) * walk_total arena p n) else 0) := by
  have hints : 0 < ints := Nat.lt_of_lt_of_le hk0 hk
  obtain ⟨st, h, hP⟩ := for_loop_total
    (fun i (s : WalkState) => s.arena = arena ∧
      s.next = (((next_line arena)^[i] p : Nat) : Int) ∧
      s.lines = walk_lines arena p i ∧
      s.reads = slots_of k (walk_lines arena p i) ∧
      s.writes = (if Int.tmod w write_cycle ≠ wrap32 (write_cycle - 1) then []
        else slots_of k (walk_lines arena p i)) ∧
      s.sum = (if Int.tmod w write_cycle ≠ wrap32 (write_cycle - 1)
        then wrap32 ((k : Int) * walk_total arena p i) else 0))
    (fun _ s => for_loop (write_step write_cycle w s.next) k 0
          { s with lines := s.lines ++ [s.next] })
    n 0
    (by
      intro i s _ _ ⟨ha, hn, hl, hr, hw, hsum⟩
      have hlt := next_line_iterate_lt ints N arena hu hints p hp i
      obtain ⟨_, hline⟩ := slot_uniform_next_line ints N arena hu hints _ hlt
      have hsumr : wrap32 s.sum = s.sum := by
        rw [hsum]; split
        · exact wrap32_idem _
        · rfl
      obtain ⟨s', h1, h2, h3, h4, h5, h6, h7⟩ := inner_loop_uniform k ints arena write_cycle w
        s.next (((next_line arena) ((next_line arena)^[i] p) : Nat) : Int) hk
        (by rw [hn]; omega) (by rw [hn]; simpa using hline)
        { s with lines := s.lines ++ [s.next] } ha hsumr
      refine ⟨s', h1, h2, ?_, ?_, ?_, ?_, ?_⟩
      · rw [h4, Function.iterate_succ_apply']
        have : ¬ k = 0 := by omega
        simp [this]
      · rw [h3, walk_lines_succ]
        simp only []
        rw [hl, hn]
      · rw [h5, walk_lines_succ, slots_of_append]
        simp only []
        rw [hr, hn]
      · rw [h6, walk_lines_succ, slots_of_append]
        simp only []
        rw [hw, hn]
        split <;> simp
      · rw [h7]
        simp only []
        rw [hsum, walk_total_succ, Function.iterate_succ_apply']
        split
        · rw [wrap32_add_wrap32]
          congr 1
          ring
        · rfl)
    ⟨0, (p : Int), arena, [], [], []⟩
    ⟨rfl, by simp, by simp [walk_lines], by simp [walk_lines, slots_of],
     by simp [walk_lines, slots_of], by simp [walk_total, wrap32]⟩
  refine ⟨st, h, ?_⟩
  simpa using hP

end mc2thrash2
/-- With `w = 0`, the write test `w % write_cycle != write_cycle - 1` fails
exactly for `write_cycle = 1`. -/
theorem write_test_iff (write_cycle : Int) (h1 : INT_MIN ≤ write_cycle) (h2 : write_cycle ≤ INT_MAX) :
    Int.tmod 0 write_cycle ≠ wrap32 (write_cycle - 1) ↔ write_cycle ≠ 1 := by
  unfold INT_MIN at h1
  unfold INT_MAX at h2
  rw [Int.zero_tmod]
  unfold wrap32
  omega

namespace mc2thrash2

theorem read_step_eq_write_step (which_line : Int) :
    read_step which_line = write_step 0 0 which_line := by
  funext j s
  rw [write_step_eq_read_step]
  decide

/-- `random_walk` (mc2thrash2.c, resspin.c) on a slot-uniform arena of `N`
lines of at least 8 slots, started at a line of the arena: it returns, leaves
the arena as it was, and follows the iterates of "next" for `numlines` steps
reading the first `INTS_IN_CACHELINE` (8) slots of each line entered. Slots
are stored to only for `write_cycle = 1` (then all those read, and nothing is
summed). -/
theorem random_walk_run_uniform (CACHELINE_SIZE N : Nat) (arena : Arena)
    (start wss write_cycle : Int)
    (hu : slot_uniform (INTS_IN_CACHELINE CACHELINE_SIZE) N arena)
    (hints : INTS_IN_CACHELINE mc2thrash2.CACHELINE_SIZE ≤ INTS_IN_CACHELINE CACHELINE_SIZE)
    (h0 : 0 ≤ start) (hN : start < (N : Int))
    (hw1 : INT_MIN ≤ write_cycle) (hw2 : write_cycle ≤ INT_MAX) :
    ∃ st, random_walk_run CACHELINE_SIZE arena start wss write_cycle = .ok st ∧
      st.arena = arena ∧
      st.next = (((next_line arena)^[(wrap32 (wss * (CACHELINES_IN_1KB CACHELINE_SIZE : Int))).toNat]
        start.toNat : Nat) : Int) ∧
      st.lines = walk_lines arena start.toNat
        (wrap32 (wss * (CACHELINES_IN_1KB CACHELINE_SIZE : Int))).toNat ∧
      st.reads = slots_of (INTS_IN_CACHELINE mc2thrash2.CACHELINE_SIZE) st.lines ∧
      st.writes = (if write_cycle = 1 then st.reads else []) ∧
      st.sum = (if write_cycle = 1 then 0
        else wrap32 ((INTS_IN_CACHELINE mc2thrash2.CACHELINE_SIZE : Int)
          * walk_total arena start.toNat
            (wrap32 (wss * (CACHELINES_IN_1KB CACHELINE_SIZE : Int))).toNat)) := by
  have hp : start.toNat < N := by omega
  have hstart : ((start.toNat : Nat) : Int) = start := Int.toNat_of_nonneg h0
  have hk0 : 0 < INTS_IN_CACHELINE mc2thrash2.CACHELINE_SIZE := by decide
  unfold random_walk_run
  simp only []
  by_cases hz : write_cycle = 0
  · subst hz
    simp only [if_true, read_step_eq_write_step]
    obtain ⟨st, h, ha, hn, hl, hr, hw, hs⟩ := outer_loop_uniform
      (INTS_IN_CACHELINE mc2thrash2.CACHELINE_SIZE) (INTS_IN_CACHELINE CACHELINE_SIZE) N arena 0 0
      hu hk0 hints start.toNat hp
      (wrap32 (wss * (CACHELINES_IN_1KB CACHELINE_SIZE : Int))).toNat
    rw [hstart] at h
    have ht : Int.tmod 0 0 ≠ wrap32 (0 - 1) := by decide
    refine ⟨st, h, ha, hn, hl, by rw [hr, hl], ?_, ?_⟩
    · rw [hw, if_pos ht]; simp
    · rw [hs, if_pos ht]; simp
  · simp only [hz, if_false]
    obtain ⟨st, h, ha, hn, hl, hr, hw, hs⟩ := outer_loop_uniform
      (INTS_IN_CACHELINE mc2thrash2.CACHELINE_SIZE) (INTS_IN_CACHELINE CACHELINE_SIZE) N arena
      write_cycle 0 hu hk0 hints start.toNat hp
      (wrap32 (wss * (CACHELINES_IN_1KB CACHELINE_SIZE : Int))).toNat
    rw [hstart] at h
    have htest := write_test_iff write_cycle hw1 hw2
    refine ⟨st, h, ha, hn, hl, by rw [hr, hl], ?_, ?_⟩
    · rw [hw, hr]
      by_cases h1 : write_cycle = 1
      · have : ¬ (Int.tmod 0 write_cycle ≠ wrap32 (write_cycle - 1)) := by
          rw [htest]; simpa using h1
        rw [if_neg this, if_pos h1]
      · have : Int.tmod 0 write_cycle ≠ wrap32 (write_cycle - 1) := htest.mpr h1
        rw [if_pos this, if_neg h1]
    · rw [hs]
      by_cases h1 : write_cycle = 1
      · have : ¬ (Int.tmod 0 write_cycle ≠ wrap32 (write_cycle - 1)) := by
          rw [htest]; simpa using h1
        rw [if_neg this, if_pos h1]
      · have : Int.tmod 0 write_cycle ≠ wrap32 (write_cycle - 1) := htest.mpr h1
        rw [if_pos this, if_neg h1]

end mc2thrash2

namespace mc2pollute

theorem pollute_read_step_eq_write_step : read_step = write_step 0 0 := by
  funext s
  unfold write_step read_step
  have : Int.tmod 0 0 ≠ wrap32 (0 - 1) := by decide
  simp only [ne_eq, this, not_false_eq_true, if_true]

/-- The loop of mc2pollute's `random_walk` on a slot-uniform arena. -/
theorem loop_uniform (ints N : Nat) (arena : Arena) (write_cycle w : Int)
    (hu : slot_uniform ints N arena) (hints : 0 < ints) (p : Nat) (hp : p < N) (n : Nat) :
    ∃ st, for_loop (fun _ s => write_step write_cycle w s) n 0 ⟨0, (p : Int), arena, [], [], []⟩
        = .ok st ∧
      st.arena = arena ∧
      st.next = (((next_line arena)^[n] p : Nat) : Int) ∧
      st.lines = walk_lines arena p n ∧
      st.reads = (walk_lines arena p n).map (fun l => (l, 0)) ∧
      st.writes = (if Int.tmod w write_cycle ≠ wrap32 (write_cycle - 1) then []
        else (walk_lines arena p n).map (fun l => (l, 0))) ∧
      st.sum = (if Int.tmod w write_cycle ≠ wrap32 (write_cycle - 1)
        then wrap32 (walk_total arena p n) else 0) := by
  obtain ⟨st, h, hP⟩ := for_loop_total
    (fun i (s : WalkState) => s.arena = arena ∧
      s.next = (((next_line arena)^[i] p : Nat) : Int) ∧
      s.lines = walk_lines arena p i ∧
      s.reads = (walk_lines arena p i).map (fun l => (l, 0)) ∧
      s.writes = (if Int.tmod w write_cycle ≠ wrap32 (write_cycle - 1) then []
        else (walk_lines arena p i).map (fun l => (l, 0))) ∧
      s.sum = (if Int.tmod w write_cycle ≠ wrap32 (write_cycle - 1)
        then wrap32 (walk_total arena p i) else 0))
    (fun _ s => write_step write_cycle w s) n 0
    (by
      intro i s _ _ ⟨ha, hn, hl, hr, hw, hsum⟩
      have hlt := next_line_iterate_lt ints N arena hu hints p hp i
      obtain ⟨_, hline⟩ := slot_uniform_next_line ints N arena hu hints _ hlt
      have hread : read_slot s.arena s.next 0
          = .ok (((next_line arena) ((next_line arena)^[i] p) : Nat) : Int) := by
        rw [ha, hn]
        apply read_slot_of_getElem? arena _ 0 _ _ (by omega) (by simpa using hline)
        rw [List.getElem?_replicate]
        simp [hints]
      by_cases hc : Int.tmod w write_cycle = wrap32 (write_cycle - 1)
      · refine ⟨{ s with next := (((next_line arena) ((next_line arena)^[i] p) : Nat) : Int),
                         lines := s.lines ++ [s.next],
                         reads := s.reads ++ [(s.next, 0)],
                         writes := s.writes ++ [(s.next, 0)] }, ?_, ?_⟩
        · unfold write_step
          simp only []
          rw [hread]
          simp only [bind, Except.bind, hc, ne_eq, not_true_eq_false, if_false]
          rw [write_slot_same s.arena s.next 0 _ hread]
        · simp only [hc, ne_eq, not_true_eq_false, if_false] at hw hsum ⊢
          refine ⟨ha, ?_, ?_, ?_, ?_, hsum⟩
          · rw [Function.iterate_succ_apply']
          · rw [walk_lines_succ, hl, hn]
          · rw [walk_lines_succ, hr, hn]; simp
          · rw [walk_lines_succ, hw, hn]; simp
      · refine ⟨{ s with next := (((next_line arena) ((next_line arena)^[i] p) : Nat) : Int),
                         sum := wrap32 (s.sum +
                           (((next_line arena) ((next_line arena)^[i] p) : Nat) : Int)),
                         lines := s.lines ++ [s.next],
                         reads := s.reads ++ [(s.next, 0)] }, ?_, ?_⟩
        · unfold write_step
          simp only []
          rw [hread]
          simp only [bind, Except.bind, hc, ne_eq, not_false_eq_true, if_true]
        · simp only [hc, ne_eq, not_false_eq_true, if_true] at hw hsum ⊢
          refine ⟨ha, ?_, ?_, ?_, hw, ?_⟩
          · rw [Function.iterate_succ_apply']
          · rw [walk_lines_succ, hl, hn]
          · rw [walk_lines_succ, hr, hn]; simp
          · rw [hsum, wrap32_add_wrap32, walk_total_succ, Function.iterate_succ_apply'])
    ⟨0, (p : Int), arena, [], [], []⟩
    ⟨rfl, by simp, by simp [walk_lines], by simp [walk_lines],
     by simp [walk_lines], by simp [walk_total, wrap32]⟩
  refine ⟨st, h, ?_⟩
  simpa using hP

/-- `random_walk` (mc2pollute.c) on a slot-uniform arena of `N` lines, started
at a line of the arena: it returns, leaves the arena as it was, and follows
the iterates of "next" for `numlines` steps reading slot 0 of each line
entered. -/
theorem pollute_random_walk_run_uniform (CACHELINE_SIZE N : Nat) (arena : Arena)
    (start wss write_cycle : Int)
    (hu : slot_uniform (INTS_IN_CACHELINE CACHELINE_SIZE) N arena)
    (hints : 0 < INTS_IN_CACHELINE CACHELINE_SIZE)
    (h0 : 0 ≤ start) (hN : start < (N : Int))
    (hw1 : INT_MIN ≤ write_cycle) (hw2 : write_cycle ≤ INT_MAX) :
    ∃ st, random_walk_run CACHELINE_SIZE arena start wss write_cycle = .ok st ∧
      st.arena = arena ∧
      st.next = (((next_line arena)^[(wrap32 (wss * (CACHELINES_IN_1KB CACHELINE_SIZE : Int))).toNat]
        start.toNat : Nat) : Int) ∧
      st.lines = walk_lines arena start.toNat
        (wrap32 (wss * (CACHELINES_IN_1KB CACHELINE_SIZE : Int))).toNat ∧
      st.reads = st.lines.map (fun l => (l, 0)) ∧
      st.writes = (if write_cycle = 1 then st.reads else []) ∧
      st.sum = (if write_cycle = 1 then 0
        else wrap32 (walk_total arena start.toNat
          (wrap32 (wss * (CACHELINES_IN_1KB CACHELINE_SIZE : Int))).toNat)) := by
  have hp : start.toNat < N := by omega
  have hstart : ((start.toNat : Nat) : Int) = start := Int.toNat_of_nonneg h0
  unfold random_walk_run
  simp only []
  by_cases hz : write_cycle = 0
  · subst hz
    simp only [if_true, pollute_read_step_eq_write_step]
    obtain ⟨st, h, ha, hn, hl, hr, hw, hs⟩ := loop_uniform
      (INTS_IN_CACHELINE CACHELINE_SIZE) N arena 0 0 hu hints start.toNat hp
      (wrap32 (wss * (CACHELINES_IN_1KB CACHELINE_SIZE : Int))).toNat
    rw [hstart] at h
    have ht : Int.tmod 0 0 ≠ wrap32 (0 - 1) := by decide
    refine ⟨st, h, ha, hn, hl, by rw [hr, hl], ?_, ?_⟩
    · rw [hw, if_pos ht]; simp
    · rw [hs, if_pos ht]; simp
  · simp only [hz, if_false]
    obtain ⟨st, h, ha, hn, hl, hr, hw, hs⟩ := loop_uniform
      (INTS_IN_CACHELINE CACHELINE_SIZE) N arena write_cycle 0 hu hints start.toNat hp
      (wrap32 (wss * (CACHELINES_IN_1KB CACHELINE_SIZE : Int))).toNat
    rw [hstart] at h
    have htest := write_test_iff write_cycle hw1 hw2
    refine ⟨st, h, ha, hn, hl, by rw [hr, hl], ?_, ?_⟩
    · rw [hw, hr]
      by_cases h1 : write_cycle = 1
      · have : ¬ (Int.tmod 0 write_cycle ≠ wrap32 (write_cycle - 1)) := by
          rw [htest]; simpa using h1
        rw [if_neg this, if_pos h1]
      · have : Int.tmod 0 write_cycle ≠ wrap32 (write_cycle - 1) := htest.mpr h1
        rw [if_pos this, if_neg h1]
    · rw [hs]
      by_cases h1 : write_cycle = 1
      · have : ¬ (Int.tmod 0 write_cycle ≠ wrap32 (write_cycle - 1)) := by
          rw [htest]; simpa using h1
        rw [if_neg this, if_pos h1]
      · have : Int.tmod 0 write_cycle ≠ wrap32 (write_cycle - 1) := htest.mpr h1
        rw [if_pos this, if_neg h1]

end mc2pollute

/-! ## The shuffle on chosen PRNG outputs -/

/-- On the PRNG output 0, `randrange(0, i)` returns 0 at once. -/
theorem randrange_zero (RAND_MAX i : Nat) (rs : List Nat) (hi : 0 < i) (hiM : i ≤ RAND_MAX)
    (hRM : (RAND_MAX : Int) ≤ INT_MAX) :
    randrange RAND_MAX 0 (i : Int) (0 :: rs) = .ok (0, rs) := by
  unfold INT_MAX at hRM
  have hlimit : wrap32 ((i : Int) - 0) = (i : Int) := by
    unfold wrap32; omega
  have hne : (i : Int) ≠ 0 := by omega
  have hd : Int.tdiv (RAND_MAX : Int) (i : Int) ≠ 0 := by
    rw [tdiv_natCast]
    have : 0 < RAND_MAX / i := Nat.div_pos hiM hi
    omega
  unfold randrange
  rw [hlimit]
  simp only []
  rw [if_neg hne, randrange_loop, if_neg hd]
  have h0 : Int.tdiv ((0 : Nat) : Int) (Int.tdiv (RAND_MAX : Int) (i : Int)) = 0 := by simp
  have hne' : ¬ ((0 : Int) = (i : Int)) := by omega
  simp only [h0, hne', if_false]
  rfl

/-- On PRNG outputs that are all 0 the shuffle loop swaps line `i` with line 0
for `i` from its entry value down to 1; the lines above the entry value stay. -/
theorem shuffle_zeros (RAND_MAX : Nat) (hRM : (RAND_MAX : Int) ≤ INT_MAX) :
    ∀ (i : Nat) (a : Arena), i < a.length → i ≤ RAND_MAX →
      ∃ a', shuffle RAND_MAX (i + 1) a (List.replicate i 0) = .ok (a', []) ∧
        a'.length = a.length ∧ ∀ k, i < k → a'[k]? = a[k]? := by
  intro i
  induction i with
  | zero =>
    intro a _ _
    exact ⟨a, by simp [shuffle], rfl, fun _ _ => rfl⟩
  | succ n ih =>
    intro a hlen hM
    have h0 : (0 : Nat) < a.length := by omega
    obtain ⟨a', h1, h2, h3⟩ := ih ((a.set 0 a[n + 1]).set (n + 1) a[0])
      (by simp; omega) (by omega)
    refine ⟨a', ?_, by simpa using h2, ?_⟩
    · rw [shuffle]
      have hlt : 1 < n + 1 + 1 := by omega
      simp only [hlt, if_true, List.replicate_succ]
      rw [randrange_zero RAND_MAX (n + 1) _ (by omega) hM hRM]
      have hs := swap_lines_natCast a 0 (n + 1) a[0] a[n + 1]
        (List.getElem?_eq_getElem h0) (List.getElem?_eq_getElem hlen)
      simp only [Nat.cast_zero] at hs
      simp only [bind, Except.bind]
      rw [hs]
      exact h1
    · intro k hk
      rw [h3 k (by omega), List.getElem?_set, List.getElem?_set]
      have e1 : ¬ n + 1 = k := by omega
      have e2 : ¬ 0 = k := by omega
      simp only [e1, e2, if_false]

/-- Two steps of the shuffle in which the second `randrange(0, n)` returns
`n + 1`, after the first returned `n`: lines `n` and `n + 1` are swapped twice
and end where they started, whatever the remaining steps do below them. -/
theorem shuffle_double_swap (RAND_MAX n x1 x2 : Nat) (a : Arena)
    (hRM : (RAND_MAX : Int) ≤ INT_MAX) (hn : 1 ≤ n) (hnM : n ≤ RAND_MAX)
    (hlen : a.length = n + 2)
    (h1 : ∀ rs, randrange RAND_MAX 0 ((n + 1 : Nat) : Int) (x1 :: rs) = .ok ((n : Int), rs))
    (h2 : ∀ rs, randrange RAND_MAX 0 (n : Int) (x2 :: rs) = .ok (((n + 1 : Nat) : Int), rs)) :
    ∃ a', shuffle RAND_MAX (n + 2) a (x1 :: x2 :: List.replicate (n - 1) 0) = .ok (a', []) ∧
      a'.length = a.length ∧ a'[n + 1]? = a[n + 1]? ∧ a'[n]? = a[n]? := by
  have hl1 : n < a.length := by omega
  have hl2 : n + 1 < a.length := by omega
  have hs1 := swap_lines_natCast a n (n + 1) a[n] a[n + 1]
    (List.getElem?_eq_getElem hl1) (List.getElem?_eq_getElem hl2)
  have hb : ((a.set n a[n + 1]).set (n + 1) a[n]).length = a.length := by simp
  have hs2 := swap_lines_natCast ((a.set n a[n + 1]).set (n + 1) a[n]) (n + 1) n a[n] a[n + 1]
    (by rw [List.getElem?_set]; simp [hl2])
    (by
      rw [List.getElem?_set, List.getElem?_set]
      have : ¬ n + 1 = n := by omega
      simp [this, hl1])
  have hback : (((a.set n a[n + 1]).set (n + 1) a[n]).set (n + 1) a[n + 1]).set n a[n] = a := by
    apply List.ext_getElem?
    intro k
    simp only [List.getElem?_set, List.length_set]
    by_cases e1 : n = k
    · subst e1; simp [hl1]
    · by_cases e2 : n + 1 = k
      · subst e2; simp [hl2]
      · simp [e1, e2]
  rw [hback] at hs2
  obtain ⟨m, hm⟩ : ∃ m, n = m + 1 := ⟨n - 1, by omega⟩
  obtain ⟨a', h3, h4, h5⟩ := shuffle_zeros RAND_MAX hRM m a (by omega) (by omega)
  refine ⟨a', ?_, h4, h5 _ (by omega), h5 _ (by omega)⟩
  have e : n - 1 = m := by omega
  rw [e]
  subst hm
  rw [shuffle]
  have hlt : 1 < m + 1 + 1 + 1 := by omega
  simp only [hlt, if_true]
  rw [h1]
  simp only [bind, Except.bind]
  rw [hs1]
  simp only []
  rw [shuffle]
  have hlt2 : 1 < m + 1 + 1 := by omega
  simp only [hlt2, if_true]
  rw [h2]
  simp only [bind, Except.bind]
  rw [hs2]
  exact h3

example (rs : List Nat) : randrange 2147483647 0 ((47966 + 1 : Nat) : Int) (2147437820 :: rs) = .ok (((47966 : Nat) : Int), rs) := by
  rfl
example (rs : List Nat) : randrange 2147483647 0 ((47966 : Nat) : Int) (2147482590 :: rs) = .ok (((47966 + 1 : Nat) : Int), rs) := by
  rfl
/-! ## The single-cycle property -/

/-- A line that is its own "next" rules out a single cycle of two or more
lines. -/
theorem not_single_cycle_of_fixed (N : Nat) (arena : Arena) (s : Nat) (hN : 2 ≤ N) (hs : s < N)
    (hfix : next_line arena s = s) : ¬ single_cycle N arena := by
  intro h
  obtain ⟨_, h2, _⟩ := h s hs
  exact h2 1 (by omega) (by omega) (by simpa using hfix)

theorem next_line_of_getElem? (arena : Arena) (i ints : Nat) (v : Nat) (hints : 0 < ints)
    (h : arena[i]? = some (List.replicate ints (v : Int))) : next_line arena i = v := by
  unfold next_line
  simp only [List.getD_eq_getElem?_getD, h, Option.getD_some]
  rw [List.getElem?_replicate]
  simp [hints]

/-- `init_arena` on `n + 2` lines when the first two `randrange` calls return
`n` and then `n + 1` (a value above the requested range `[0, n)`) and all
later PRNG outputs are 0: it returns, and line `n + 1` is its own "next". -/
theorem init_arena_double_swap (RAND_MAX CACHELINE_SIZE n x1 x2 : Nat) (arena : Arena) (size : Nat)
    (hRM : (RAND_MAX : Int) ≤ INT_MAX) (hn : 1 ≤ n) (hnM : n ≤ RAND_MAX)
    (hN : ((n + 2 : Nat) : Int) ≤ INT_MAX)
    (hsize : size / sizeof_cacheline_t CACHELINE_SIZE = n + 2)
    (hlen : arena.length = n + 2)
    (h1 : ∀ rs, randrange RAND_MAX 0 ((n + 1 : Nat) : Int) (x1 :: rs) = .ok ((n : Int), rs))
    (h2 : ∀ rs, randrange RAND_MAX 0 (n : Int) (x2 :: rs) = .ok (((n + 1 : Nat) : Int), rs)) :
    ∃ arena', init_arena RAND_MAX CACHELINE_SIZE arena size
        (x1 :: x2 :: List.replicate (n - 1) 0) = .ok (arena', []) ∧
      arena'[n + 1]? = some (List.replicate (INTS_IN_CACHELINE CACHELINE_SIZE) ((n + 1 : Nat) : Int)) := by
  obtain ⟨a1, e1, hl, hP1, _⟩ := init_lines_spec CACHELINE_SIZE (n + 2) arena (by omega)
  obtain ⟨a', e2, _, h3, _⟩ := shuffle_double_swap RAND_MAX n x1 x2 a1 hRM hn hnM
    (by omega) h1 h2
  refine ⟨a', ?_, ?_⟩
  · unfold init_arena
    simp only [hsize]
    have : ¬ INT_MAX < ((n + 2 : Nat) : Int) := by omega
    rw [if_neg this, e1]
    simp only [bind, Except.bind]
    exact e2
  · rw [h3]
    exact hP1 (n + 1) (by omega)

theorem walk_lines_fixed (arena : Arena) (p : Nat) (hfix : next_line arena p = p) :
    ∀ n, walk_lines arena p n = List.replicate n (p : Int) := by
  intro n
  induction n with
  | zero => rfl
  | succ n ih =>
    rw [walk_lines_succ, ih, Function.iterate_fixed hfix, List.replicate_succ']

/-! ## A failing input of `init_arena`

glibc's `RAND_MAX` is 2147483647. For `limit = 47966` the divisor is
`RAND_MAX / 47966 = 44770`, and the PRNG output `2147482590 = 47967 * 44770`
has quotient `47967 = limit + 1`, which `while (retval == limit)` accepts. -/

/-- The failing run returns a slot-uniform arena whose line 47967 holds 47967. -/
theorem failing_run :
    ∃ arena', init_arena 2147483647 32 failing_arena 1534976 failing_outputs = .ok (arena', []) ∧
      arena'[47967]? = some (List.replicate 8 (47967 : Int)) ∧
      slot_uniform 8 47968 arena' := by
  obtain ⟨arena', h1, h2⟩ := init_arena_double_swap 2147483647 32 47966 2147437820 2147482590
    failing_arena 1534976 (by decide) (by decide) (by decide) (by decide) (by decide)
    (by unfold failing_arena; rw [List.length_replicate])
    (fun rs => rfl) (fun rs => rfl)
  refine ⟨arena', h1, h2, ?_⟩
  exact init_arena_uniform 2147483647 32 failing_arena arena' 1534976 _ _
    (by unfold failing_arena; rw [List.length_replicate]; decide) h1

/-- C1 (code at the failing input): `init_arena` on an arena of 47968 lines
with `RAND_MAX = 2147483647` and the PRNG outputs `failing_outputs` returns an
arena in which line 47967 is its own "next", so "next" is not a single cycle
of all the lines. -/
theorem init_arena_not_single_cycle :
    ∃ arena', init_arena 2147483647 32 failing_arena 1534976 failing_outputs = .ok (arena', []) ∧
      next_line arena' 47967 = 47967 ∧ ¬ single_cycle 47968 arena' := by
  obtain ⟨arena', h1, h2, _⟩ := failing_run
  have hfix : next_line arena' 47967 = 47967 :=
    next_line_of_getElem? arena' 47967 8 47967 (by decide) h2
  exact ⟨arena', h1, hfix, not_single_cycle_of_fixed 47968 arena' 47967 (by decide) (by decide) hfix⟩

/-- C6 (code at the failing input): on the arena built by the failing run of
`init_arena`, a `random_walk` of exactly 47968 steps (`wss = 1499`, 32 lines
per KB) started at line 47967 enters line 47967 at every step, in mc2thrash2
and in mc2pollute alike: the lines visited are not pairwise distinct. -/
theorem random_walk_full_lap_repeats :
    ∃ arena' st st2,
      init_arena 2147483647 32 failing_arena 1534976 failing_outputs = .ok (arena', []) ∧
      mc2thrash2.random_walk_run 32 arena' 47967 1499 0 = .ok st ∧
      mc2pollute.random_walk_run 32 arena' 47967 1499 0 = .ok st2 ∧
      st.lines = List.replicate 47968 (47967 : Int) ∧
      st2.lines = List.replicate 47968 (47967 : Int) ∧
      ¬ st.lines.Nodup ∧ ¬ st2.lines.Nodup := by
  obtain ⟨arena', h1, h2, hu⟩ := failing_run
  have hfix : next_line arena' 47967 = 47967 :=
    next_line_of_getElem? arena' 47967 8 47967 (by decide) h2
  obtain ⟨st, r1, _, _, l1, _⟩ := mc2thrash2.random_walk_run_uniform 32 47968 arena' 47967 1499 0
    hu (by decide) (by decide) (by decide) (by decide) (by decide)
  obtain ⟨st2, r2, _, _, l2, _⟩ := mc2pollute.pollute_random_walk_run_uniform 32 47968 arena' 47967 1499 0
    hu (by decide) (by decide) (by decide) (by decide) (by decide)
  have hn : (wrap32 (1499 * (CACHELINES_IN_1KB 32 : Int))).toNat = 47968 := by decide
  have hp : (47967 : Int).toNat = 47967 := by decide
  rw [hn, hp, walk_lines_fixed arena' 47967 hfix] at l1 l2
  have hnd : ¬ (List.replicate 47968 (47967 : Int)).Nodup := by
    rw [List.nodup_replicate]; decide
  refine ⟨arena', st, st2, h1, r1, r2, l1, l2, ?_, ?_⟩
  · rw [l1]; exact hnd
  · rw [l2]; exact hnd

/-! ## Write cycle of the random walk -/

theorem ring_arena_uniform : slot_uniform 8 32 (ring_arena 8 32) := by decide

/-- C7 (code at the failing input): `random_walk` with `write_cycle = 4` (the
value `loop_once` of mc2thrash2.c passes) on a 32-line ring, one lap
(`wss = 1`): mc2thrash2 reads 256 slots and mc2pollute 32, neither stores to
any slot, and the returned sums contain every value read. The counter `w`
stays 0, so `w % write_cycle` is never `write_cycle - 1`. -/
theorem random_walk_write_cycle_never_writes :
    ∃ st st2,
      mc2thrash2.random_walk_run 32 (ring_arena 8 32) 0 1 4 = .ok st ∧
      st.reads.length = 256 ∧ st.writes = [] ∧ st.sum = 8 * 496 ∧
      mc2pollute.random_walk_run 32 (ring_arena 8 32) 0 1 4 = .ok st2 ∧
      st2.reads.length = 32 ∧ st2.writes = [] ∧ st2.sum = 496 := by
  obtain ⟨st, r1, _, _, l1, rd1, w1, s1⟩ := mc2thrash2.random_walk_run_uniform 32 32
    (ring_arena 8 32) 0 1 4 ring_arena_uniform (by decide) (by decide) (by decide) (by decide)
    (by decide)
  obtain ⟨st2, r2, _, _, l2, rd2, w2, s2⟩ := mc2pollute.pollute_random_walk_run_uniform 32 32
    (ring_arena 8 32) 0 1 4 ring_arena_uniform (by decide) (by decide) (by decide) (by decide)
    (by decide)
  have hn : (wrap32 (1 * (CACHELINES_IN_1KB 32 : Int))).toNat = 32 := by decide
  have hp : (0 : Int).toNat = 0 := by decide
  have ht : walk_total (ring_arena 8 32) 0 32 = 496 := by decide
  have hk : ¬ ((4 : Int) = 1) := by decide
  rw [hn, hp] at l1 l2 s1 s2
  rw [if_neg hk] at w1 w2 s1 s2
  rw [ht] at s1 s2
  refine ⟨st, st2, r1, ?_, w1, ?_, r2, ?_, w2, ?_⟩
  · rw [rd1, slots_of_length, l1]
    unfold walk_lines
    rw [List.length_map, List.length_range]
    decide
  · rw [s1]; decide
  · rw [rd2, List.length_map, l2]
    unfold walk_lines
    rw [List.length_map, List.length_range]
  · rw [s2]; decide

/-- C8: for every `write_cycle`, start line and step count, a `random_walk`
that returns leaves every arena slot as it was before the call, in mc2thrash2,
resspin, mc2thrash and mc2pollute (each store writes back the value just
read); and on a slot-uniform arena, started at one of its lines, the walk
does return, so the cycle built by `init_arena` survives any number of walks
(for mc2thrash2 and resspin, whose walk reads `INTS_IN_CACHELINE` = 8 slots of
a line, when the lines have at least that many slots). -/
theorem random_walk_preserves_arena (CACHELINE_SIZE : Nat) (arena : Arena)
    (start wss write_cycle : Int) :
    (∀ r a', mc2thrash2.random_walk CACHELINE_SIZE arena start wss write_cycle = .ok (r, a') →
      a' = arena) ∧
    (∀ r a', resspin.random_walk CACHELINE_SIZE arena start wss write_cycle = .ok (r, a') →
      a' = arena) ∧
    (∀ r a', mc2thrash.random_walk CACHELINE_SIZE arena start write_cycle = .ok (r, a') →
      a' = arena) ∧
    (∀ r a', mc2pollute.random_walk CACHELINE_SIZE arena start wss write_cycle = .ok (r, a') →
      a' = arena) ∧
    (∀ N, slot_uniform (INTS_IN_CACHELINE CACHELINE_SIZE) N arena →
      0 < INTS_IN_CACHELINE CACHELINE_SIZE → 0 ≤ start → start < (N : Int) →
      INT_MIN ≤ write_cycle → write_cycle ≤ INT_MAX →
      (INTS_IN_CACHELINE mc2thrash2.CACHELINE_SIZE ≤ INTS_IN_CACHELINE CACHELINE_SIZE →
        (∃ r, mc2thrash2.random_walk CACHELINE_SIZE arena start wss write_cycle
          = .ok (r, arena)) ∧
        (∃ r, resspin.random_walk CACHELINE_SIZE arena start wss write_cycle = .ok (r, arena))) ∧
      (∃ r, mc2thrash.random_walk CACHELINE_SIZE arena start write_cycle = .ok (r, arena)) ∧
      (∃ r, mc2pollute.random_walk CACHELINE_SIZE arena start wss write_cycle = .ok (r, arena))) := by
  have frame1 : ∀ r a', mc2thrash2.random_walk CACHELINE_SIZE arena start wss write_cycle
      = .ok (r, a') → a' = arena := by
    intro r a' h
    unfold mc2thrash2.random_walk at h
    cases hrun : mc2thrash2.random_walk_run CACHELINE_SIZE arena start wss write_cycle with
    | error e => rw [hrun] at h; simp [Except.map] at h
    | ok st =>
      rw [hrun] at h
      simp only [Except.map] at h
      injection h with h
      injection h with _ h
      rw [← h]
      exact mc2thrash2.random_walk_run_arena _ _ _ _ _ _ hrun
  have frame2 : ∀ (w : Int) r a', mc2pollute.random_walk CACHELINE_SIZE arena start w write_cycle
      = .ok (r, a') → a' = arena := by
    intro w r a' h
    unfold mc2pollute.random_walk at h
    cases hrun : mc2pollute.random_walk_run CACHELINE_SIZE arena start w write_cycle with
    | error e => rw [hrun] at h; simp [Except.map] at h
    | ok st =>
      rw [hrun] at h
      simp only [Except.map] at h
      injection h with h
      injection h with _ h
      rw [← h]
      exact mc2pollute.pollute_random_walk_run_arena _ _ _ _ _ _ hrun
  refine ⟨frame1, frame1, frame2 mc2thrash.WSS, frame2 wss, ?_⟩
  intro N hu hints h0 hN hw1 hw2
  obtain ⟨st2, r2, a2, _⟩ := mc2pollute.pollute_random_walk_run_uniform CACHELINE_SIZE N arena start wss
    write_cycle hu hints h0 hN hw1 hw2
  obtain ⟨st3, r3, a3, _⟩ := mc2pollute.pollute_random_walk_run_uniform CACHELINE_SIZE N arena start
    mc2thrash.WSS write_cycle hu hints h0 hN hw1 hw2
  have t1 : INTS_IN_CACHELINE mc2thrash2.CACHELINE_SIZE ≤ INTS_IN_CACHELINE CACHELINE_SIZE →
      ∃ r, mc2thrash2.random_walk CACHELINE_SIZE arena start wss write_cycle
        = .ok (r, arena) := by
    intro h8
    obtain ⟨st, r1, a1, _⟩ := mc2thrash2.random_walk_run_uniform CACHELINE_SIZE N arena start wss
      write_cycle hu h8 h0 hN hw1 hw2
    refine ⟨st.sum, ?_⟩
    unfold mc2thrash2.random_walk
    rw [r1]; simp only [Except.map]; rw [a1]
  have t2 : mc2pollute.random_walk CACHELINE_SIZE arena start wss write_cycle
      = .ok (st2.sum, arena) := by
    unfold mc2pollute.random_walk
    rw [r2]; simp only [Except.map]; rw [a2]
  have t3 : mc2thrash.random_walk CACHELINE_SIZE arena start write_cycle
      = .ok (st3.sum, arena) := by
    unfold mc2thrash.random_walk mc2thrash.random_walk_run
    rw [r3]; simp only [Except.map]; rw [a3]
  exact ⟨fun h8 => ⟨t1 h8, t1 h8⟩, ⟨_, t3⟩, ⟨_, t2⟩⟩

/-- Witness for `random_walk_preserves_arena`: a lap of the 32-line ring with
`write_cycle = 1`, in which every slot read is stored back. -/
theorem random_walk_preserves_arena_witness :
    slot_uniform (INTS_IN_CACHELINE 32) 32 (ring_arena 8 32) ∧
    (∃ r, mc2thrash2.random_walk 32 (ring_arena 8 32) 5 1 1 = .ok (r, ring_arena 8 32)) ∧
    (∃ r, mc2pollute.random_walk 32 (ring_arena 8 32) 5 1 1 = .ok (r, ring_arena 8 32)) :=
  have h := (random_walk_preserves_arena 32 (ring_arena 8 32) 5 1 1).2.2.2.2 32
    ring_arena_uniform (by decide) (by decide) (by decide) (by decide) (by decide)
  ⟨ring_arena_uniform, (h.1 (by decide)).1, h.2.2⟩

/-! ## Sequential walk -/

namespace mc2thrash2

/-- The test `i % write_cycle == write_cycle - 1` of `sequential_walk`, for a
positive `write_cycle`. -/
theorem seq_test_iff (i : Nat) (write_cycle : Int) (hk : 0 < write_cycle)
    (hk2 : write_cycle ≤ INT_MAX) :
    Int.tmod (i : Int) write_cycle = wrap32 (write_cycle - 1) ↔ seq_selected write_cycle i := by
  unfold seq_selected
  unfold INT_MAX at hk2
  have h1 : wrap32 (write_cycle - 1) = write_cycle - 1 := by unfold wrap32; omega
  rw [h1, Int.tmod_eq_emod (Int.ofNat_nonneg _) (by omega)]

/-- The `write_cycle > 0` loop of `sequential_walk` over `n` slots of a buffer
that holds at least `n` ints: it returns; the slots at offsets `i < n` with
`i % write_cycle = write_cycle - 1` are stored to, in order, with their value
plus one; the others are summed. -/
theorem seq_write_loop_spec (mem : List Int) (write_cycle : Int) (n : Nat)
    (hk : 0 < write_cycle) (hk2 : write_cycle ≤ INT_MAX) (hlen : n ≤ mem.length) :
    ∃ st, for_loop (seq_write_step write_cycle) n 0 ⟨0, mem, []⟩ = .ok st ∧
      st.mem.length = mem.length ∧
      (∀ j, st.mem[j]? =
        if j < n ∧ seq_selected write_cycle j
        then (mem[j]?).map (fun v => wrap32 (v + 1)) else mem[j]?) ∧
      st.writes = (List.range n).filter (fun i => decide (seq_selected write_cycle i)) ∧
      st.sum = wrap32 ((((List.range n).filter
        (fun i => decide (¬ seq_selected write_cycle i))).map (fun i => mem.getD i 0)).sum) := by
  obtain ⟨st, h, hP⟩ := for_loop_total
    (fun i (s : SeqState) => s.mem.length = mem.length ∧
      (∀ j, s.mem[j]? =
        if j < i ∧ seq_selected write_cycle j
        then (mem[j]?).map (fun v => wrap32 (v + 1)) else mem[j]?) ∧
      s.writes = (List.range i).filter (fun i => decide (seq_selected write_cycle i)) ∧
      s.sum = wrap32 ((((List.range i).filter
        (fun i => decide (¬ seq_selected write_cycle i))).map (fun i => mem.getD i 0)).sum))
    (seq_write_step write_cycle) n 0
    (by
      intro i s _ hi ⟨hl, hm, hw, hs⟩
      have hilt : i < mem.length := by omega
      have hcur : s.mem[i]? = some mem[i] := by
        rw [hm i]
        have : ¬ (i < i ∧ seq_selected write_cycle i) := by omega
        rw [if_neg this]
        exact List.getElem?_eq_getElem hilt
      by_cases hc : seq_selected write_cycle i
      · refine ⟨{ s with mem := s.mem.set i (wrap32 (mem[i] + 1)), writes := s.writes ++ [i] },
          ?_, ?_⟩
        · unfold seq_write_step
          rw [hcur]
          simp only []
          rw [if_pos ((seq_test_iff i write_cycle hk hk2).mpr hc)]
        · refine ⟨by simp [hl], ?_, ?_, ?_⟩
          · intro j
            simp only []
            rw [List.getElem?_set]
            by_cases hji : i = j
            · subst hji
              have h1 : i < s.mem.length := by omega
              have h2 : i < i + 1 ∧ seq_selected write_cycle i := ⟨by omega, hc⟩
              rw [if_pos rfl, if_pos h1, if_pos h2, List.getElem?_eq_getElem hilt]
              rfl
            · rw [if_neg hji, hm j]
              by_cases hsel : seq_selected write_cycle j
              · by_cases hjlt : j < i
                · rw [if_pos ⟨hjlt, hsel⟩, if_pos ⟨by omega, hsel⟩]
                · have n1 : ¬ (j < i ∧ seq_selected write_cycle j) := by omega
                  have n2 : ¬ (j < i + 1 ∧ seq_selected write_cycle j) := by omega
                  rw [if_neg n1, if_neg n2]
              · have n1 : ¬ (j < i ∧ seq_selected write_cycle j) :=
                  fun h => hsel h.2
                have n2 : ¬ (j < i + 1 ∧ seq_selected write_cycle j) :=
                  fun h => hsel h.2
                rw [if_neg n1, if_neg n2]
          · simp only []
            rw [hw, List.range_succ, List.filter_append]
            simp [hc]
          · simp only []
            rw [hs, List.range_succ, List.filter_append]
            simp [hc]
      · refine ⟨{ s with sum := wrap32 (s.sum + mem[i]) }, ?_, ?_⟩
        · unfold seq_write_step
          rw [hcur]
          simp only []
          rw [if_neg (fun h => hc ((seq_test_iff i write_cycle hk hk2).mp h))]
        · refine ⟨hl, ?_, ?_, ?_⟩
          · intro j
            simp only []
            rw [hm j]
            by_cases hji : j = i
            · subst hji
              have n1 : ¬ (j < j ∧ seq_selected write_cycle j) := by omega
              have n2 : ¬ (j < j + 1 ∧ seq_selected write_cycle j) :=
                fun h => hc h.2
              rw [if_neg n1, if_neg n2]
            · by_cases hsel : seq_selected write_cycle j
              · by_cases hjlt : j < i
                · rw [if_pos ⟨hjlt, hsel⟩, if_pos ⟨by omega, hsel⟩]
                · have n1 : ¬ (j < i ∧ seq_selected write_cycle j) := by omega
                  have n2 : ¬ (j < i + 1 ∧ seq_selected write_cycle j) := by omega
                  rw [if_neg n1, if_neg n2]
              · have n1 : ¬ (j < i ∧ seq_selected write_cycle j) :=
                  fun h => hsel h.2
                have n2 : ¬ (j < i + 1 ∧ seq_selected write_cycle j) :=
                  fun h => hsel h.2
                rw [if_neg n1, if_neg n2]
          · simp only []
            rw [hw, List.range_succ, List.filter_append]
            simp [hc]
          · simp only []
            rw [hs, List.range_succ, List.filter_append, wrap32_add_wrap32]
            simp [hc, List.getElem?_eq_getElem hilt])
    ⟨0, mem, []⟩
    ⟨rfl, by intro j; simp, by simp, by simp [wrap32]⟩
  refine ⟨st, h, ?_⟩
  simpa using hP

/-- `sequential_walk` with a positive `write_cycle` over a buffer that holds
the `num_ints = wss * INTS_IN_1KB` ints it visits. -/
theorem sequential_walk_run_spec (mem : List Int) (wss write_cycle : Int)
    (hk : 0 < write_cycle) (hk2 : write_cycle ≤ INT_MAX)
    (hlen : (wrap32 (wss * (INTS_IN_1KB : Int))).toNat ≤ mem.length) :
    ∃ st, sequential_walk_run mem wss write_cycle = .ok st ∧
      st.mem.length = mem.length ∧
      (∀ j, st.mem[j]? =
        if j < (wrap32 (wss * (INTS_IN_1KB : Int))).toNat ∧ seq_selected write_cycle j
        then (mem[j]?).map (fun v => wrap32 (v + 1)) else mem[j]?) ∧
      st.writes = (List.range (wrap32 (wss * (INTS_IN_1KB : Int))).toNat).filter
        (fun i => decide (seq_selected write_cycle i)) ∧
      st.sum = wrap32 ((((List.range (wrap32 (wss * (INTS_IN_1KB : Int))).toNat).filter
        (fun i => decide (¬ seq_selected write_cycle i))).map (fun i => mem.getD i 0)).sum) := by
  obtain ⟨st, h, hrest⟩ := seq_write_loop_spec mem write_cycle _ hk hk2 hlen
  refine ⟨st, ?_, hrest⟩
  unfold sequential_walk_run
  simp only []
  rw [if_pos hk]
  exact h

end mc2thrash2

/-- Incrementing a 32-bit `int` changes it, also when it wraps. -/
theorem wrap32_succ_ne (v : Int) : wrap32 (v + 1) ≠ v := by
  unfold wrap32; omega

/-- C10: for every `write_cycle = k > 0` and every buffer of
`n = wss * INTS_IN_1KB` ints, `sequential_walk` (mc2thrash2.c, resspin.c)
returns; the stores it makes are to the slots at the offsets `i < n` with
`i mod k = k - 1`, in increasing order, and to no others; in the buffer it
leaves exactly these slots differ from what they held (each holds its value
plus one, from `mem[i]++`) and every other slot is as before; and it returns
the 32-bit wrapped sum of the original values of all the other slots. -/
theorem sequential_walk_writes_and_sum (mem : List Int) (wss write_cycle : Int)
    (hk : 0 < write_cycle) (hk2 : write_cycle ≤ INT_MAX)
    (hlen : mem.length = (wrap32 (wss * (INTS_IN_1KB : Int))).toNat) :
    ∃ st, mc2thrash2.sequential_walk_run mem wss write_cycle = .ok st ∧
      resspin.sequential_walk_run mem wss write_cycle = .ok st ∧
      st.writes = (List.range mem.length).filter (fun i => decide (seq_selected write_cycle i)) ∧
      st.mem.length = mem.length ∧
      (∀ i, i < mem.length →
        (seq_selected write_cycle i → st.mem[i]? = (mem[i]?).map (fun v => wrap32 (v + 1))) ∧
        (¬ seq_selected write_cycle i → st.mem[i]? = mem[i]?) ∧
        (st.mem[i]? ≠ mem[i]? ↔ seq_selected write_cycle i)) ∧
      st.sum = wrap32 ((((List.range mem.length).filter
        (fun i => decide (¬ seq_selected write_cycle i))).map (fun i => mem.getD i 0)).sum) ∧
      mc2thrash2.sequential_walk mem wss write_cycle = .ok (st.sum, st.mem) ∧
      resspin.sequential_walk mem wss write_cycle = .ok (st.sum, st.mem) := by
  obtain ⟨st, h, hl, hm, hw, hs⟩ := mc2thrash2.sequential_walk_run_spec mem wss write_cycle hk hk2
    (by omega)
  rw [← hlen] at hw hs hm
  refine ⟨st, h, h, hw, hl, ?_, hs, ?_, ?_⟩
  · intro i hi
    have hsel : seq_selected write_cycle i →
        st.mem[i]? = (mem[i]?).map (fun v => wrap32 (v + 1)) := by
      intro hc
      rw [hm i, if_pos ⟨hi, hc⟩]
    have hnot : ¬ seq_selected write_cycle i → st.mem[i]? = mem[i]? := by
      intro hc
      rw [hm i, if_neg (fun h => hc h.2)]
    refine ⟨hsel, hnot, ?_⟩
    constructor
    · intro hne
      by_contra hc
      exact hne (hnot hc)
    · intro hc e
      rw [hsel hc, List.getElem?_eq_getElem hi] at e
      simp only [Option.map_some', Option.some.injEq] at e
      exact wrap32_succ_ne _ e
  · unfold mc2thrash2.sequential_walk
    rw [h]; rfl
  · unfold resspin.sequential_walk resspin.sequential_walk_run
    rw [h]; rfl

/-- Witness for `sequential_walk_writes_and_sum`: a 256-int buffer (`wss = 1`)
and `write_cycle = 3`. -/
theorem sequential_walk_writes_and_sum_witness :
    ∃ st, mc2thrash2.sequential_walk_run (List.replicate 256 5) 1 3 = .ok st ∧
      resspin.sequential_walk_run (List.replicate 256 5) 1 3 = .ok st ∧
      st.writes = (List.range (List.replicate 256 (5 : Int)).length).filter
        (fun i => decide (seq_selected 3 i)) ∧
      st.mem.length = (List.replicate 256 (5 : Int)).length ∧
      (∀ i, i < (List.replicate 256 (5 : Int)).length →
        (seq_selected 3 i →
          st.mem[i]? = ((List.replicate 256 (5 : Int))[i]?).map (fun v => wrap32 (v + 1))) ∧
        (¬ seq_selected 3 i → st.mem[i]? = (List.replicate 256 (5 : Int))[i]?) ∧
        (st.mem[i]? ≠ (List.replicate 256 (5 : Int))[i]? ↔ seq_selected 3 i)) ∧
      st.sum = wrap32 ((((List.range (List.replicate 256 (5 : Int)).length).filter
        (fun i => decide (¬ seq_selected 3 i))).map
          (fun i => (List.replicate 256 (5 : Int)).getD i 0)).sum) ∧
      mc2thrash2.sequential_walk (List.replicate 256 5) 1 3 = .ok (st.sum, st.mem) ∧
      resspin.sequential_walk (List.replicate 256 5) 1 3 = .ok (st.sum, st.mem) :=
  sequential_walk_writes_and_sum (List.replicate 256 5) 1 3 (by decide) (by decide)
    (by rw [List.length_replicate]; decide)

/-- C9 (counterexample): `sequential_walk` with `write_cycle = 2` over a
buffer of 256 sevens leaves 8 in slot 1: the store `mem[i]++` changes the
contents. -/
theorem sequential_walk_write_not_noop :
    ∃ r mem', mc2thrash2.sequential_walk (List.replicate 256 7) 1 2 = .ok (r, mem') ∧
      resspin.sequential_walk (List.replicate 256 7) 1 2 = .ok (r, mem') ∧
      mem'[1]? = some 8 ∧ (List.replicate 256 (7 : Int))[1]? = some 7 := by
  obtain ⟨st, h, _, hm, _, _⟩ := mc2thrash2.sequential_walk_run_spec (List.replicate 256 7) 1 2
    (by decide) (by decide) (by rw [List.length_replicate]; decide)
  have h1 : (List.replicate 256 (7 : Int))[1]? = some 7 := by
    rw [List.getElem?_replicate]; decide
  refine ⟨st.sum, st.mem, ?_, ?_, ?_, h1⟩
  · unfold mc2thrash2.sequential_walk
    rw [h]; rfl
  · unfold resspin.sequential_walk resspin.sequential_walk_run
    rw [h]; rfl
  · rw [hm 1, h1]
    have : 1 < (wrap32 (1 * (INTS_IN_1KB : Int))).toNat ∧ seq_selected 2 1 := by decide
    rw [if_pos this]
    decide

/-- C9 (amended): for every `write_cycle = k > 0`, `sequential_walk` over a
buffer that holds the `n = wss * INTS_IN_1KB` visited ints returns, and after
the call each visited slot at an offset `i` with `i mod k = k - 1` holds its
previous value plus one (32-bit wrap) while every other slot holds the value
it held before. -/
theorem sequential_walk_increments (mem : List Int) (wss write_cycle : Int)
    (hk : 0 < write_cycle) (hk2 : write_cycle ≤ INT_MAX)
    (hlen : (wrap32 (wss * (INTS_IN_1KB : Int))).toNat ≤ mem.length) :
    ∃ r mem', mc2thrash2.sequential_walk mem wss write_cycle = .ok (r, mem') ∧
      resspin.sequential_walk mem wss write_cycle = .ok (r, mem') ∧
      mem'.length = mem.length ∧
      ∀ i, mem'[i]? =
        if i < (wrap32 (wss * (INTS_IN_1KB : Int))).toNat ∧ seq_selected write_cycle i
        then (mem[i]?).map (fun v => wrap32 (v + 1)) else mem[i]? := by
  obtain ⟨st, h, hl, hm, _, _⟩ := mc2thrash2.sequential_walk_run_spec mem wss write_cycle hk hk2 hlen
  refine ⟨st.sum, st.mem, ?_, ?_, hl, hm⟩
  · unfold mc2thrash2.sequential_walk
    rw [h]; rfl
  · unfold resspin.sequential_walk resspin.sequential_walk_run
    rw [h]; rfl

/-- Witness for `sequential_walk_increments`: a 256-int buffer (`wss = 1`) and
`write_cycle = 2`. -/
theorem sequential_walk_increments_witness :
    ∃ r mem', mc2thrash2.sequential_walk (List.replicate 256 7) 1 2 = .ok (r, mem') ∧
      resspin.sequential_walk (List.replicate 256 7) 1 2 = .ok (r, mem') ∧
      mem'.length = (List.replicate 256 (7 : Int)).length ∧
      ∀ i, mem'[i]? =
        if i < (wrap32 (1 * (INTS_IN_1KB : Int))).toNat ∧ seq_selected 2 i
        then ((List.replicate 256 (7 : Int))[i]?).map (fun v => wrap32 (v + 1))
        else (List.replicate 256 (7 : Int))[i]? :=
  sequential_walk_increments (List.replicate 256 7) 1 2 (by decide) (by decide)
    (by rw [List.length_replicate]; decide)

/-! ## `sequential_start` -/

/-- An `int` compared as `size_t` with a bound below `2^31` is greater exactly
when it is negative or greater as an integer. -/
theorem to_size_t_gt_iff (SIZE_BITS : Nat) (x y : Int) (hb : 32 ≤ SIZE_BITS)
    (hx1 : INT_MIN ≤ x) (hx2 : x ≤ INT_MAX) (hy1 : 0 ≤ y) (hy2 : y ≤ INT_MAX) :
    to_size_t SIZE_BITS x > y ↔ x < 0 ∨ x > y := by
  unfold INT_MIN at hx1
  unfold INT_MAX at hx2 hy2
  have hpow : (4294967296 : Int) ≤ 2 ^ SIZE_BITS := by
    have h : (2 : Int) ^ 32 ≤ 2 ^ SIZE_BITS := pow_le_pow_right₀ (by norm_num) hb
    norm_num at h
    exact h
  unfold to_size_t
  by_cases hneg : x < 0
  · have h1 : x % 2 ^ SIZE_BITS = x + 2 ^ SIZE_BITS := by
      rw [← Int.add_emod_self]
      exact Int.emod_eq_of_lt (by omega) (by omega)
    rw [h1]
    constructor
    · intro _; left; exact hneg
    · intro _; omega
  · have h1 : x % 2 ^ SIZE_BITS = x := Int.emod_eq_of_lt (by omega) (by omega)
    rw [h1]
    constructor
    · intro h; right; exact h
    · intro h; rcases h with h | h
      · exact absurd h hneg
      · exact h

theorem wrap32_range (x : Int) : INT_MIN ≤ wrap32 x ∧ wrap32 x ≤ INT_MAX := by
  unfold wrap32 INT_MIN INT_MAX; omega

namespace mc2thrash2

theorem NUM_ARENA_ELEM_le (CACHELINE_SIZE : Nat) : NUM_ARENA_ELEM CACHELINE_SIZE ≤ 1048576 := by
  unfold NUM_ARENA_ELEM ARENA_SIZE_KB
  exact Nat.div_le_self _ _

/-- The size check of `sequential_start`, for a request that does not overflow
`num_cachelines * 2` downwards: fatal exactly when the request is negative or
more than half of the arena. -/
theorem size_check_iff (SIZE_BITS CACHELINE_SIZE : Nat) (n : Int) (hb : 32 ≤ SIZE_BITS)
    (hn1 : -1073741824 ≤ n) (hn2 : n ≤ INT_MAX) :
    to_size_t SIZE_BITS (wrap32 (n * 2)) > (NUM_ARENA_ELEM CACHELINE_SIZE : Int) ↔
      n < 0 ∨ 2 * n > (NUM_ARENA_ELEM CACHELINE_SIZE : Int) := by
  have hN := NUM_ARENA_ELEM_le CACHELINE_SIZE
  have hr := wrap32_range (n * 2)
  rw [to_size_t_gt_iff SIZE_BITS _ _ hb hr.1 hr.2 (by omega) (by unfold INT_MAX; omega)]
  unfold INT_MAX at hn2
  unfold wrap32
  omega

/-- The three outcomes of `sequential_start` for a cursor inside the arena. -/
theorem sequential_start_cases (SIZE_BITS CACHELINE_SIZE : Nat) (pos wss : Int) (hb : 32 ≤ SIZE_BITS)
    (hp1 : 0 ≤ pos) (hp2 : pos ≤ (NUM_ARENA_ELEM CACHELINE_SIZE : Int))
    (hn : -1073741824 ≤ num_cachelines CACHELINE_SIZE wss) :
    sequential_start SIZE_BITS CACHELINE_SIZE pos wss =
      if num_cachelines CACHELINE_SIZE wss < 0 ∨
          2 * num_cachelines CACHELINE_SIZE wss > (NUM_ARENA_ELEM CACHELINE_SIZE : Int) then
        (.error die, pos)
      else if pos + num_cachelines CACHELINE_SIZE wss > (NUM_ARENA_ELEM CACHELINE_SIZE : Int) then
        (.ok 0, num_cachelines CACHELINE_SIZE wss)
      else (.ok pos, pos + num_cachelines CACHELINE_SIZE wss) := by
  have hN := NUM_ARENA_ELEM_le CACHELINE_SIZE
  have hr : INT_MIN ≤ num_cachelines CACHELINE_SIZE wss ∧
      num_cachelines CACHELINE_SIZE wss ≤ INT_MAX := wrap32_range _
  unfold sequential_start
  simp only []
  by_cases hc : num_cachelines CACHELINE_SIZE wss < 0 ∨
      2 * num_cachelines CACHELINE_SIZE wss > (NUM_ARENA_ELEM CACHELINE_SIZE : Int)
  · rw [if_pos ((size_check_iff SIZE_BITS CACHELINE_SIZE _ hb hn hr.2).mpr hc), if_pos hc]
  · rw [if_neg (fun h => hc ((size_check_iff SIZE_BITS CACHELINE_SIZE _ hb hn hr.2).mp h)),
      if_neg hc]
    have hw : wrap32 (pos + num_cachelines CACHELINE_SIZE wss)
        = pos + num_cachelines CACHELINE_SIZE wss := by
      unfold wrap32; omega
    rw [hw]
    have hiff := to_size_t_gt_iff SIZE_BITS (pos + num_cachelines CACHELINE_SIZE wss)
      (NUM_ARENA_ELEM CACHELINE_SIZE : Int) hb (by unfold INT_MIN; omega)
      (by unfold INT_MAX; omega) (by omega) (by unfold INT_MAX; omega)
    by_cases hwrap : pos + num_cachelines CACHELINE_SIZE wss > (NUM_ARENA_ELEM CACHELINE_SIZE : Int)
    · rw [if_pos (hiff.mpr (Or.inr hwrap)), if_pos hwrap]
    · have : ¬ to_size_t SIZE_BITS (pos + num_cachelines CACHELINE_SIZE wss)
          > (NUM_ARENA_ELEM CACHELINE_SIZE : Int) := by
        intro h
        rcases hiff.mp h with h | h
        · omega
        · exact hwrap h
      rw [if_neg this, if_neg hwrap]

/-- `sequential_start` is fatal exactly when its size check fires, and then
the cursor stays. -/
theorem sequential_start_fatal (SIZE_BITS CACHELINE_SIZE : Nat) (pos wss : Int) :
    ((sequential_start SIZE_BITS CACHELINE_SIZE pos wss).1 = .error die ↔
      to_size_t SIZE_BITS (wrap32 (num_cachelines CACHELINE_SIZE wss * 2))
        > (NUM_ARENA_ELEM CACHELINE_SIZE : Int)) ∧
    (∀ e, (sequential_start SIZE_BITS CACHELINE_SIZE pos wss).1 = .error e →
      e = die ∧ (sequential_start SIZE_BITS CACHELINE_SIZE pos wss).2 = pos) := by
  unfold sequential_start
  simp only []
  by_cases hc : to_size_t SIZE_BITS (wrap32 (num_cachelines CACHELINE_SIZE wss * 2))
      > (NUM_ARENA_ELEM CACHELINE_SIZE : Int)
  · rw [if_pos hc]
    refine ⟨⟨fun _ => hc, fun _ => rfl⟩, ?_⟩
    intro e he
    injection he with he
    exact ⟨he.symm, rfl⟩
  · rw [if_neg hc]
    split
    · refine ⟨⟨fun h => by simp at h, fun h => absurd h hc⟩, fun e he => by simp at he⟩
    · refine ⟨⟨fun h => by simp at h, fun h => absurd h hc⟩, fun e he => by simp at he⟩

end mc2thrash2

/-- C14 (counterexample): in mc2thrash2 with 32-byte lines (32 lines in 1 KB)
the negative `wss = -134217728` gives `num_cachelines = wss * 32 = -2^32`,
which is 0 as an `int`: the size check does not fire and the call returns the
region at the cursor. For `wss = -67108864`, `num_cachelines` is `INT_MIN`,
its double wraps to 0 and the call returns offset 0. This holds for a 32-bit
and for a 64-bit `size_t`. -/
theorem sequential_start_negative_wss_returns :
    mc2thrash2.num_cachelines 32 (-134217728) = 0 ∧
    mc2thrash2.sequential_start 32 32 64 (-134217728) = (.ok 64, 64) ∧
    mc2thrash2.sequential_start 64 32 64 (-134217728) = (.ok 64, 64) ∧
    mc2thrash2.num_cachelines 32 (-67108864) = -2147483648 ∧
    mc2thrash2.sequential_start 32 32 0 (-67108864) = (.ok 0, -2147483648) ∧
    mc2thrash2.sequential_start 64 32 0 (-67108864) = (.ok 0, -2147483648) := by
  decide

/-- C14 (amended): in mc2thrash2, for a request size
`n = wss * CACHELINES_IN_1KB ≥ 0`, `sequential_start(wss)` ends the process
with `die` if and only if `2 * n > NUM_ARENA_ELEM`; a fatal call returns no
region and leaves the cursor where it was; a negative `wss` is fatal too when
`wss * CACHELINES_IN_1KB ≥ -2^30`, so that neither the product nor its double
wraps around as an `int` (and there is a line in 1 KB). -/
theorem sequential_start_half_policy (SIZE_BITS CACHELINE_SIZE : Nat) (pos wss : Int)
    (hb : 32 ≤ SIZE_BITS) :
    (0 ≤ mc2thrash2.num_cachelines CACHELINE_SIZE wss →
      ((mc2thrash2.sequential_start SIZE_BITS CACHELINE_SIZE pos wss).1 = .error die ↔
        2 * mc2thrash2.num_cachelines CACHELINE_SIZE wss
          > (mc2thrash2.NUM_ARENA_ELEM CACHELINE_SIZE : Int))) ∧
    (∀ e, (mc2thrash2.sequential_start SIZE_BITS CACHELINE_SIZE pos wss).1 = .error e →
      e = die ∧ (mc2thrash2.sequential_start SIZE_BITS CACHELINE_SIZE pos wss).2 = pos) ∧
    (wss < 0 → 0 < CACHELINES_IN_1KB CACHELINE_SIZE →
      -1073741824 ≤ wss * (CACHELINES_IN_1KB CACHELINE_SIZE : Int) →
      mc2thrash2.sequential_start SIZE_BITS CACHELINE_SIZE pos wss = (.error die, pos)) := by
  obtain ⟨h1, h2⟩ := mc2thrash2.sequential_start_fatal SIZE_BITS CACHELINE_SIZE pos wss
  have hr : INT_MIN ≤ mc2thrash2.num_cachelines CACHELINE_SIZE wss ∧
      mc2thrash2.num_cachelines CACHELINE_SIZE wss ≤ INT_MAX := wrap32_range _
  refine ⟨?_, h2, ?_⟩
  · intro hn
    rw [h1, mc2thrash2.size_check_iff SIZE_BITS CACHELINE_SIZE _ hb (by omega) hr.2]
    constructor
    · intro h; rcases h with h | h
      · omega
      · exact h
    · intro h; exact Or.inr h
  · intro hw hc hno
    have hneg : wss * (CACHELINES_IN_1KB CACHELINE_SIZE : Int) < 0 := by
      have : (0 : Int) < (CACHELINES_IN_1KB CACHELINE_SIZE : Int) := by exact_mod_cast hc
      exact Int.mul_neg_of_neg_of_pos hw this
    have hn : mc2thrash2.num_cachelines CACHELINE_SIZE wss
        = wss * (CACHELINES_IN_1KB CACHELINE_SIZE : Int) := by
      unfold mc2thrash2.num_cachelines wrap32; omega
    have hfat : (mc2thrash2.sequential_start SIZE_BITS CACHELINE_SIZE pos wss).1 = .error die := by
      rw [h1, mc2thrash2.size_check_iff SIZE_BITS CACHELINE_SIZE _ hb (by omega) hr.2]
      left; omega
    obtain ⟨_, hpos⟩ := h2 die hfat
    exact Prod.ext hfat hpos

/-- Witness for `sequential_start_half_policy`: with 32-byte lines the arena
has 32768 lines; `wss = 513` requests 16416 lines, more than half. -/
theorem sequential_start_half_policy_witness :
    mc2thrash2.sequential_start 32 32 64 513 = (.error die, 64) ∧
    mc2thrash2.sequential_start 32 32 64 512 = (.ok 64, 16448) ∧
    mc2thrash2.sequential_start 32 32 64 (-1) = (.error die, 64) :=
  have h := sequential_start_half_policy 32 32 64 513 (by decide)
  have h' := sequential_start_half_policy 32 32 64 (-1) (by decide)
  ⟨Prod.ext ((h.1 (by decide)).mpr (by decide)) (h.2.1 die ((h.1 (by decide)).mpr (by decide))).2,
   by decide, h'.2.2 (by decide) (by decide) (by decide)⟩
namespace mc2thrash2

/-- A policy-respecting call neither dies nor leaves the arena: it returns
offset 0 and cursor `n` when `pos + n` exceeds the arena, else offset `pos`
and cursor `pos + n`. -/
theorem sequential_start_policy (SIZE_BITS CACHELINE_SIZE : Nat) (pos wss : Int)
    (hb : 32 ≤ SIZE_BITS) (hp1 : 0 ≤ pos) (hp2 : pos ≤ (NUM_ARENA_ELEM CACHELINE_SIZE : Int))
    (hn0 : 0 ≤ num_cachelines CACHELINE_SIZE wss)
    (hn : 2 * num_cachelines CACHELINE_SIZE wss ≤ (NUM_ARENA_ELEM CACHELINE_SIZE : Int)) :
    sequential_start SIZE_BITS CACHELINE_SIZE pos wss =
      if pos + num_cachelines CACHELINE_SIZE wss > (NUM_ARENA_ELEM CACHELINE_SIZE : Int) then
        (.ok 0, num_cachelines CACHELINE_SIZE wss)
      else (.ok pos, pos + num_cachelines CACHELINE_SIZE wss) := by
  rw [sequential_start_cases SIZE_BITS CACHELINE_SIZE pos wss hb hp1 hp2 (by omega)]
  have : ¬ (num_cachelines CACHELINE_SIZE wss < 0 ∨
      2 * num_cachelines CACHELINE_SIZE wss > (NUM_ARENA_ELEM CACHELINE_SIZE : Int)) := by omega
  rw [if_neg this]

end mc2thrash2

/-- The cursor stays inside `[0, NUM_ARENA_ELEM]` along policy-respecting
calls. -/
theorem cursor_after_bounds (SIZE_BITS CACHELINE_SIZE : Nat) (hb : 32 ≤ SIZE_BITS) :
    ∀ (hist : List Int) (pos0 pos : Int),
      0 ≤ pos0 → pos0 ≤ (mc2thrash2.NUM_ARENA_ELEM CACHELINE_SIZE : Int) →
      (∀ w ∈ hist, 0 ≤ mc2thrash2.num_cachelines CACHELINE_SIZE w ∧
        2 * mc2thrash2.num_cachelines CACHELINE_SIZE w
          ≤ (mc2thrash2.NUM_ARENA_ELEM CACHELINE_SIZE : Int)) →
      cursor_after SIZE_BITS CACHELINE_SIZE pos0 hist = some pos →
      0 ≤ pos ∧ pos ≤ (mc2thrash2.NUM_ARENA_ELEM CACHELINE_SIZE : Int) := by
  intro hist
  induction hist with
  | nil =>
    intro pos0 pos h1 h2 _ h
    simp only [cursor_after] at h
    injection h with h
    subst h
    exact ⟨h1, h2⟩
  | cons w rest ih =>
    intro pos0 pos h1 h2 hpol h
    obtain ⟨hw0, hw⟩ := hpol w (List.mem_cons_self _ _)
    have hrest : ∀ v ∈ rest, 0 ≤ mc2thrash2.num_cachelines CACHELINE_SIZE v ∧
        2 * mc2thrash2.num_cachelines CACHELINE_SIZE v
          ≤ (mc2thrash2.NUM_ARENA_ELEM CACHELINE_SIZE : Int) :=
      fun v hv => hpol v (List.mem_cons_of_mem _ hv)
    simp only [cursor_after] at h
    rw [mc2thrash2.sequential_start_policy SIZE_BITS CACHELINE_SIZE pos0 w hb h1 h2 hw0 hw] at h
    by_cases hwrap : pos0 + mc2thrash2.num_cachelines CACHELINE_SIZE w
        > (mc2thrash2.NUM_ARENA_ELEM CACHELINE_SIZE : Int)
    · rw [if_pos hwrap] at h
      exact ih _ pos hw0 (by omega) hrest h
    · rw [if_neg hwrap] at h
      exact ih _ pos (by omega) (by omega) hrest h

/-- For two consecutive policy-respecting calls from a cursor inside the
arena, the second range is disjoint from the first exactly when the second
call does not wrap or the first range starts at or above `n2`. -/
theorem consecutive_starts (SIZE_BITS CACHELINE_SIZE : Nat) (pos wss1 wss2 off1 off2 pos1 pos2 : Int)
    (hb : 32 ≤ SIZE_BITS) (hp1 : 0 ≤ pos)
    (hp2 : pos ≤ (mc2thrash2.NUM_ARENA_ELEM CACHELINE_SIZE : Int))
    (hn1 : 0 < mc2thrash2.num_cachelines CACHELINE_SIZE wss1)
    (hh1 : 2 * mc2thrash2.num_cachelines CACHELINE_SIZE wss1
      ≤ (mc2thrash2.NUM_ARENA_ELEM CACHELINE_SIZE : Int))
    (hn2 : 0 < mc2thrash2.num_cachelines CACHELINE_SIZE wss2)
    (hh2 : 2 * mc2thrash2.num_cachelines CACHELINE_SIZE wss2
      ≤ (mc2thrash2.NUM_ARENA_ELEM CACHELINE_SIZE : Int))
    (hc1 : mc2thrash2.sequential_start SIZE_BITS CACHELINE_SIZE pos wss1 = (.ok off1, pos1))
    (hc2 : mc2thrash2.sequential_start SIZE_BITS CACHELINE_SIZE pos1 wss2 = (.ok off2, pos2)) :
    ranges_disjoint off1 (mc2thrash2.num_cachelines CACHELINE_SIZE wss1)
        off2 (mc2thrash2.num_cachelines CACHELINE_SIZE wss2) ↔
      ¬ (pos1 + mc2thrash2.num_cachelines CACHELINE_SIZE wss2
            > (mc2thrash2.NUM_ARENA_ELEM CACHELINE_SIZE : Int) ∧
         off1 < mc2thrash2.num_cachelines CACHELINE_SIZE wss2) := by
  rw [mc2thrash2.sequential_start_policy SIZE_BITS CACHELINE_SIZE pos wss1 hb hp1 hp2
    (by omega) hh1] at hc1
  have hfirst : 0 ≤ off1 ∧ pos1 = off1 + mc2thrash2.num_cachelines CACHELINE_SIZE wss1 ∧
      pos1 ≤ (mc2thrash2.NUM_ARENA_ELEM CACHELINE_SIZE : Int) := by
    by_cases hw : pos + mc2thrash2.num_cachelines CACHELINE_SIZE wss1
        > (mc2thrash2.NUM_ARENA_ELEM CACHELINE_SIZE : Int)
    · rw [if_pos hw] at hc1
      injection hc1 with e1 e2
      injection e1 with e1
      omega
    · rw [if_neg hw] at hc1
      injection hc1 with e1 e2
      injection e1 with e1
      omega
  obtain ⟨ho, hpos1, hle⟩ := hfirst
  rw [mc2thrash2.sequential_start_policy SIZE_BITS CACHELINE_SIZE pos1 wss2 hb (by omega) hle
    (by omega) hh2] at hc2
  unfold ranges_disjoint
  by_cases hw : pos1 + mc2thrash2.num_cachelines CACHELINE_SIZE wss2
      > (mc2thrash2.NUM_ARENA_ELEM CACHELINE_SIZE : Int)
  · rw [if_pos hw] at hc2
    injection hc2 with e1 e2
    injection e1 with e1
    omega
  · rw [if_neg hw] at hc2
    injection hc2 with e1 e2
    injection e1 with e1
    omega

/-- C16: in mc2thrash2, for a policy-respecting request of `n` lines and a
cursor `pos` inside the arena: if `pos + n > NUM_ARENA_ELEM`,
`sequential_start` returns offset 0 and sets the cursor to `n`; otherwise it
returns offset `pos` and sets the cursor to `pos + n`. -/
theorem sequential_start_wraps (SIZE_BITS CACHELINE_SIZE : Nat) (pos wss : Int)
    (hb : 32 ≤ SIZE_BITS) (hp1 : 0 ≤ pos)
    (hp2 : pos ≤ (mc2thrash2.NUM_ARENA_ELEM CACHELINE_SIZE : Int))
    (hn0 : 0 ≤ mc2thrash2.num_cachelines CACHELINE_SIZE wss)
    (hn : 2 * mc2thrash2.num_cachelines CACHELINE_SIZE wss
      ≤ (mc2thrash2.NUM_ARENA_ELEM CACHELINE_SIZE : Int)) :
    (pos + mc2thrash2.num_cachelines CACHELINE_SIZE wss
        > (mc2thrash2.NUM_ARENA_ELEM CACHELINE_SIZE : Int) →
      mc2thrash2.sequential_start SIZE_BITS CACHELINE_SIZE pos wss
        = (.ok 0, mc2thrash2.num_cachelines CACHELINE_SIZE wss)) ∧
    (pos + mc2thrash2.num_cachelines CACHELINE_SIZE wss
        ≤ (mc2thrash2.NUM_ARENA_ELEM CACHELINE_SIZE : Int) →
      mc2thrash2.sequential_start SIZE_BITS CACHELINE_SIZE pos wss
        = (.ok pos, pos + mc2thrash2.num_cachelines CACHELINE_SIZE wss)) := by
  rw [mc2thrash2.sequential_start_policy SIZE_BITS CACHELINE_SIZE pos wss hb hp1 hp2 hn0 hn]
  constructor
  · intro h; rw [if_pos h]
  · intro h; rw [if_neg (by omega)]

/-- Witness for `sequential_start_wraps`: 32768 lines, a request of 8192 lines
(`wss = 256`) at cursor 28672 wraps, at cursor 8192 it does not. -/
theorem sequential_start_wraps_witness :
    mc2thrash2.sequential_start 32 32 28672 256 = (.ok 0, 8192) ∧
    mc2thrash2.sequential_start 32 32 8192 256 = (.ok 8192, 16384) :=
  ⟨(sequential_start_wraps 32 32 28672 256 (by decide) (by decide) (by decide) (by decide)
      (by decide)).1 (by decide),
   (sequential_start_wraps 32 32 8192 256 (by decide) (by decide) (by decide) (by decide)
      (by decide)).2 (by decide)⟩

/-- C15 (counterexample): with 32768 lines, after a call for 9984
lines (`wss = 312`) two consecutive calls for 16384 lines each (`wss = 512`,
half the arena) return `[9984, 26368)` and then, wrapping, `[0, 16384)`: the
second range overlaps the range of the call just before it. -/
theorem sequential_start_reuses_prior_range :
    cursor_after 32 32 0 [312] = some 9984 ∧
    mc2thrash2.num_cachelines 32 512 = 16384 ∧
    2 * (16384 : Int) ≤ (mc2thrash2.NUM_ARENA_ELEM 32 : Int) ∧
    mc2thrash2.sequential_start 32 32 9984 512 = (.ok 9984, 26368) ∧
    mc2thrash2.sequential_start 32 32 26368 512 = (.ok 0, 16384) ∧
    ¬ ranges_disjoint 9984 16384 0 16384 := by
  decide

namespace resspin

/-- In resspin the wrap bound `(wss * 1024)/sizeof(cacheline_t)` lies between
`n = wss * CACHELINES_IN_1KB` and `2 * n`. -/
theorem wrap_bound (SIZE_BITS CACHELINE_SIZE : Nat) (wss : Int) (hb : 32 ≤ SIZE_BITS)
    (hw : 0 < wss) (hc : 0 < CACHELINES_IN_1KB CACHELINE_SIZE) (hno : wss * 1024 ≤ INT_MAX) :
    wss * (CACHELINES_IN_1KB CACHELINE_SIZE : Int)
      ≤ to_size_t SIZE_BITS (wrap32 (wss * 1024)) / (sizeof_cacheline_t CACHELINE_SIZE : Int) ∧
    to_size_t SIZE_BITS (wrap32 (wss * 1024)) / (sizeof_cacheline_t CACHELINE_SIZE : Int)
      < 2 * (wss * (CACHELINES_IN_1KB CACHELINE_SIZE : Int)) := by
  unfold INT_MAX at hno
  have hpow : (4294967296 : Int) ≤ 2 ^ SIZE_BITS := by
    have h : (2 : Int) ^ 32 ≤ 2 ^ SIZE_BITS := pow_le_pow_right₀ (by norm_num) hb
    norm_num at h
    exact h
  have h1 : wrap32 (wss * 1024) = wss * 1024 := by unfold wrap32; omega
  have h2 : to_size_t SIZE_BITS (wss * 1024) = wss * 1024 := by
    unfold to_size_t
    exact Int.emod_eq_of_lt (by omega) (by omega)
  rw [h1, h2]
  unfold CACHELINES_IN_1KB sizeof_cacheline_t at *
  have hpos : 0 < CACHELINE_SIZE := by
    by_contra h0
    have : CACHELINE_SIZE = 0 := by omega
    rw [this] at hc
    simp at hc
  have hdm : 1024 / CACHELINE_SIZE * CACHELINE_SIZE ≤ 1024 := Nat.div_mul_le_self _ _
  have hlt : 1024 < (1024 / CACHELINE_SIZE + 1) * CACHELINE_SIZE := by
    have := Nat.lt_succ_iff.mpr (le_refl (1024 / CACHELINE_SIZE))
    exact (Nat.div_lt_iff_lt_mul hpos).mp this
  have hge : CACHELINE_SIZE ≤ 1024 / CACHELINE_SIZE * CACHELINE_SIZE :=
    Nat.le_mul_of_pos_left _ hc
  have hcpos : (0 : Int) < (CACHELINE_SIZE : Int) := by exact_mod_cast hpos
  have hdmZ : ((1024 / CACHELINE_SIZE : Nat) : Int) * (CACHELINE_SIZE : Int) ≤ 1024 := by
    exact_mod_cast hdm
  have h2m : (1024 : Int) < 2 * (((1024 / CACHELINE_SIZE : Nat) : Int) * (CACHELINE_SIZE : Int)) := by
    have : 1024 < 2 * (1024 / CACHELINE_SIZE * CACHELINE_SIZE) := by
      have e : (1024 / CACHELINE_SIZE + 1) * CACHELINE_SIZE
          = 1024 / CACHELINE_SIZE * CACHELINE_SIZE + CACHELINE_SIZE := by ring
      omega
    exact_mod_cast this
  constructor
  · rw [Int.le_ediv_iff_mul_le hcpos]
    nlinarith
  · rw [Int.ediv_lt_iff_lt_mul hcpos]
    nlinarith

/-- In resspin, a call from cursor 0 and a call from cursor `n` both return
offset 0 and leave the cursor at `n = wss * CACHELINES_IN_1KB`. -/
theorem sequential_start_same_region (SIZE_BITS CACHELINE_SIZE : Nat) (wss : Int)
    (hb : 32 ≤ SIZE_BITS) (hw : 0 < wss) (hc : 0 < CACHELINES_IN_1KB CACHELINE_SIZE)
    (hno : wss ≤ 1048575) :
    sequential_start SIZE_BITS CACHELINE_SIZE 0 wss
      = (0, wss * (CACHELINES_IN_1KB CACHELINE_SIZE : Int)) ∧
    sequential_start SIZE_BITS CACHELINE_SIZE (wss * (CACHELINES_IN_1KB CACHELINE_SIZE : Int)) wss
      = (0, wss * (CACHELINES_IN_1KB CACHELINE_SIZE : Int)) := by
  obtain ⟨hlo, hhi⟩ := wrap_bound SIZE_BITS CACHELINE_SIZE wss hb hw hc
    (by unfold INT_MAX; omega)
  have hcle : CACHELINES_IN_1KB CACHELINE_SIZE ≤ 1024 := by
    unfold CACHELINES_IN_1KB; exact Nat.div_le_self _ _
  have hcZ : (0 : Int) < (CACHELINES_IN_1KB CACHELINE_SIZE : Int) ∧
      (CACHELINES_IN_1KB CACHELINE_SIZE : Int) ≤ 1024 := by
    constructor
    · exact_mod_cast hc
    · exact_mod_cast hcle
  have hnpos : 0 < wss * (CACHELINES_IN_1KB CACHELINE_SIZE : Int) := Int.mul_pos hw hcZ.1
  have hnle : wss * (CACHELINES_IN_1KB CACHELINE_SIZE : Int) ≤ wss * 1024 :=
    Int.mul_le_mul_of_nonneg_left hcZ.2 (by omega)
  have hpow : (4294967296 : Int) ≤ 2 ^ SIZE_BITS := by
    have h : (2 : Int) ^ 32 ≤ 2 ^ SIZE_BITS := pow_le_pow_right₀ (by norm_num) hb
    norm_num at h
    exact h
  have hn : wrap32 (wss * (CACHELINES_IN_1KB CACHELINE_SIZE : Int))
      = wss * (CACHELINES_IN_1KB CACHELINE_SIZE : Int) := by
    unfold wrap32; omega
  constructor
  · unfold sequential_start
    simp only [hn, zero_add]
    have hs : to_size_t SIZE_BITS (wss * (CACHELINES_IN_1KB CACHELINE_SIZE : Int))
        = wss * (CACHELINES_IN_1KB CACHELINE_SIZE : Int) := by
      unfold to_size_t
      exact Int.emod_eq_of_lt (by omega) (by omega)
    rw [hs, if_neg (by omega)]
  · unfold sequential_start
    simp only [hn]
    have hsum : wrap32 (wss * (CACHELINES_IN_1KB CACHELINE_SIZE : Int)
        + wss * (CACHELINES_IN_1KB CACHELINE_SIZE : Int))
        = 2 * (wss * (CACHELINES_IN_1KB CACHELINE_SIZE : Int)) := by
      unfold wrap32; omega
    have hs : to_size_t SIZE_BITS (2 * (wss * (CACHELINES_IN_1KB CACHELINE_SIZE : Int)))
        = 2 * (wss * (CACHELINES_IN_1KB CACHELINE_SIZE : Int)) := by
      unfold to_size_t
      exact Int.emod_eq_of_lt (by omega) (by omega)
    rw [hsum, hs, if_pos (by omega)]

end resspin

/-- C17 (counterexample): in resspin with 32-byte lines, two consecutive calls
`sequential_start(1)` from the initial cursor both return offset 0, the same
region of 32 lines. -/
theorem resspin_sequential_start_reuses :
    resspin.sequential_start 32 32 0 1 = (0, 32) ∧
    resspin.sequential_start 32 32 32 1 = (0, 32) ∧
    ¬ ranges_disjoint 0 32 0 32 := by
  decide

/-- C17 (amended): in resspin, for every `wss > 0` (below 2^20 KB), a call
`sequential_start(wss)` from the initial cursor 0 and the call that follows it
both return offset 0 and leave the cursor at `n = wss * CACHELINES_IN_1KB`:
back-to-back invocations return the same region `[0, n)`. -/
theorem resspin_sequential_start_same_region (SIZE_BITS CACHELINE_SIZE : Nat) (wss : Int)
    (hb : 32 ≤ SIZE_BITS) (hw : 0 < wss) (hc : 0 < CACHELINES_IN_1KB CACHELINE_SIZE)
    (hno : wss ≤ 1048575) :
    resspin.sequential_start SIZE_BITS CACHELINE_SIZE 0 wss
      = (0, wss * (CACHELINES_IN_1KB CACHELINE_SIZE : Int)) ∧
    resspin.sequential_start SIZE_BITS CACHELINE_SIZE
        (resspin.sequential_start SIZE_BITS CACHELINE_SIZE 0 wss).2 wss
      = (0, wss * (CACHELINES_IN_1KB CACHELINE_SIZE : Int)) := by
  obtain ⟨h1, h2⟩ := resspin.sequential_start_same_region SIZE_BITS CACHELINE_SIZE wss hb hw hc hno
  rw [h1]
  exact ⟨rfl, h2⟩

/-- Witness for `resspin_sequential_start_same_region`: `wss = 64` (the
`ARENA_SIZE_KB` of resspin.c), 32-byte lines. -/
theorem resspin_sequential_start_same_region_witness :
    resspin.sequential_start 32 32 0 64 = (0, 64 * (CACHELINES_IN_1KB 32 : Int)) ∧
    resspin.sequential_start 32 32 (resspin.sequential_start 32 32 0 64).2 64
      = (0, 64 * (CACHELINES_IN_1KB 32 : Int)) :=
  resspin_sequential_start_same_region 32 32 64 (by decide) (by decide) (by decide) (by decide)

/-! ## `alloc_arena` -/

/-- C18 (code at the failing input): when `mmap` fails, returning
`MAP_FAILED = (void *) -1`, `alloc_arena` (cache_common.h and mc2pollute.c)
does not end the process: `assert(arena)` only rejects the null pointer, and
`MAP_FAILED` is returned to the caller as the arena. -/
theorem alloc_arena_returns_map_failed :
    alloc_arena (fun _ _ _ => MAP_FAILED) 3 1048576 0 0 = .ok MAP_FAILED ∧
    mc2pollute.alloc_arena (fun _ _ _ => MAP_FAILED) 3 1048576 0 0 = .ok MAP_FAILED ∧
    alloc_arena (fun _ _ _ => MAP_FAILED) 3 1048576 1 1 = .ok MAP_FAILED := by
  decide
/-! ## Pure reads (`write_cycle = 0`) -/

theorem slot_value_of_read (arena : Arena) (i : Int) (j : Nat) (v : Int)
    (h : read_slot arena i j = .ok v) : slot_value arena (i, j) = v := by
  obtain ⟨l, _, hl, hv⟩ := read_slot_ok arena i j v h
  unfold slot_value
  simp only [List.getD_eq_getElem?_getD, hl, hv, Option.getD_some]

namespace mc2thrash2

/-- A read-only `random_walk` that returns has stored to no slot, left the
arena as it was and summed the value of every slot it read. -/
theorem random_walk_run_read_only (CACHELINE_SIZE : Nat) (arena : Arena) (start wss : Int)
    (st : WalkState) (h : random_walk_run CACHELINE_SIZE arena start wss 0 = .ok st) :
    st.arena = arena ∧ st.writes = [] ∧
      st.sum = wrap32 ((st.reads.map (slot_value arena)).sum) := by
  unfold random_walk_run at h
  simp only [if_true] at h
  exact for_loop_inv
    (fun _ (s : WalkState) => s.arena = arena ∧ s.writes = [] ∧
      s.sum = wrap32 ((s.reads.map (slot_value arena)).sum)) _ _ 0
    (by
      intro i s s' _ _ hP hb
      exact for_loop_inv
        (fun _ (t : WalkState) => t.arena = arena ∧ t.writes = [] ∧
          t.sum = wrap32 ((t.reads.map (slot_value arena)).sum)) _ _ 0
        (by
          intro j t t' _ _ ⟨ha, hw, hs⟩ ht
          obtain ⟨v, hr, e⟩ := read_step_ok _ _ _ _ ht
          rw [ha] at hr
          have hv := slot_value_of_read arena _ _ v hr
          rw [e]
          refine ⟨ha, hw, ?_⟩
          simp only [List.map_append, List.sum_append, List.map_cons, List.map_nil,
            List.sum_cons, List.sum_nil, add_zero]
          rw [hs, wrap32_add_wrap32, hv])
        _ _ (by exact hP) hb)
    _ _ ⟨rfl, rfl, by simp [wrap32]⟩ h

/-- The pure-read loop of `sequential_walk` over `n` slots of a buffer that
holds at least `n` ints. -/
theorem seq_read_loop_spec (mem : List Int) (n : Nat) (hlen : n ≤ mem.length) :
    ∃ st, for_loop seq_read_step n 0 ⟨0, mem, []⟩ = .ok st ∧
      st.mem = mem ∧ st.writes = [] ∧
      st.sum = wrap32 (((List.range n).map (fun i => mem.getD i 0)).sum) := by
  obtain ⟨st, h, hP⟩ := for_loop_total
    (fun i (s : SeqState) => s.mem = mem ∧ s.writes = [] ∧
      s.sum = wrap32 (((List.range i).map (fun i => mem.getD i 0)).sum))
    seq_read_step n 0
    (by
      intro i s _ hi ⟨hm, hw, hs⟩
      have hilt : i < mem.length := by omega
      refine ⟨{ s with sum := wrap32 (s.sum + mem[i]) }, ?_, hm, hw, ?_⟩
      · unfold seq_read_step
        rw [hm, List.getElem?_eq_getElem hilt]
      · simp only []
        rw [hs, wrap32_add_wrap32, List.range_succ, List.map_append, List.sum_append]
        simp [List.getElem?_eq_getElem hilt])
    ⟨0, mem, []⟩ ⟨rfl, rfl, by simp [wrap32]⟩
  refine ⟨st, h, ?_⟩
  simpa using hP

end mc2thrash2

/-- C11: with `write_cycle = 0` both walks of mc2thrash2.c are pure reads.
A `random_walk` that returns has stored to no slot, left the arena unchanged
and returns the 32-bit wrapped sum of the values of all the slots it visited
(and it does return on a slot-uniform arena whose lines hold the
`INTS_IN_CACHELINE` = 8 slots it reads, started at one of its lines);
`sequential_walk` over a buffer holding its `wss * INTS_IN_1KB` ints returns,
stores to no slot and returns the wrapped sum of all the visited slots. -/
theorem write_cycle_zero_pure_read (CACHELINE_SIZE : Nat) (arena : Arena) (start wss : Int)
    (mem : List Int) :
    (∀ st, mc2thrash2.random_walk_run CACHELINE_SIZE arena start wss 0 = .ok st →
      st.writes = [] ∧ st.arena = arena ∧
      st.sum = wrap32 ((st.reads.map (slot_value arena)).sum) ∧
      mc2thrash2.random_walk CACHELINE_SIZE arena start wss 0 = .ok (st.sum, arena)) ∧
    (∀ N, slot_uniform (INTS_IN_CACHELINE CACHELINE_SIZE) N arena →
      INTS_IN_CACHELINE mc2thrash2.CACHELINE_SIZE ≤ INTS_IN_CACHELINE CACHELINE_SIZE →
      0 ≤ start → start < (N : Int) →
      ∃ st, mc2thrash2.random_walk_run CACHELINE_SIZE arena start wss 0 = .ok st) ∧
    ((wrap32 (wss * (INTS_IN_1KB : Int))).toNat ≤ mem.length →
      ∃ st, mc2thrash2.sequential_walk_run mem wss 0 = .ok st ∧
        st.writes = [] ∧ st.mem = mem ∧
        st.sum = wrap32 (((List.range (wrap32 (wss * (INTS_IN_1KB : Int))).toNat).map
          (fun i => mem.getD i 0)).sum) ∧
        mc2thrash2.sequential_walk mem wss 0 = .ok (st.sum, mem)) := by
  refine ⟨?_, ?_, ?_⟩
  · intro st h
    obtain ⟨ha, hw, hs⟩ := mc2thrash2.random_walk_run_read_only CACHELINE_SIZE arena start wss st h
    refine ⟨hw, ha, hs, ?_⟩
    unfold mc2thrash2.random_walk
    rw [h]
    simp only [Except.map]
    rw [ha]
  · intro N hu hints h0 hN
    obtain ⟨st, h, _⟩ := mc2thrash2.random_walk_run_uniform CACHELINE_SIZE N arena start wss 0
      hu hints h0 hN (by decide) (by decide)
    exact ⟨st, h⟩
  · intro hlen
    obtain ⟨st, h, hm, hw, hs⟩ := mc2thrash2.seq_read_loop_spec mem _ hlen
    have hrun : mc2thrash2.sequential_walk_run mem wss 0 = .ok st := by
      unfold mc2thrash2.sequential_walk_run
      simp only []
      rw [if_neg (by decide)]
      exact h
    refine ⟨st, hrun, hw, hm, hs, ?_⟩
    unfold mc2thrash2.sequential_walk
    rw [hrun]
    simp only [Except.map]
    rw [hm]

/-- Witness for `write_cycle_zero_pure_read`: one lap of the 32-line ring and a
256-int buffer. -/
theorem write_cycle_zero_pure_read_witness :
    (∃ st, mc2thrash2.random_walk_run 32 (ring_arena 8 32) 3 1 0 = .ok st) ∧
    (∃ st, mc2thrash2.sequential_walk_run (List.replicate 256 5) 1 0 = .ok st ∧
        st.writes = [] ∧ st.mem = List.replicate 256 5 ∧
        st.sum = wrap32 (((List.range (wrap32 (1 * (INTS_IN_1KB : Int))).toNat).map
          (fun i => (List.replicate 256 (5 : Int)).getD i 0)).sum) ∧
        mc2thrash2.sequential_walk (List.replicate 256 5) 1 0 = .ok (st.sum, List.replicate 256 5)) :=
  have h := write_cycle_zero_pure_read 32 (ring_arena 8 32) 3 1 (List.replicate 256 5)
  ⟨h.2.1 32 ring_arena_uniform (by decide) (by decide) (by decide),
   h.2.2 (by rw [List.length_replicate]; decide)⟩
/-! ## What the random walks read -/

/-- C13 (code at the failing input): one lap of the 32-line ring with
`write_cycle = 0`. `random_walk` of mc2pollute.c reads slot 0 of each of the
32 lines it enters and returns 496, one value per line; the 8 slots of those
lines sum to 3968, which is what `random_walk` of mc2thrash2.c returns on the
same input. `random_walk` of mc2thrash.c also reads one slot per line (32768
reads for its 32768 steps). -/
theorem pollute_random_walk_reads_one_slot :
    ∃ st st3,
      mc2pollute.random_walk_run 32 (ring_arena 8 32) 0 1 0 = .ok st ∧
      st.reads = st.lines.map (fun l => (l, 0)) ∧ st.reads.length = 32 ∧
      mc2pollute.random_walk 32 (ring_arena 8 32) 0 1 0 = .ok (496, ring_arena 8 32) ∧
      wrap32 (((slots_of 8 st.lines).map (slot_value (ring_arena 8 32))).sum) = 3968 ∧
      mc2thrash2.random_walk 32 (ring_arena 8 32) 0 1 0 = .ok (3968, ring_arena 8 32) ∧
      mc2thrash.random_walk_run 32 (ring_arena 8 32) 0 0 = .ok st3 ∧
      st3.reads = st3.lines.map (fun l => (l, 0)) ∧ st3.reads.length = 32768 := by
  obtain ⟨st, r1, a1, _, l1, rd1, _, s1⟩ := mc2pollute.pollute_random_walk_run_uniform 32 32
    (ring_arena 8 32) 0 1 0 ring_arena_uniform (by decide) (by decide) (by decide) (by decide)
    (by decide)
  obtain ⟨st2, r2, a2, _, l2, rd2, _, s2⟩ := mc2thrash2.random_walk_run_uniform 32 32
    (ring_arena 8 32) 0 1 0 ring_arena_uniform (by decide) (by decide) (by decide) (by decide)
    (by decide)
  obtain ⟨st3, r3, _, _, l3, rd3, _, _⟩ := mc2pollute.pollute_random_walk_run_uniform 32 32
    (ring_arena 8 32) 0 mc2thrash.WSS 0 ring_arena_uniform (by decide) (by decide) (by decide)
    (by decide) (by decide)
  obtain ⟨_, _, hsum2⟩ := mc2thrash2.random_walk_run_read_only 32 (ring_arena 8 32) 0 1 st2 r2
  have hn : (wrap32 (1 * (CACHELINES_IN_1KB 32 : Int))).toNat = 32 := by decide
  have hn3 : (wrap32 (mc2thrash.WSS * (CACHELINES_IN_1KB 32 : Int))).toNat = 32768 := by decide
  have hp : (0 : Int).toNat = 0 := by decide
  have ht : walk_total (ring_arena 8 32) 0 32 = 496 := by decide
  have hk : ¬ ((0 : Int) = 1) := by decide
  rw [hn, hp] at l1 l2 s1 s2
  rw [hn3, hp] at l3
  rw [if_neg hk, ht] at s1 s2
  have e1 : st.sum = 496 := by rw [s1]; decide
  have e2 : st2.sum = 3968 := by rw [s2]; decide
  refine ⟨st, st3, r1, rd1, ?_, ?_, ?_, ?_, r3, rd3, ?_⟩
  · rw [rd1, List.length_map, l1]
    unfold walk_lines
    rw [List.length_map, List.length_range]
  · unfold mc2pollute.random_walk
    rw [r1]; simp only [Except.map]; rw [a1, e1]
  · have hi : INTS_IN_CACHELINE mc2thrash2.CACHELINE_SIZE = 8 := by decide
    rw [hi] at rd2
    rw [l1, ← l2, ← rd2, ← hsum2, e2]
  · unfold mc2thrash2.random_walk
    rw [r2]; simp only [Except.map]; rw [a2, e2]
  · rw [rd3, List.length_map, l3]
    unfold walk_lines
    rw [List.length_map, List.length_range]
/-! ## `loop_for` -/

/-- What a returning `loop_for` loop has done: it made `m` iterations, it
reports an emergency exit exactly when the deadline is nonzero and one of the
wall-clock readings it took exceeds the deadline, and its `tmp` is built from
the `loop_once` results alone. -/
theorem loop_for_loop_spec (upd : Int → Int → Int) (exec_time emergency_exit start : ℚ) :
    ∀ (ticks : List Tick) (now last_loop : ℚ) (tmp : Int) (k : Nat) (r : LoopResult),
      loop_for_loop upd exec_time emergency_exit start ticks now last_loop tmp k = some r →
      ∃ m, r.iterations = k + m ∧ m ≤ ticks.length ∧
        (r.emergency = true ↔
          emergency_exit ≠ 0 ∧ ∃ t ∈ ticks.take m, t.wall > emergency_exit) ∧
        r.tmp = (ticks.take m).foldl (fun a t => upd a t.once) tmp := by
  intro ticks
  induction ticks with
  | nil =>
    intro now last_loop tmp k r h
    simp only [loop_for_loop] at h
    split at h
    · simp at h
    · injection h with h
      subst h
      exact ⟨0, rfl, le_refl _, by simp, rfl⟩
  | cons t ticks ih =>
    intro now last_loop tmp k r h
    simp only [loop_for_loop] at h
    by_cases hc : now + last_loop < start + exec_time
    · rw [if_pos hc] at h
      by_cases he : emergency_exit ≠ 0 ∧ t.wall > emergency_exit
      · rw [if_pos he] at h
        injection h with h
        subst h
        refine ⟨1, rfl, by simp, ?_, by simp⟩
        simp only [List.take_succ_cons, List.take_zero, List.mem_singleton, exists_eq_left,
          true_iff]
        exact he
      · rw [if_neg he] at h
        obtain ⟨m, h1, h2, h3, h4⟩ := ih _ _ _ _ r h
        refine ⟨m + 1, by omega, by simp; omega, ?_, ?_⟩
        · rw [h3]
          simp only [List.take_succ_cons, List.mem_cons]
          constructor
          · rintro ⟨h0, u, hu, hw⟩
            exact ⟨h0, u, Or.inr hu, hw⟩
          · rintro ⟨h0, u, hu, hw⟩
            rcases hu with hu | hu
            · subst hu
              exact absurd ⟨h0, hw⟩ he
            · exact ⟨h0, u, hu, hw⟩
        · rw [h4]
          simp
    · rw [if_neg hc] at h
      injection h with h
      subst h
      exact ⟨0, rfl, Nat.zero_le _, by simp, rfl⟩

/-- C19 (counterexample): `exec_time = 1`, deadline 5, both initial CPU
readings 0, one iteration returning 7 after which the CPU reading is 2 (the
budget is consumed). With the wall clock at 10 `loop_for` reports an emergency
exit, with the wall clock at 3 it does not, and it returns 7 both times, in
mc2spin and in mc2thrash2. -/
theorem loop_for_emergency_after_budget :
    mc2spin.loop_for 1 5 0 0 [⟨7, 2, 10⟩] = some ⟨7, 2, 1, true⟩ ∧
    mc2spin.loop_for 1 5 0 0 [⟨7, 2, 3⟩] = some ⟨7, 2, 1, false⟩ ∧
    mc2thrash2.loop_for 1 5 0 0 [⟨7, 2, 10⟩] = some ⟨7, 2, 1, true⟩ ∧
    mc2thrash2.loop_for 1 5 0 0 [⟨7, 2, 3⟩] = some ⟨7, 2, 1, false⟩ ∧
    ¬ ((2 : ℚ) - 0 < 1) := by
  norm_num [mc2spin.loop_for, mc2thrash2.loop_for, loop_for_loop, wrap32]

/-- The loop test before iteration 0 is the test on the initial values. -/
theorem budget_left_zero (exec_time start : ℚ) (ticks : List Tick) (now last_loop : ℚ) :
    budget_left exec_time start ticks now last_loop 0 ↔ now + last_loop < start + exec_time := by
  unfold budget_left
  cases ticks <;> simp [loop_for_clock]

/-- The loop test before iteration `i + 1` is the test before iteration `i` of
the loop continued after the first tick. -/
theorem budget_left_succ (exec_time start : ℚ) (t : Tick) (ticks : List Tick) (now last_loop : ℚ)
    (i : Nat) :
    budget_left exec_time start (t :: ticks) now last_loop (i + 1) ↔
      budget_left exec_time start ticks t.cpu (t.cpu - now) i := by
  unfold budget_left
  simp [loop_for_clock]

/-- The loop of `loop_for` leaves with the emergency exit at iteration `m`
when the wall-clock reading of that iteration is the first to exceed the
nonzero deadline and the loop test held before each iteration up to it. -/
theorem loop_for_loop_emergency (upd : Int → Int → Int) (exec_time emergency_exit start : ℚ)
    (he : emergency_exit ≠ 0) :
    ∀ (m : Nat) (ticks : List Tick) (now last_loop : ℚ) (tmp : Int) (k : Nat) (t : Tick),
      ticks[m]? = some t → t.wall > emergency_exit →
      (∀ i u, i < m → ticks[i]? = some u → u.wall ≤ emergency_exit) →
      (∀ i, i ≤ m → budget_left exec_time start ticks now last_loop i) →
      loop_for_loop upd exec_time emergency_exit start ticks now last_loop tmp k
        = some ⟨(ticks.take (m + 1)).foldl (fun a t => upd a t.once) tmp, t.cpu, k + (m + 1),
            true⟩ := by
  intro m
  induction m with
  | zero =>
    intro ticks now last_loop tmp k t ht hw _ hb
    cases ticks with
    | nil => simp at ht
    | cons u ts =>
      simp only [List.getElem?_cons_zero, Option.some.injEq] at ht
      subst ht
      have h0 := (budget_left_zero _ _ _ _ _).mp (hb 0 (le_refl _))
      simp only [loop_for_loop, if_pos h0, if_pos (And.intro he hw)]
      simp
  | succ m ih =>
    intro ticks now last_loop tmp k t ht hw hcalm hb
    cases ticks with
    | nil => simp at ht
    | cons u ts =>
      simp only [List.getElem?_cons_succ] at ht
      have h0 := (budget_left_zero _ _ _ _ _).mp (hb 0 (Nat.zero_le _))
      have hu : ¬ (emergency_exit ≠ 0 ∧ u.wall > emergency_exit) := by
        intro h
        exact absurd h.2 (not_lt.mpr (hcalm 0 u (Nat.succ_pos _) (by simp)))
      simp only [loop_for_loop, if_pos h0, if_neg hu]
      rw [ih ts u.cpu (u.cpu - now) (upd tmp u.once) (k + 1) t ht hw
        (fun i v hi hv => hcalm (i + 1) v (by omega) (by simpa using hv))
        (fun i hi => (budget_left_succ _ _ _ _ _ _ _).mp (hb (i + 1) (by omega)))]
      simp only [List.take_succ_cons, List.foldl_cons]
      congr 2
      omega

/-- The loop of `loop_for` completes normally after `m` iterations when the
loop test held before each of them and fails after them, and none of their
wall-clock readings exceeded the deadline. -/
theorem loop_for_loop_normal (upd : Int → Int → Int) (exec_time emergency_exit start : ℚ) :
    ∀ (m : Nat) (ticks : List Tick) (now last_loop : ℚ) (tmp : Int) (k : Nat),
      m ≤ ticks.length →
      (∀ i u, i < m → ticks[i]? = some u → ¬ (emergency_exit ≠ 0 ∧ u.wall > emergency_exit)) →
      (∀ i, i < m → budget_left exec_time start ticks now last_loop i) →
      ¬ budget_left exec_time start ticks now last_loop m →
      loop_for_loop upd exec_time emergency_exit start ticks now last_loop tmp k
        = some ⟨(ticks.take m).foldl (fun a t => upd a t.once) tmp,
            (loop_for_clock ticks now last_loop m).1, k + m, false⟩ := by
  intro m
  induction m with
  | zero =>
    intro ticks now last_loop tmp k _ _ _ hb
    have h0 : ¬ (now + last_loop < start + exec_time) :=
      fun h => hb ((budget_left_zero _ _ _ _ _).mpr h)
    cases ticks with
    | nil => simp [loop_for_loop, if_neg h0, loop_for_clock]
    | cons u ts => simp [loop_for_loop, if_neg h0, loop_for_clock]
  | succ m ih =>
    intro ticks now last_loop tmp k hlen hcalm hb hnb
    cases ticks with
    | nil => simp at hlen
    | cons u ts =>
      have h0 := (budget_left_zero _ _ _ _ _).mp (hb 0 (Nat.succ_pos _))
      have hu := hcalm 0 u (Nat.succ_pos _) (by simp)
      simp only [loop_for_loop, if_pos h0, if_neg hu]
      rw [ih ts u.cpu (u.cpu - now) (upd tmp u.once) (k + 1)
        (by simpa using hlen)
        (fun i v hi hv => hcalm (i + 1) v (by omega) (by simpa using hv))
        (fun i hi => (budget_left_succ _ _ _ _ _ _ _).mp (hb (i + 1) (by omega)))
        (fun h => hnb ((budget_left_succ _ _ _ _ _ _ _).mpr h))]
      simp only [List.take_succ_cons, List.foldl_cons, loop_for_clock]
      congr 2
      omega

/-- Every result of the loop of `loop_for` is one of the two exits: after `m`
iterations, each entered with the loop test true and none but the last with a
wall-clock reading over the deadline, it left either by the emergency exit
(the deadline is nonzero and the reading of iteration `m` exceeds it) or
because the loop test failed. -/
theorem loop_for_loop_exits (upd : Int → Int → Int) (exec_time emergency_exit start : ℚ) :
    ∀ (ticks : List Tick) (now last_loop : ℚ) (tmp : Int) (k : Nat) (r : LoopResult),
      loop_for_loop upd exec_time emergency_exit start ticks now last_loop tmp k = some r →
      ∃ m, r.iterations = k + m ∧ m ≤ ticks.length ∧
        (∀ i, i < m → budget_left exec_time start ticks now last_loop i) ∧
        (∀ i u, i + 1 < m → ticks[i]? = some u →
          ¬ (emergency_exit ≠ 0 ∧ u.wall > emergency_exit)) ∧
        (r.emergency = true → emergency_exit ≠ 0 ∧
          ∃ t, 0 < m ∧ ticks[m - 1]? = some t ∧ t.wall > emergency_exit ∧ r.now = t.cpu) ∧
        (r.emergency = false →
          ¬ budget_left exec_time start ticks now last_loop m ∧
          ∀ i u, i < m → ticks[i]? = some u →
            ¬ (emergency_exit ≠ 0 ∧ u.wall > emergency_exit)) ∧
        r.tmp = (ticks.take m).foldl (fun a t => upd a t.once) tmp := by
  intro ticks
  induction ticks with
  | nil =>
    intro now last_loop tmp k r h
    simp only [loop_for_loop] at h
    split at h
    · simp at h
    · rename_i hc
      injection h with h
      subst h
      refine ⟨0, rfl, le_refl _, fun i hi => absurd hi (Nat.not_lt_zero _),
        fun i u hi => absurd hi (Nat.not_lt_zero _), fun h => by simp at h, fun _ => ⟨?_, ?_⟩, rfl⟩
      · intro hb; exact hc ((budget_left_zero _ _ _ _ _).mp hb)
      · intro i u hi; exact absurd hi (Nat.not_lt_zero _)
  | cons t ticks ih =>
    intro now last_loop tmp k r h
    simp only [loop_for_loop] at h
    by_cases hc : now + last_loop < start + exec_time
    · rw [if_pos hc] at h
      have hb0 : budget_left exec_time start (t :: ticks) now last_loop 0 :=
        (budget_left_zero _ _ _ _ _).mpr hc
      by_cases hem : emergency_exit ≠ 0 ∧ t.wall > emergency_exit
      · rw [if_pos hem] at h
        injection h with h
        subst h
        refine ⟨1, rfl, by simp, ?_, ?_, ?_, fun h => by simp at h, by simp⟩
        · intro i hi
          have : i = 0 := by omega
          subst this
          exact hb0
        · intro i u hi; omega
        · intro _
          exact ⟨hem.1, t, Nat.one_pos, by simp, hem.2, rfl⟩
      · rw [if_neg hem] at h
        obtain ⟨m, h1, h2, h3, h4, h5, h6, h7⟩ := ih _ _ _ _ r h
        refine ⟨m + 1, by omega, by simp; omega, ?_, ?_, ?_, ?_, ?_⟩
        · intro i hi
          cases i with
          | zero => exact hb0
          | succ i => exact (budget_left_succ _ _ _ _ _ _ _).mpr (h3 i (by omega))
        · intro i u hi hu
          cases i with
          | zero =>
            simp only [List.getElem?_cons_zero, Option.some.injEq] at hu
            subst hu
            exact hem
          | succ i =>
            simp only [List.getElem?_cons_succ] at hu
            exact h4 i u (by omega) hu
        · intro hr
          obtain ⟨he, u, hm, hu, hw, hn⟩ := h5 hr
          refine ⟨he, u, Nat.succ_pos _, ?_, hw, hn⟩
          obtain ⟨j, rfl⟩ : ∃ j, m = j + 1 := ⟨m - 1, by omega⟩
          simpa using hu
        · intro hr
          obtain ⟨hnb, hcalm⟩ := h6 hr
          refine ⟨fun hb => hnb ((budget_left_succ _ _ _ _ _ _ _).mp hb), ?_⟩
          intro i u hi hu
          cases i with
          | zero =>
            simp only [List.getElem?_cons_zero, Option.some.injEq] at hu
            subst hu
            exact hem
          | succ i =>
            simp only [List.getElem?_cons_succ] at hu
            exact hcalm i u (by omega) hu
        · rw [h7]
          simp
    · rw [if_neg hc] at h
      injection h with h
      subst h
      refine ⟨0, rfl, Nat.zero_le _, fun i hi => absurd hi (Nat.not_lt_zero _),
        fun i u hi => absurd hi (Nat.not_lt_zero _), fun h => by simp at h, fun _ => ⟨?_, ?_⟩, rfl⟩
      · intro hb; exact hc ((budget_left_zero _ _ _ _ _).mp hb)
      · intro i u hi; exact absurd hi (Nat.not_lt_zero _)

/-- C19 (amended): with a nonzero deadline, `loop_for` (mc2spin, mc2thrash2)
prints the emergency-exit message and leaves the loop at the first iteration
whose wall-clock reading exceeds the deadline, when the loop test admitted the
iterations up to that one, whatever CPU reading that iteration recorded (also
one that consumes the budget); it completes normally when the loop test fails
before any reading exceeded the deadline; every result is one of these two,
the message being printed exactly when the reading taken after the last
iteration exceeds the deadline; and in both cases the value returned is the
one computed from the `loop_once` results. -/
theorem loop_for_emergency_iff (exec_time emergency_exit start now : ℚ) (ticks : List Tick)
    (he : emergency_exit ≠ 0) :
    (∀ m t, ticks[m]? = some t → t.wall > emergency_exit →
      (∀ i u, i < m → ticks[i]? = some u → u.wall ≤ emergency_exit) →
      (∀ i, i ≤ m → budget_left exec_time start ticks now 0 i) →
      mc2spin.loop_for exec_time emergency_exit start now ticks
        = some ⟨(ticks.take (m + 1)).foldl (fun a t => wrap32 (a + t.once)) 0, t.cpu, m + 1,
            true⟩ ∧
      mc2thrash2.loop_for exec_time emergency_exit start now ticks
        = some ⟨(ticks.take (m + 1)).foldl (fun _ t => t.once) 0, t.cpu, m + 1, true⟩) ∧
    (∀ m, m ≤ ticks.length →
      (∀ i u, i < m → ticks[i]? = some u → u.wall ≤ emergency_exit) →
      (∀ i, i < m → budget_left exec_time start ticks now 0 i) →
      ¬ budget_left exec_time start ticks now 0 m →
      mc2spin.loop_for exec_time emergency_exit start now ticks
        = some ⟨(ticks.take m).foldl (fun a t => wrap32 (a + t.once)) 0,
            (loop_for_clock ticks now 0 m).1, m, false⟩ ∧
      mc2thrash2.loop_for exec_time emergency_exit start now ticks
        = some ⟨(ticks.take m).foldl (fun _ t => t.once) 0,
            (loop_for_clock ticks now 0 m).1, m, false⟩) ∧
    (∀ r, mc2spin.loop_for exec_time emergency_exit start now ticks = some r →
      (r.emergency = true ↔
        ∃ t, 0 < r.iterations ∧ ticks[r.iterations - 1]? = some t ∧ t.wall > emergency_exit) ∧
      r.tmp = (ticks.take r.iterations).foldl (fun a t => wrap32 (a + t.once)) 0) ∧
    (∀ r, mc2thrash2.loop_for exec_time emergency_exit start now ticks = some r →
      (r.emergency = true ↔
        ∃ t, 0 < r.iterations ∧ ticks[r.iterations - 1]? = some t ∧ t.wall > emergency_exit) ∧
      r.tmp = (ticks.take r.iterations).foldl (fun _ t => t.once) 0) := by
  have key : ∀ (upd : Int → Int → Int) (r : LoopResult),
      loop_for_loop upd exec_time emergency_exit start ticks now 0 0 0 = some r →
      (r.emergency = true ↔
        ∃ t, 0 < r.iterations ∧ ticks[r.iterations - 1]? = some t ∧ t.wall > emergency_exit) ∧
      r.tmp = (ticks.take r.iterations).foldl (fun a t => upd a t.once) 0 := by
    intro upd r h
    obtain ⟨m, h1, _, _, _, h5, h6, h7⟩ := loop_for_loop_exits _ _ _ _ ticks now 0 0 0 r h
    have hm : r.iterations = m := by omega
    rw [hm]
    refine ⟨⟨?_, ?_⟩, h7⟩
    · intro hr
      obtain ⟨_, t, h0, ht, hw, _⟩ := h5 hr
      exact ⟨t, h0, ht, hw⟩
    · rintro ⟨t, h0, ht, hw⟩
      by_contra hr
      have hf : r.emergency = false := by
        cases hb : r.emergency
        · rfl
        · exact absurd hb hr
      exact (h6 hf).2 (m - 1) t (by omega) ht ⟨he, hw⟩
  refine ⟨?_, ?_, ?_, ?_⟩
  · intro m t ht hw hcalm hb
    have h := fun upd => loop_for_loop_emergency upd exec_time emergency_exit start he m ticks
      now 0 0 0 t ht hw hcalm hb
    simp only [Nat.zero_add] at h
    exact ⟨h _, h _⟩
  · intro m hlen hcalm hb hnb
    have h := fun upd => loop_for_loop_normal upd exec_time emergency_exit start m ticks
      now 0 0 0 hlen (fun i u hi hu hem => absurd hem.2 (not_lt.mpr (hcalm i u hi hu))) hb hnb
    simp only [Nat.zero_add] at h
    exact ⟨h _, h _⟩
  · intro r h
    exact key _ r h
  · intro r h
    exact key _ r h

/-- Witness for `loop_for_emergency_iff`: `exec_time = 1`, deadline 5, one
iteration after which the CPU reading is 2 (the budget is consumed) and the
wall clock reads 10: the loop leaves by the emergency exit after this
iteration. -/
theorem loop_for_emergency_iff_witness :
    mc2spin.loop_for 1 5 0 0 [⟨7, 2, 10⟩]
      = some ⟨(([⟨7, 2, 10⟩] : List Tick).take (0 + 1)).foldl (fun a t => wrap32 (a + t.once)) 0,
          (⟨7, 2, 10⟩ : Tick).cpu, 0 + 1, true⟩ ∧
    mc2thrash2.loop_for 1 5 0 0 [⟨7, 2, 10⟩]
      = some ⟨(([⟨7, 2, 10⟩] : List Tick).take (0 + 1)).foldl (fun _ t => t.once) 0,
          (⟨7, 2, 10⟩ : Tick).cpu, 0 + 1, true⟩ :=
  (loop_for_emergency_iff 1 5 0 0 [⟨7, 2, 10⟩] (by norm_num)).1 0 ⟨7, 2, 10⟩ rfl (by norm_num)
    (fun i u hi => absurd hi (Nat.not_lt_zero _))
    (fun i hi => by
      have : i = 0 := by omega
      subst this
      norm_num [budget_left, loop_for_clock])

theorem init_arena_one_line (RAND_MAX CACHELINE_SIZE : Nat) (arena : Arena) (size : Nat)
    (rs : List Nat) (hN : size / sizeof_cacheline_t CACHELINE_SIZE = 1) (hlen : 0 < arena.length) :
    init_arena RAND_MAX CACHELINE_SIZE arena size rs
      = .ok (arena.set 0 (List.replicate (INTS_IN_CACHELINE CACHELINE_SIZE) 0), rs) := by
  unfold init_arena
  simp only [hN]
  have h1 : ¬ INT_MAX < ((1 : Nat) : Int) := by decide
  rw [if_neg h1]
  simp only [init_lines, for_loop, shuffle]
  have := write_line_natCast arena 0 (List.replicate (INTS_IN_CACHELINE CACHELINE_SIZE) ((0 : Nat) : Int)) hlen
  rw [this]
  rfl

theorem init_arena_no_line (RAND_MAX CACHELINE_SIZE : Nat) (arena : Arena) (size : Nat)
    (rs : List Nat) (hN : size / sizeof_cacheline_t CACHELINE_SIZE = 0) :
    init_arena RAND_MAX CACHELINE_SIZE arena size rs = .ok (arena, rs) := by
  unfold init_arena
  simp only [hN]
  have h1 : ¬ INT_MAX < ((0 : Nat) : Int) := by decide
  rw [if_neg h1]
  rfl

theorem next_line_set_zero (arena : Arena) (ints : Nat) :
    next_line (arena.set 0 (List.replicate ints 0)) 0 = 0 := by
  unfold next_line
  cases arena with
  | nil => simp
  | cons l ls =>
    cases ints with
    | zero => simp
    | succ n => simp [List.replicate_succ]

/-- C22: on a one-line arena `init_arena` returns with no PRNG output
consumed and every slot of line 0 equal to 0, so that line 0 is its own
"next"; on a zero-line arena it returns the arena and the PRNG outputs
untouched. -/
theorem init_arena_degenerate (RAND_MAX CACHELINE_SIZE : Nat) (arena : Arena) (size : Nat)
    (rs : List Nat) :
    (size / sizeof_cacheline_t CACHELINE_SIZE = 1 → 0 < arena.length →
      init_arena RAND_MAX CACHELINE_SIZE arena size rs
          = .ok (arena.set 0 (List.replicate (INTS_IN_CACHELINE CACHELINE_SIZE) 0), rs) ∧
        (arena.set 0 (List.replicate (INTS_IN_CACHELINE CACHELINE_SIZE) 0))[0]?
          = some (List.replicate (INTS_IN_CACHELINE CACHELINE_SIZE) 0) ∧
        next_line (arena.set 0 (List.replicate (INTS_IN_CACHELINE CACHELINE_SIZE) 0)) 0 = 0) ∧
    (size / sizeof_cacheline_t CACHELINE_SIZE = 0 →
      init_arena RAND_MAX CACHELINE_SIZE arena size rs = .ok (arena, rs)) := by
  refine ⟨fun hN hlen => ⟨init_arena_one_line _ _ _ _ _ hN hlen, ?_, next_line_set_zero _ _⟩,
    fun hN => init_arena_no_line _ _ _ _ _ hN⟩
  cases arena with
  | nil => simp at hlen
  | cons l ls => simp

/-- Witness for `init_arena_degenerate`: one 32-byte line, then no line. -/
theorem init_arena_degenerate_witness :
    init_arena 2147483647 32 [[9, 9, 9, 9, 9, 9, 9, 9]] 32 [5, 6]
      = .ok ([[0, 0, 0, 0, 0, 0, 0, 0]], [5, 6]) ∧
    init_arena 2147483647 32 [[9, 9, 9, 9, 9, 9, 9, 9]] 0 [5, 6]
      = .ok ([[9, 9, 9, 9, 9, 9, 9, 9]], [5, 6]) :=
  ⟨((init_arena_degenerate 2147483647 32 [[9, 9, 9, 9, 9, 9, 9, 9]] 32 [5, 6]).1
      (by decide) (by decide)).1,
   (init_arena_degenerate 2147483647 32 [[9, 9, 9, 9, 9, 9, 9, 9]] 0 [5, 6]).2 (by decide)⟩

/-! ## The calls of `randrange` made by `init_arena` -/

theorem sattolo_calls_succ (n : Nat) (hn : 1 ≤ n) :
    sattolo_calls (n + 1) = (0, (n : Int)) :: sattolo_calls n := by
  unfold sattolo_calls
  obtain ⟨m, rfl⟩ : ∃ m, n = m + 1 := ⟨n - 1, by omega⟩
  simp only [Nat.add_sub_cancel]
  rw [List.range_succ_eq_map]
  simp only [List.map_cons, List.map_map, Nat.sub_zero]
  congr 1
  apply List.map_congr_left
  intro k _
  simp only [Function.comp]
  congr 2
  omega

theorem randrange_loop_no_div (devisor limit : Int) (hd : devisor ≠ 0) :
    ∀ rs : List Nat, randrange_loop devisor limit rs ≠ .error .div_by_zero := by
  intro rs
  induction rs with
  | nil => simp [randrange_loop]
  | cons x rs ih =>
    unfold randrange_loop
    simp only [hd, if_false]
    split
    · exact ih
    · simp

/-- A call `randrange(0, i)` with `1 ≤ i ≤ RAND_MAX` has `limit = i` and
`devisor ≥ 1`, and does not divide by zero. -/
theorem randrange_no_div (RAND_MAX i : Nat) (rs : List Nat) (hi : 1 ≤ i) (hiM : i ≤ RAND_MAX)
    (hRM : (RAND_MAX : Int) ≤ INT_MAX) :
    wrap32 ((i : Int) - 0) = (i : Int) ∧ 1 ≤ Int.tdiv (RAND_MAX : Int) (wrap32 ((i : Int) - 0)) ∧
    randrange RAND_MAX 0 (i : Int) rs ≠ .error .div_by_zero := by
  have hw : wrap32 ((i : Int) - 0) = (i : Int) := by
    unfold INT_MAX at hRM
    unfold wrap32; omega
  have hq : 1 ≤ RAND_MAX / i := (Nat.one_le_div_iff (by omega)).mpr hiM
  have hd : 1 ≤ Int.tdiv (RAND_MAX : Int) (i : Int) := by
    rw [tdiv_natCast]; exact_mod_cast hq
  refine ⟨hw, by rw [hw]; exact hd, ?_⟩
  unfold randrange
  simp only [hw]
  have hi0 : ¬ ((i : Int) = 0) := by omega
  rw [if_neg hi0]
  have := randrange_loop_no_div (Int.tdiv (RAND_MAX : Int) (i : Int)) (i : Int) (by omega) rs
  split
  · simp
  · rename_i e he
    intro hc
    injection hc with hc
    subst hc
    exact this he

/-- The shuffle loop is the iteration of `shuffle_step`. -/
theorem shuffle_succ (RAND_MAX n : Nat) (a : Arena) (rs : List Nat) (hn : 1 < n + 1) :
    shuffle RAND_MAX (n + 1) a rs
      = shuffle_step RAND_MAX n a rs >>= fun p => shuffle RAND_MAX n p.1 p.2 := by
  simp only [shuffle, hn, if_true, shuffle_step]
  cases randrange RAND_MAX 0 (n : Int) rs with
  | error e => rfl
  | ok p =>
    obtain ⟨j, rs1⟩ := p
    simp only [bind, Except.bind]
    cases swap_lines a j (n : Int) with
    | error e => rfl
    | ok a1 => rfl

/-- A logged run that returned is continued. -/
theorem logged_bind_ok {α β : Type} (l : List (Int × Int)) (a : α)
    (f : α → List (Int × Int) → List (Int × Int) × Run β) :
    logged_bind (l, .ok a) f = f a l := rfl

/-- A logged run that stopped keeps its log and its reason. -/
theorem logged_bind_error {α β : Type} (l : List (Int × Int)) (e : Stop)
    (f : α → List (Int × Int) → List (Int × Int) × Run β) :
    logged_bind (l, (.error e : Run α)) f = (l, .error e) := rfl

/-- The logged body of the shuffle loop: its log is the old log and the call
`randrange(0, i)`, its outcome that of the body. -/
theorem shuffle_step_logged_spec (RAND_MAX i : Nat) (arena : Arena) (rs : List Nat)
    (log : List (Int × Int)) :
    shuffle_step_logged RAND_MAX i arena rs log
      = (log ++ [(0, (i : Int))], shuffle_step RAND_MAX i arena rs) := by
  unfold shuffle_step_logged randrange_logged shuffle_step
  generalize randrange RAND_MAX 0 (i : Int) rs = r
  cases r with
  | error e => rw [logged_bind_error]; rfl
  | ok p =>
    obtain ⟨j, rs1⟩ := p
    rw [logged_bind_ok]
    simp only [bind, Except.bind]
    generalize swap_lines arena j (i : Int) = w
    cases w with
    | error e => rfl
    | ok a1 => rfl

/-- One more iteration of the logged shuffle loop. -/
theorem shuffle_logged_succ (RAND_MAX n : Nat) (a : Arena) (rs : List Nat)
    (log : List (Int × Int)) (hn : 1 < n + 1) :
    shuffle_logged RAND_MAX (n + 1) a rs log
      = logged_bind (log ++ [(0, (n : Int))], shuffle_step RAND_MAX n a rs)
          (fun p log' => shuffle_logged RAND_MAX n p.1 p.2 log') := by
  rw [shuffle_logged, if_pos hn, shuffle_step_logged_spec]

/-- The outcome of the logged shuffle loop is the outcome of the loop. -/
theorem shuffle_logged_run (RAND_MAX : Nat) :
    ∀ (n : Nat) (a : Arena) (rs : List Nat) (log : List (Int × Int)),
      (shuffle_logged RAND_MAX n a rs log).2 = shuffle RAND_MAX n a rs := by
  intro n
  induction n with
  | zero => intro a rs log; rw [shuffle_logged, shuffle]
  | succ n ih =>
    intro a rs log
    by_cases hn : 1 < n + 1
    · rw [shuffle_logged_succ RAND_MAX n a rs log hn, shuffle_succ RAND_MAX n a rs hn]
      generalize shuffle_step RAND_MAX n a rs = s
      cases s with
      | error e => rfl
      | ok p =>
        rw [logged_bind_ok]
        simp only [bind, Except.bind]
        exact ih _ _ _
    · rw [shuffle_logged, if_neg hn, shuffle, if_neg hn]

/-- The calls recorded by the shuffle loop are the first of
`randrange(0, n - 1)`, ..., `randrange(0, 1)`. -/
theorem shuffle_logged_prefix (RAND_MAX : Nat) :
    ∀ (n : Nat) (a : Arena) (rs : List Nat) (log : List (Int × Int)),
      ∃ l, (shuffle_logged RAND_MAX n a rs log).1 = log ++ l ∧ l <+: sattolo_calls n := by
  intro n
  induction n with
  | zero =>
    intro a rs log
    refine ⟨[], ?_, List.nil_prefix⟩
    rw [shuffle_logged, List.append_nil]
  | succ n ih =>
    intro a rs log
    by_cases hn : 1 < n + 1
    · rw [shuffle_logged_succ RAND_MAX n a rs log hn, sattolo_calls_succ n (by omega)]
      generalize shuffle_step RAND_MAX n a rs = s
      cases s with
      | error e =>
        refine ⟨[(0, (n : Int))], rfl, ?_⟩
        rw [List.cons_prefix_cons]
        exact ⟨rfl, List.nil_prefix⟩
      | ok p =>
        rw [logged_bind_ok]
        obtain ⟨l, h1, h2⟩ := ih p.1 p.2 (log ++ [(0, (n : Int))])
        refine ⟨(0, (n : Int)) :: l, ?_, ?_⟩
        · rw [h1, List.append_assoc]
          rfl
        · rw [List.cons_prefix_cons]
          exact ⟨rfl, h2⟩
    · rw [shuffle_logged, if_neg hn]
      exact ⟨[], (List.append_nil _).symm, List.nil_prefix⟩

/-- A shuffle loop that returns has recorded all the calls
`randrange(0, n - 1)`, ..., `randrange(0, 1)`. -/
theorem shuffle_logged_of_ok (RAND_MAX : Nat) :
    ∀ (n : Nat) (a a' : Arena) (rs rs' : List Nat) (log : List (Int × Int)),
      shuffle RAND_MAX n a rs = .ok (a', rs') →
      (shuffle_logged RAND_MAX n a rs log).1 = log ++ sattolo_calls n := by
  intro n
  induction n with
  | zero =>
    intro a a' rs rs' log _
    rw [shuffle_logged]
    simp [sattolo_calls]
  | succ n ih =>
    intro a a' rs rs' log h
    by_cases hn : 1 < n + 1
    · rw [shuffle_succ RAND_MAX n a rs hn] at h
      obtain ⟨p, h1, h3⟩ := (bind_ok _ _ _).mp h
      rw [shuffle_logged_succ RAND_MAX n a rs log hn, sattolo_calls_succ n (by omega), h1,
        logged_bind_ok, ih p.1 a' p.2 rs' _ h3, List.append_assoc]
      rfl
    · rw [shuffle_logged, if_neg hn]
      have : n = 0 := by omega
      subst this
      simp [sattolo_calls]

/-- The outcome of the logged `init_arena` is the outcome of `init_arena`. -/
theorem init_arena_logged_run (RAND_MAX CACHELINE_SIZE : Nat) (arena : Arena) (size : Nat)
    (rs : List Nat) :
    (init_arena_logged RAND_MAX CACHELINE_SIZE arena size rs).2
      = init_arena RAND_MAX CACHELINE_SIZE arena size rs := by
  unfold init_arena_logged init_arena
  simp only []
  by_cases hlt : INT_MAX < ((size / sizeof_cacheline_t CACHELINE_SIZE : Nat) : Int)
  · rw [if_pos hlt, if_pos hlt]
  · rw [if_neg hlt, if_neg hlt]
    generalize init_lines CACHELINE_SIZE (size / sizeof_cacheline_t CACHELINE_SIZE) arena = r
    cases r with
    | error e => rfl
    | ok a1 =>
      rw [logged_bind_ok]
      simp only [bind, Except.bind]
      exact shuffle_logged_run _ _ _ _ _

/-- The calls recorded by `init_arena` are the first of
`randrange(0, N - 1)`, ..., `randrange(0, 1)`. -/
theorem init_arena_calls_prefix (RAND_MAX CACHELINE_SIZE : Nat) (arena : Arena) (size : Nat)
    (rs : List Nat) :
    init_arena_calls RAND_MAX CACHELINE_SIZE arena size rs
      <+: sattolo_calls (size / sizeof_cacheline_t CACHELINE_SIZE) := by
  unfold init_arena_calls init_arena_logged
  simp only []
  by_cases hlt : INT_MAX < ((size / sizeof_cacheline_t CACHELINE_SIZE : Nat) : Int)
  · rw [if_pos hlt]
    exact List.nil_prefix
  · rw [if_neg hlt]
    generalize init_lines CACHELINE_SIZE (size / sizeof_cacheline_t CACHELINE_SIZE) arena = r
    cases r with
    | error e => exact List.nil_prefix
    | ok a1 =>
      rw [logged_bind_ok]
      obtain ⟨l, h1, h2⟩ := shuffle_logged_prefix RAND_MAX
        (size / sizeof_cacheline_t CACHELINE_SIZE) a1 rs []
      rw [h1]
      exact h2

/-- An `init_arena` that returns has recorded all the calls
`randrange(0, N - 1)`, ..., `randrange(0, 1)`. -/
theorem init_arena_calls_of_ok (RAND_MAX CACHELINE_SIZE : Nat) (arena arena' : Arena)
    (size : Nat) (rs rs' : List Nat)
    (h : init_arena RAND_MAX CACHELINE_SIZE arena size rs = .ok (arena', rs')) :
    init_arena_calls RAND_MAX CACHELINE_SIZE arena size rs
      = sattolo_calls (size / sizeof_cacheline_t CACHELINE_SIZE) := by
  unfold init_arena at h
  unfold init_arena_calls init_arena_logged
  simp only [] at h ⊢
  by_cases hlt : INT_MAX < ((size / sizeof_cacheline_t CACHELINE_SIZE : Nat) : Int)
  · rw [if_pos hlt] at h
    simp at h
  · rw [if_neg hlt] at h
    rw [if_neg hlt]
    obtain ⟨a1, h1, h2⟩ := (bind_ok _ _ _).mp h
    rw [h1, logged_bind_ok, shuffle_logged_of_ok RAND_MAX _ a1 arena' rs rs' [] h2]
    rfl

theorem read_line_error (a : Arena) (i : Int) (e : Stop) (h : read_line a i = .error e) :
    e = .out_of_bounds := by
  unfold read_line at h
  split at h
  · injection h with h; exact h.symm
  · split at h
    · simp at h
    · injection h with h; exact h.symm

theorem write_line_error (a : Arena) (i : Int) (l : Line) (e : Stop)
    (h : write_line a i l = .error e) : e = .out_of_bounds := by
  unfold write_line at h
  split at h
  · injection h with h; exact h.symm
  · split at h
    · simp at h
    · injection h with h; exact h.symm

theorem swap_lines_error (a : Arena) (j i : Int) (e : Stop) (h : swap_lines a j i = .error e) :
    e = .out_of_bounds := by
  unfold swap_lines at h
  cases h1 : read_line a j with
  | error e1 =>
    rw [h1] at h
    simp only [bind, Except.bind] at h
    injection h with h
    subst h
    exact read_line_error a j _ h1
  | ok temp =>
    rw [h1] at h
    simp only [bind, Except.bind] at h
    cases h2 : read_line a i with
    | error e2 =>
      rw [h2] at h
      simp only [] at h
      injection h with h
      subst h
      exact read_line_error a i _ h2
    | ok li =>
      rw [h2] at h
      simp only [] at h
      cases h3 : write_line a j li with
      | error e3 =>
        rw [h3] at h
        simp only [] at h
        injection h with h
        subst h
        exact write_line_error a j li _ h3
      | ok a1 =>
        rw [h3] at h
        simp only [] at h
        exact write_line_error a1 i temp _ h

theorem shuffle_no_div (RAND_MAX : Nat) (hRM : (RAND_MAX : Int) ≤ INT_MAX) :
    ∀ (n : Nat) (a : Arena) (rs : List Nat), n ≤ RAND_MAX + 1 →
      shuffle RAND_MAX n a rs ≠ .error .div_by_zero := by
  intro n
  induction n with
  | zero => intro a rs _; simp [shuffle]
  | succ n ih =>
    intro a rs hn
    simp only [shuffle]
    by_cases h1 : 1 < n + 1
    · simp only [h1, if_true]
      have hr := (randrange_no_div RAND_MAX n rs (by omega) (by omega) hRM).2.2
      cases hrr : randrange RAND_MAX 0 (n : Int) rs with
      | error e =>
        simp only [bind, Except.bind]
        intro hc
        injection hc with hc
        subst hc
        exact hr hrr
      | ok p =>
        obtain ⟨j, rs1⟩ := p
        simp only [bind, Except.bind]
        cases hs : swap_lines a j (n : Int) with
        | error e =>
          simp only []
          have := swap_lines_error a j n e hs
          subst this
          simp
        | ok a1 =>
          simp only []
          exact ih a1 rs1 (by omega)
    · simp [h1]

/-- A `for_loop` stops only for a reason for which its body stops. -/
theorem for_loop_error {σ : Type} (P : Stop → Prop) (body : Nat → σ → Run σ)
    (hbody : ∀ i s e, body i s = .error e → P e) :
    ∀ (count i0 : Nat) (s : σ) (e : Stop), for_loop body count i0 s = .error e → P e := by
  intro count
  induction count with
  | zero => intro i0 s e h; simp [for_loop] at h
  | succ n ih =>
    intro i0 s e h
    simp only [for_loop] at h
    cases hb : body i0 s with
    | error e1 =>
      rw [hb] at h
      simp only [bind, Except.bind] at h
      injection h with h
      subst h
      exact hbody i0 s _ hb
    | ok s1 =>
      rw [hb] at h
      simp only [bind, Except.bind] at h
      exact ih (i0 + 1) s1 e h

theorem sattolo_calls_mem (N : Nat) (c : Int × Int) (hc : c ∈ sattolo_calls N) :
    c.1 = 0 ∧ 1 ≤ c.2 ∧ c.2 ≤ ((N - 1 : Nat) : Int) := by
  unfold sattolo_calls at hc
  rw [List.mem_map] at hc
  obtain ⟨k, hk, rfl⟩ := hc
  rw [List.mem_range] at hk
  refine ⟨rfl, ?_, ?_⟩ <;> simp only [] <;> omega

/-- C30: `init_arena` on `N` lines with `N - 1 ≤ RAND_MAX` calls `randrange`
only as `randrange(0, i)` with `1 ≤ i ≤ N - 1`, for which `limit = i` and
`devisor = RAND_MAX / i ≥ 1`, and never stops on a division by zero; the calls
it makes are the first of `randrange(0, N - 1)`, ..., `randrange(0, 1)`, a run
that returns makes exactly these `N - 1` calls, and for `N ≤ 1` none is made.
The calls are those recorded by the run itself, each by the call of
`randrange` in the body of the shuffle loop, and the run that records them
has the outcome of `init_arena`. -/
theorem init_arena_never_divides_by_zero (RAND_MAX CACHELINE_SIZE : Nat) (arena : Arena)
    (size : Nat) (rs : List Nat) (hRM : (RAND_MAX : Int) ≤ INT_MAX)
    (hN : size / sizeof_cacheline_t CACHELINE_SIZE - 1 ≤ RAND_MAX) :
    (∀ c ∈ init_arena_calls RAND_MAX CACHELINE_SIZE arena size rs,
      c.1 = 0 ∧ 1 ≤ c.2 ∧ c.2 ≤ ((size / sizeof_cacheline_t CACHELINE_SIZE - 1 : Nat) : Int) ∧
      wrap32 (c.2 - c.1) = c.2 ∧ 1 ≤ Int.tdiv (RAND_MAX : Int) (wrap32 (c.2 - c.1))) ∧
    init_arena RAND_MAX CACHELINE_SIZE arena size rs ≠ .error .div_by_zero ∧
    init_arena_calls RAND_MAX CACHELINE_SIZE arena size rs
      <+: sattolo_calls (size / sizeof_cacheline_t CACHELINE_SIZE) ∧
    (∀ arena' rs', init_arena RAND_MAX CACHELINE_SIZE arena size rs = .ok (arena', rs') →
      init_arena_calls RAND_MAX CACHELINE_SIZE arena size rs
        = sattolo_calls (size / sizeof_cacheline_t CACHELINE_SIZE) ∧
      (init_arena_calls RAND_MAX CACHELINE_SIZE arena size rs).length
        = size / sizeof_cacheline_t CACHELINE_SIZE - 1) ∧
    (size / sizeof_cacheline_t CACHELINE_SIZE ≤ 1 →
      init_arena_calls RAND_MAX CACHELINE_SIZE arena size rs = []) ∧
    init_arena_logged RAND_MAX CACHELINE_SIZE arena size rs
      = (init_arena_calls RAND_MAX CACHELINE_SIZE arena size rs,
         init_arena RAND_MAX CACHELINE_SIZE arena size rs) := by
  have hpre := init_arena_calls_prefix RAND_MAX CACHELINE_SIZE arena size rs
  refine ⟨?_, ?_, hpre, ?_, ?_, ?_⟩
  · intro c hc
    obtain ⟨h1, h2, h3⟩ := sattolo_calls_mem _ c (hpre.subset hc)
    obtain ⟨i, hi⟩ : ∃ i : Nat, c.2 = (i : Int) := ⟨c.2.toNat, by omega⟩
    have hr := randrange_no_div RAND_MAX i [] (by omega) (by omega) hRM
    rw [h1, hi]
    rw [hi] at h2 h3
    exact ⟨rfl, h2, h3, hr.1, hr.2.1⟩
  · unfold init_arena
    simp only []
    split
    · simp
    · cases hl : init_lines CACHELINE_SIZE (size / sizeof_cacheline_t CACHELINE_SIZE) arena with
      | error e =>
        simp only [bind, Except.bind]
        have : e = .out_of_bounds :=
          for_loop_error (fun e => e = .out_of_bounds) _
            (fun i s e h => write_line_error s _ _ e h) _ _ _ _ hl
        subst this
        simp
      | ok a1 =>
        simp only [bind, Except.bind]
        exact shuffle_no_div RAND_MAX hRM _ a1 rs (by omega)
  · intro arena' rs' h
    have := init_arena_calls_of_ok RAND_MAX CACHELINE_SIZE arena arena' size rs rs' h
    refine ⟨this, ?_⟩
    rw [this]
    simp [sattolo_calls]
  · intro h1
    have : sattolo_calls (size / sizeof_cacheline_t CACHELINE_SIZE) = [] := by
      unfold sattolo_calls
      have : size / sizeof_cacheline_t CACHELINE_SIZE - 1 = 0 := by omega
      rw [this]; rfl
    rw [this] at hpre
    exact List.prefix_nil.mp hpre
  · exact Prod.ext rfl (init_arena_logged_run RAND_MAX CACHELINE_SIZE arena size rs)

/-- Witness for `init_arena_never_divides_by_zero`: the 8-line arena of 4-int
lines makes the seven calls `randrange(0, 7)`, ..., `randrange(0, 1)`. -/
theorem init_arena_never_divides_by_zero_witness :
    init_arena_calls 32767 16 (List.replicate 8 (List.replicate 4 0)) 128
        [100, 20000, 30000, 32767, 5, 6000, 7, 8]
      = [(0, 7), (0, 6), (0, 5), (0, 4), (0, 3), (0, 2), (0, 1)] ∧
    init_arena 32767 16 (List.replicate 8 (List.replicate 4 0)) 128
        [100, 20000, 30000, 32767, 5, 6000, 7, 8] ≠ .error .div_by_zero :=
  ⟨((init_arena_never_divides_by_zero 32767 16 (List.replicate 8 (List.replicate 4 0)) 128
      [100, 20000, 30000, 32767, 5, 6000, 7, 8] (by decide) (by decide)).2.2.2.1
      [[1, 1, 1, 1], [2, 2, 2, 2], [6, 6, 6, 6], [5, 5, 5, 5], [7, 7, 7, 7], [4, 4, 4, 4],
        [3, 3, 3, 3], [0, 0, 0, 0]] [] (by decide)).1,
   (init_arena_never_divides_by_zero 32767 16 (List.replicate 8 (List.replicate 4 0)) 128
      [100, 20000, 30000, 32767, 5, 6000, 7, 8] (by decide) (by decide)).2.1⟩

/-! ## The cursor of `sequential_start` along a history of calls -/

/-- Policy-respecting calls from a cursor inside the arena are not fatal. -/
theorem cursor_after_total (SIZE_BITS CACHELINE_SIZE : Nat) (hb : 32 ≤ SIZE_BITS) :
    ∀ (hist : List Int) (pos0 : Int),
      0 ≤ pos0 → pos0 ≤ (mc2thrash2.NUM_ARENA_ELEM CACHELINE_SIZE : Int) →
      (∀ w ∈ hist, 0 ≤ mc2thrash2.num_cachelines CACHELINE_SIZE w ∧
        2 * mc2thrash2.num_cachelines CACHELINE_SIZE w
          ≤ (mc2thrash2.NUM_ARENA_ELEM CACHELINE_SIZE : Int)) →
      ∃ pos, cursor_after SIZE_BITS CACHELINE_SIZE pos0 hist = some pos := by
  intro hist
  induction hist with
  | nil => intro pos0 _ _ _; exact ⟨pos0, rfl⟩
  | cons w rest ih =>
    intro pos0 h1 h2 hpol
    obtain ⟨hw0, hw⟩ := hpol w (List.mem_cons_self _ _)
    have hrest : ∀ v ∈ rest, 0 ≤ mc2thrash2.num_cachelines CACHELINE_SIZE v ∧
        2 * mc2thrash2.num_cachelines CACHELINE_SIZE v
          ≤ (mc2thrash2.NUM_ARENA_ELEM CACHELINE_SIZE : Int) :=
      fun v hv => hpol v (List.mem_cons_of_mem _ hv)
    simp only [cursor_after]
    rw [mc2thrash2.sequential_start_policy SIZE_BITS CACHELINE_SIZE pos0 w hb h1 h2 hw0 hw]
    by_cases hwrap : pos0 + mc2thrash2.num_cachelines CACHELINE_SIZE w
        > (mc2thrash2.NUM_ARENA_ELEM CACHELINE_SIZE : Int)
    · rw [if_pos hwrap]
      exact ih _ hw0 (by omega) hrest
    · rw [if_neg hwrap]
      exact ih _ (by omega) (by omega) hrest

/-- C28: in mc2thrash2, from the initial cursor 0 and along any history of
calls of `sequential_start` whose request sizes `n` satisfy `0 ≤ n` and
`2 * n ≤ NUM_ARENA_ELEM`, no call is fatal, the cursor stays in
`[0, NUM_ARENA_ELEM]`, and the region `[off, off + n)` returned by the next
such call lies inside the arena `[0, NUM_ARENA_ELEM)`. -/
theorem sequential_start_cursor_invariant (SIZE_BITS CACHELINE_SIZE : Nat) (hist : List Int)
    (wss : Int) (hb : 32 ≤ SIZE_BITS)
    (hpol : ∀ w ∈ hist, 0 ≤ mc2thrash2.num_cachelines CACHELINE_SIZE w ∧
      2 * mc2thrash2.num_cachelines CACHELINE_SIZE w
        ≤ (mc2thrash2.NUM_ARENA_ELEM CACHELINE_SIZE : Int))
    (hn0 : 0 ≤ mc2thrash2.num_cachelines CACHELINE_SIZE wss)
    (hn : 2 * mc2thrash2.num_cachelines CACHELINE_SIZE wss
      ≤ (mc2thrash2.NUM_ARENA_ELEM CACHELINE_SIZE : Int)) :
    ∃ pos, cursor_after SIZE_BITS CACHELINE_SIZE 0 hist = some pos ∧
      0 ≤ pos ∧ pos ≤ (mc2thrash2.NUM_ARENA_ELEM CACHELINE_SIZE : Int) ∧
      ∃ off pos', mc2thrash2.sequential_start SIZE_BITS CACHELINE_SIZE pos wss = (.ok off, pos') ∧
        0 ≤ off ∧
        off + mc2thrash2.num_cachelines CACHELINE_SIZE wss
          ≤ (mc2thrash2.NUM_ARENA_ELEM CACHELINE_SIZE : Int) ∧
        0 ≤ pos' ∧ pos' ≤ (mc2thrash2.NUM_ARENA_ELEM CACHELINE_SIZE : Int) := by
  obtain ⟨pos, hpos⟩ := cursor_after_total SIZE_BITS CACHELINE_SIZE hb hist 0 (le_refl _)
    (by omega) hpol
  obtain ⟨hp1, hp2⟩ := cursor_after_bounds SIZE_BITS CACHELINE_SIZE hb hist 0 pos (le_refl _)
    (by omega) hpol hpos
  refine ⟨pos, hpos, hp1, hp2, ?_⟩
  rw [mc2thrash2.sequential_start_policy SIZE_BITS CACHELINE_SIZE pos wss hb hp1 hp2 hn0 hn]
  by_cases hwrap : pos + mc2thrash2.num_cachelines CACHELINE_SIZE wss
      > (mc2thrash2.NUM_ARENA_ELEM CACHELINE_SIZE : Int)
  · rw [if_pos hwrap]
    exact ⟨0, _, rfl, le_refl _, by omega, hn0, by omega⟩
  · rw [if_neg hwrap]
    exact ⟨pos, _, rfl, hp1, by omega, by omega, by omega⟩

/-- Witness for `sequential_start_cursor_invariant`: 32-byte lines (32768
lines), after the calls with `wss` 312, 512 and 512 a call with `wss = 100`. -/
theorem sequential_start_cursor_invariant_witness :
    ∃ pos, cursor_after 32 32 0 [312, 512, 512] = some pos ∧ 0 ≤ pos ∧
      pos ≤ (mc2thrash2.NUM_ARENA_ELEM 32 : Int) ∧
      ∃ off pos', mc2thrash2.sequential_start 32 32 pos 100 = (.ok off, pos') ∧ 0 ≤ off ∧
        off + mc2thrash2.num_cachelines 32 100 ≤ (mc2thrash2.NUM_ARENA_ELEM 32 : Int) ∧
        0 ≤ pos' ∧ pos' ≤ (mc2thrash2.NUM_ARENA_ELEM 32 : Int) :=
  sequential_start_cursor_invariant 32 32 [312, 512, 512] 100 (by decide) (by decide)
    (by decide) (by decide)

/-- With one request size `n`, the cursor after any number of calls from a
multiple of `n` is again a multiple of `n`, positive after the first call. -/
theorem cursor_after_fixed_size (SIZE_BITS CACHELINE_SIZE : Nat) (wss : Int) (hb : 32 ≤ SIZE_BITS)
    (hn0 : 0 < mc2thrash2.num_cachelines CACHELINE_SIZE wss)
    (hn : 2 * mc2thrash2.num_cachelines CACHELINE_SIZE wss
      ≤ (mc2thrash2.NUM_ARENA_ELEM CACHELINE_SIZE : Int)) :
    ∀ (k m0 : Nat),
      (m0 : Int) * mc2thrash2.num_cachelines CACHELINE_SIZE wss
        ≤ (mc2thrash2.NUM_ARENA_ELEM CACHELINE_SIZE : Int) →
      ∃ m : Nat, cursor_after SIZE_BITS CACHELINE_SIZE
          ((m0 : Int) * mc2thrash2.num_cachelines CACHELINE_SIZE wss) (List.replicate k wss)
            = some ((m : Int) * mc2thrash2.num_cachelines CACHELINE_SIZE wss) ∧
        (m : Int) * mc2thrash2.num_cachelines CACHELINE_SIZE wss
          ≤ (mc2thrash2.NUM_ARENA_ELEM CACHELINE_SIZE : Int) ∧
        (0 < m0 ∨ 0 < k → 0 < m) := by
  intro k
  induction k with
  | zero =>
    intro m0 h0
    exact ⟨m0, rfl, h0, fun h => by omega⟩
  | succ k ih =>
    intro m0 h0
    have hp0 : (0 : Int) ≤ (m0 : Int) * mc2thrash2.num_cachelines CACHELINE_SIZE wss :=
      Int.mul_nonneg (by omega) (by omega)
    simp only [List.replicate_succ, cursor_after]
    rw [mc2thrash2.sequential_start_policy SIZE_BITS CACHELINE_SIZE _ wss hb hp0 h0 (by omega) hn]
    by_cases hwrap : (m0 : Int) * mc2thrash2.num_cachelines CACHELINE_SIZE wss
        + mc2thrash2.num_cachelines CACHELINE_SIZE wss
          > (mc2thrash2.NUM_ARENA_ELEM CACHELINE_SIZE : Int)
    · rw [if_pos hwrap]
      simp only []
      obtain ⟨m, h1, h2, h3⟩ := ih 1 (by simp only [Nat.cast_one, one_mul]; omega)
      simp only [Nat.cast_one, one_mul] at h1
      exact ⟨m, h1, h2, fun _ => h3 (Or.inl (by omega))⟩
    · rw [if_neg hwrap]
      simp only []
      have e : (m0 : Int) * mc2thrash2.num_cachelines CACHELINE_SIZE wss
          + mc2thrash2.num_cachelines CACHELINE_SIZE wss
            = ((m0 + 1 : Nat) : Int) * mc2thrash2.num_cachelines CACHELINE_SIZE wss := by
        push_cast; ring
      rw [e]
      obtain ⟨m, h1, h2, h3⟩ := ih (m0 + 1) (by rw [← e]; omega)
      exact ⟨m, h1, h2, fun _ => h3 (Or.inl (by omega))⟩

/-- C29: in mc2thrash2, with one request size `n`, `0 < 2 * n ≤
NUM_ARENA_ELEM`, used for every call from the initial cursor 0: no call is
fatal, the cursor after each call is a positive multiple of `n`, any two
consecutive calls return disjoint line ranges, and the second of them wraps
to offset 0 only if the first range starts at an offset `≥ n`. -/
theorem sequential_start_fixed_size (SIZE_BITS CACHELINE_SIZE : Nat) (wss : Int) (k : Nat)
    (hb : 32 ≤ SIZE_BITS)
    (hn0 : 0 < mc2thrash2.num_cachelines CACHELINE_SIZE wss)
    (hn : 2 * mc2thrash2.num_cachelines CACHELINE_SIZE wss
      ≤ (mc2thrash2.NUM_ARENA_ELEM CACHELINE_SIZE : Int)) :
    ∃ pos off1 pos1 off2 pos2,
      cursor_after SIZE_BITS CACHELINE_SIZE 0 (List.replicate k wss) = some pos ∧
      mc2thrash2.sequential_start SIZE_BITS CACHELINE_SIZE pos wss = (.ok off1, pos1) ∧
      mc2thrash2.sequential_start SIZE_BITS CACHELINE_SIZE pos1 wss = (.ok off2, pos2) ∧
      (∃ m : Nat, 0 < m ∧ pos1 = (m : Int) * mc2thrash2.num_cachelines CACHELINE_SIZE wss) ∧
      (∃ m : Nat, 0 < m ∧ pos2 = (m : Int) * mc2thrash2.num_cachelines CACHELINE_SIZE wss) ∧
      ranges_disjoint off1 (mc2thrash2.num_cachelines CACHELINE_SIZE wss)
        off2 (mc2thrash2.num_cachelines CACHELINE_SIZE wss) ∧
      (pos1 + mc2thrash2.num_cachelines CACHELINE_SIZE wss
          > (mc2thrash2.NUM_ARENA_ELEM CACHELINE_SIZE : Int) →
        off2 = 0 ∧ mc2thrash2.num_cachelines CACHELINE_SIZE wss ≤ off1) := by
  have hz : ((0 : Nat) : Int) * mc2thrash2.num_cachelines CACHELINE_SIZE wss = 0 := by simp
  obtain ⟨m, h1, h2, -⟩ := cursor_after_fixed_size SIZE_BITS CACHELINE_SIZE wss hb hn0 hn k 0
    (by rw [hz]; omega)
  rw [hz] at h1
  obtain ⟨m1, h3, h4, h5⟩ := cursor_after_fixed_size SIZE_BITS CACHELINE_SIZE wss hb hn0 hn 1 m h2
  obtain ⟨m2, h6, h7, h8⟩ := cursor_after_fixed_size SIZE_BITS CACHELINE_SIZE wss hb hn0 hn 1 m1 h4
  have hm1 : 0 < m1 := h5 (Or.inr (by omega))
  have hm2 : 0 < m2 := h8 (Or.inr (by omega))
  have hp : (0 : Int) ≤ (m : Int) * mc2thrash2.num_cachelines CACHELINE_SIZE wss :=
    Int.mul_nonneg (by omega) (by omega)
  have hp1 : (0 : Int) ≤ (m1 : Int) * mc2thrash2.num_cachelines CACHELINE_SIZE wss :=
    Int.mul_nonneg (by omega) (by omega)
  simp only [List.replicate_succ, List.replicate_zero, cursor_after] at h3 h6
  have hs1 := mc2thrash2.sequential_start_policy SIZE_BITS CACHELINE_SIZE
    ((m : Int) * mc2thrash2.num_cachelines CACHELINE_SIZE wss) wss hb hp h2 (by omega) hn
  have hs2 := mc2thrash2.sequential_start_policy SIZE_BITS CACHELINE_SIZE
    ((m1 : Int) * mc2thrash2.num_cachelines CACHELINE_SIZE wss) wss hb hp1 h4 (by omega) hn
  -- the first of the two calls
  have hfirst : ∃ off1, mc2thrash2.sequential_start SIZE_BITS CACHELINE_SIZE
        ((m : Int) * mc2thrash2.num_cachelines CACHELINE_SIZE wss) wss
          = (.ok off1, (m1 : Int) * mc2thrash2.num_cachelines CACHELINE_SIZE wss) ∧
      (m1 : Int) * mc2thrash2.num_cachelines CACHELINE_SIZE wss
        = off1 + mc2thrash2.num_cachelines CACHELINE_SIZE wss ∧ 0 ≤ off1 ∧
      (off1 = 0 ∨ mc2thrash2.num_cachelines CACHELINE_SIZE wss ≤ off1) := by
    rw [hs1] at h3 ⊢
    by_cases hw : (m : Int) * mc2thrash2.num_cachelines CACHELINE_SIZE wss
        + mc2thrash2.num_cachelines CACHELINE_SIZE wss
          > (mc2thrash2.NUM_ARENA_ELEM CACHELINE_SIZE : Int)
    · rw [if_pos hw] at h3 ⊢
      simp only [] at h3
      injection h3 with h3
      exact ⟨0, congrArg (Prod.mk (Except.ok 0)) h3, by omega, le_refl _, Or.inl rfl⟩
    · rw [if_neg hw] at h3 ⊢
      simp only [] at h3
      injection h3 with h3
      refine ⟨_, congrArg (Prod.mk (Except.ok _)) h3, by omega, hp, ?_⟩
      rcases Nat.eq_zero_or_pos m with hm | hm
      · left; rw [hm]; simp
      · right
        have : (1 : Int) ≤ (m : Int) := by omega
        nlinarith
  obtain ⟨off1, hc1, hpos1, hoff1, hoff1'⟩ := hfirst
  have hsecond : ∃ off2, mc2thrash2.sequential_start SIZE_BITS CACHELINE_SIZE
        ((m1 : Int) * mc2thrash2.num_cachelines CACHELINE_SIZE wss) wss
          = (.ok off2, (m2 : Int) * mc2thrash2.num_cachelines CACHELINE_SIZE wss) := by
    rw [hs2] at h6 ⊢
    by_cases hw : (m1 : Int) * mc2thrash2.num_cachelines CACHELINE_SIZE wss
        + mc2thrash2.num_cachelines CACHELINE_SIZE wss
          > (mc2thrash2.NUM_ARENA_ELEM CACHELINE_SIZE : Int)
    · rw [if_pos hw] at h6 ⊢
      simp only [] at h6
      injection h6 with h6
      exact ⟨0, congrArg (Prod.mk (Except.ok 0)) h6⟩
    · rw [if_neg hw] at h6 ⊢
      simp only [] at h6
      injection h6 with h6
      exact ⟨_, congrArg (Prod.mk (Except.ok _)) h6⟩
  obtain ⟨off2, hc2⟩ := hsecond
  have hdis := consecutive_starts SIZE_BITS CACHELINE_SIZE _ wss wss off1 off2 _ _ hb hp h2
    hn0 hn hn0 hn hc1 hc2
  have hwrap_only : (m1 : Int) * mc2thrash2.num_cachelines CACHELINE_SIZE wss
      + mc2thrash2.num_cachelines CACHELINE_SIZE wss
        > (mc2thrash2.NUM_ARENA_ELEM CACHELINE_SIZE : Int) →
      mc2thrash2.num_cachelines CACHELINE_SIZE wss ≤ off1 := by
    intro hw
    rcases hoff1' with h0 | h0
    · omega
    · exact h0
  refine ⟨_, off1, _, off2, _, h1, hc1, hc2, ⟨m1, hm1, rfl⟩, ⟨m2, hm2, rfl⟩, ?_, ?_⟩
  · rw [hdis]
    intro ⟨hw, hlt⟩
    have := hwrap_only hw
    omega
  · intro hw
    refine ⟨?_, hwrap_only hw⟩
    rw [hs2, if_pos hw] at hc2
    injection hc2 with e1 _
    injection e1 with e1
    exact e1.symm

/-- Witness for `sequential_start_fixed_size`: 32-byte lines (32768 lines),
`wss = 312` (9984 lines per call), after three calls. -/
theorem sequential_start_fixed_size_witness :
    ∃ pos off1 pos1 off2 pos2,
      cursor_after 32 32 0 (List.replicate 3 312) = some pos ∧
      mc2thrash2.sequential_start 32 32 pos 312 = (.ok off1, pos1) ∧
      mc2thrash2.sequential_start 32 32 pos1 312 = (.ok off2, pos2) ∧
      (∃ m : Nat, 0 < m ∧ pos1 = (m : Int) * mc2thrash2.num_cachelines 32 312) ∧
      (∃ m : Nat, 0 < m ∧ pos2 = (m : Int) * mc2thrash2.num_cachelines 32 312) ∧
      ranges_disjoint off1 (mc2thrash2.num_cachelines 32 312)
        off2 (mc2thrash2.num_cachelines 32 312) ∧
      (pos1 + mc2thrash2.num_cachelines 32 312 > (mc2thrash2.NUM_ARENA_ELEM 32 : Int) →
        off2 = 0 ∧ mc2thrash2.num_cachelines 32 312 ≤ off1) :=
  sequential_start_fixed_size 32 32 312 3 (by decide) (by decide) (by decide)

/-! ## The sum along a full lap -/

theorem range_sum_mul_two (n : Nat) : (List.range n).sum * 2 = n * (n - 1) := by
  induction n with
  | zero => rfl
  | succ n ih =>
    rw [List.range_succ, List.sum_append, List.sum_singleton, Nat.add_mul, ih]
    cases n with
    | zero => rfl
    | succ m => simp only [Nat.add_sub_cancel]; ring

/-- A nodup list of `N` numbers below `N` is a rearrangement of `0, ..., N - 1`. -/
theorem perm_range_of_nodup (l : List Nat) (N : Nat) (hd : l.Nodup) (hlen : l.length = N)
    (hlt : ∀ x ∈ l, x < N) : l.Perm (List.range N) := by
  apply List.Subperm.perm_of_length_le
  · apply List.subperm_of_subset hd
    intro x hx
    exact List.mem_range.mpr (hlt x hx)
  · simp [hlen]

/-- The points met on a walk of `N` steps along a map `f` from a point `s`
whose orbit is a cycle of length `N` inside `[0, N)` are a rearrangement of
`0, ..., N - 1`. -/
theorem orbit_perm (f : Nat → Nat) (N s : Nat) (hret : f^[N] s = s)
    (hne : ∀ t, t < N → 0 < t → f^[t] s ≠ s)
    (hdist : ∀ t, t < N → ∀ u, u < N → 0 < t → t < u → f^[t] s ≠ f^[u] s)
    (hlt : ∀ t, f^[t] s < N) :
    ((List.range N).map (fun t => f^[t + 1] s)).Perm (List.range N) := by
  apply perm_range_of_nodup
  · rw [List.nodup_map_iff_inj_on (List.nodup_range N)]
    have key : ∀ t u, t < N → u < N → t < u → f^[t + 1] s ≠ f^[u + 1] s := by
      intro t u ht hu htu
      by_cases hN : u + 1 < N
      · exact hdist (t + 1) (by omega) (u + 1) hN (by omega) (by omega)
      · have e : u + 1 = N := by omega
        rw [e, hret]
        exact hne (t + 1) (by omega) (by omega)
    intro t ht u hu h
    rw [List.mem_range] at ht hu
    rcases Nat.lt_trichotomy t u with h1 | h1 | h1
    · exact absurd h (key t u ht hu h1)
    · exact h1
    · exact absurd h.symm (key u t hu ht h1)
  · simp
  · intro x hx
    rw [List.mem_map] at hx
    obtain ⟨t, _, rfl⟩ := hx
    exact hlt (t + 1)

/-- On a slot-uniform arena whose "next" is a single `N`-cycle, the "next"
values met on a walk of `N` steps add up to `N (N - 1) / 2`, from every start
line. -/
theorem walk_total_full_lap (ints N : Nat) (arena : Arena) (hu : slot_uniform ints N arena)
    (hints : 0 < ints) (hc : single_cycle N arena) (p : Nat) (hp : p < N) :
    walk_total arena p N = ((N * (N - 1) / 2 : Nat) : Int) := by
  obtain ⟨hret, hne, hdist⟩ := hc p hp
  have hperm := orbit_perm (next_line arena) N p hret hne hdist
    (next_line_iterate_lt ints N arena hu hints p hp)
  have hsum := hperm.sum_eq
  have h2 := range_sum_mul_two N
  rw [← hsum] at h2
  have e : walk_total arena p N
      = ((((List.range N).map (fun t => (next_line arena)^[t + 1] p)).sum : Nat) : Int) := by
    unfold walk_total
    rw [Nat.cast_list_sum, List.map_map]
    rfl
  rw [e]
  congr 1
  generalize N * (N - 1) = M at h2 ⊢
  omega

/-- C27: on a slot-uniform arena of `N` lines whose "next" is a single
`N`-cycle, a read-only `random_walk` (`write_cycle = 0`) of exactly `N` steps
returns `c * (N (N - 1) / 2)` reduced to a 32-bit `int`, where `c` is the
number of slots read per line: `INTS_IN_CACHELINE` (8, from the file's own
`CACHELINE_SIZE`) in mc2thrash2 and resspin, on lines that hold at least these
8 slots, and 1 in mc2pollute; from every start line, and the arena is left as
it was. -/
theorem random_walk_full_lap_checksum (CACHELINE_SIZE N : Nat) (arena : Arena) (start wss : Int)
    (hu : slot_uniform (INTS_IN_CACHELINE CACHELINE_SIZE) N arena)
    (hints : 0 < INTS_IN_CACHELINE CACHELINE_SIZE) (hc : single_cycle N arena)
    (h0 : 0 ≤ start) (hN : start < (N : Int))
    (hlap : wrap32 (wss * (CACHELINES_IN_1KB CACHELINE_SIZE : Int)) = (N : Int)) :
    (INTS_IN_CACHELINE mc2thrash2.CACHELINE_SIZE ≤ INTS_IN_CACHELINE CACHELINE_SIZE →
      mc2thrash2.random_walk CACHELINE_SIZE arena start wss 0
        = .ok (wrap32 ((INTS_IN_CACHELINE mc2thrash2.CACHELINE_SIZE : Int)
            * ((N * (N - 1) / 2 : Nat) : Int)), arena) ∧
      resspin.random_walk CACHELINE_SIZE arena start wss 0
        = .ok (wrap32 ((INTS_IN_CACHELINE mc2thrash2.CACHELINE_SIZE : Int)
            * ((N * (N - 1) / 2 : Nat) : Int)), arena)) ∧
    mc2pollute.random_walk CACHELINE_SIZE arena start wss 0
      = .ok (wrap32 ((N * (N - 1) / 2 : Nat) : Int), arena) := by
  have hp : start.toNat < N := by omega
  have htot := walk_total_full_lap _ N arena hu hints hc start.toNat hp
  obtain ⟨st', hrun', harena', -, -, -, -, hsum'⟩ :=
    mc2pollute.pollute_random_walk_run_uniform CACHELINE_SIZE N arena start wss 0 hu hints h0 hN
      (by decide) (by decide)
  rw [hlap] at hsum'
  simp only [Int.toNat_ofNat, htot] at hsum'
  rw [if_neg (by decide)] at hsum'
  refine ⟨?_, ?_⟩
  · intro h8
    obtain ⟨st, hrun, harena, -, -, -, -, hsum⟩ :=
      mc2thrash2.random_walk_run_uniform CACHELINE_SIZE N arena start wss 0 hu h8 h0 hN
        (by decide) (by decide)
    rw [hlap] at hsum
    simp only [Int.toNat_ofNat, htot] at hsum
    rw [if_neg (by decide)] at hsum
    have h1 : mc2thrash2.random_walk CACHELINE_SIZE arena start wss 0
        = .ok (wrap32 ((INTS_IN_CACHELINE mc2thrash2.CACHELINE_SIZE : Int)
            * ((N * (N - 1) / 2 : Nat) : Int)), arena) := by
      unfold mc2thrash2.random_walk
      rw [hrun]
      simp only [Except.map, hsum, harena]
    refine ⟨h1, ?_⟩
    unfold resspin.random_walk resspin.random_walk_run
    rw [hrun]
    simp only [Except.map, hsum, harena]
  · unfold mc2pollute.random_walk
    rw [hrun']
    simp only [Except.map, hsum', harena']

/-- Witness for `random_walk_full_lap_checksum`: 64-byte lines (16 lines in
1 KB, 16 slots per line), the 16-line ring, a lap from line 2: the values
0..15 add up to 120, mc2thrash2 and resspin read 8 slots of each line and
return 960, mc2pollute reads one and returns 120. -/
theorem random_walk_full_lap_checksum_witness :
    mc2thrash2.random_walk 64 (ring_arena 16 16) 2 1 0 = .ok (960, ring_arena 16 16) ∧
    resspin.random_walk 64 (ring_arena 16 16) 2 1 0 = .ok (960, ring_arena 16 16) ∧
    mc2pollute.random_walk 64 (ring_arena 16 16) 2 1 0 = .ok (120, ring_arena 16 16) :=
  have h := random_walk_full_lap_checksum 64 16 (ring_arena 16 16) 2 1 (by decide) (by decide)
    (by decide) (by decide) (by decide) (by decide)
  ⟨(h.1 (by decide)).1, (h.1 (by decide)).2, h.2⟩

/-! ## The fixed-iteration-count loops -/

namespace resspin

/-- Absent an emergency exit, the loop of `loop_for` calls `loop_once` once
for each value of `cur_loop` below `loops`. -/
theorem loop_for_loop_count (loops : Int) (e : ℚ) (hl : loops ≤ INT_MAX) :
    ∀ (ticks : List Tick) (cur_loop : Int) (now : ℚ) (tmp : Int) (it : Nat),
      INT_MIN ≤ cur_loop → (∀ t ∈ ticks, ¬ (e ≠ 0 ∧ t.wall > e)) →
      (loops - cur_loop).toNat ≤ ticks.length →
      ∃ r, loop_for_loop loops e ticks cur_loop now tmp it = some r ∧
        r.iterations = it + (loops - cur_loop).toNat ∧ r.emergency = false := by
  intro ticks
  induction ticks with
  | nil =>
    intro cur_loop now tmp it _ _ hlen
    have : ¬ cur_loop < loops := by simp at hlen; omega
    refine ⟨⟨tmp, now, it, false⟩, by simp [loop_for_loop, this], ?_, rfl⟩
    simp only []
    omega
  | cons t ticks ih =>
    intro cur_loop now tmp it hc hno hlen
    by_cases hlt : cur_loop < loops
    · have hw : wrap32 (cur_loop + 1) = cur_loop + 1 := by
        unfold INT_MAX at hl; unfold INT_MIN at hc; unfold wrap32; omega
      have hne := hno t (List.mem_cons_self _ _)
      obtain ⟨r, h1, h2, h3⟩ := ih (cur_loop + 1) t.cpu t.once (it + 1)
        (by unfold INT_MIN at hc ⊢; omega) (fun u hu => hno u (List.mem_cons_of_mem _ hu))
        (by simp only [List.length_cons] at hlen; omega)
      refine ⟨r, ?_, ?_, h3⟩
      · simp only [loop_for_loop, hlt, if_true, hne, if_false, hw]
        exact h1
      · rw [h2]; omega
    · refine ⟨⟨tmp, now, it, false⟩, by simp [loop_for_loop, hlt], ?_, rfl⟩
      simp only []
      omega

/-- In resspin, `loop_for` without an emergency exit calls `loop_once`
exactly `max(loops, 0)` times. -/
theorem loop_for_count (loops : Int) (e now : ℚ) (ticks : List Tick) (hl : loops ≤ INT_MAX)
    (hno : ∀ t ∈ ticks, ¬ (e ≠ 0 ∧ t.wall > e)) (hlen : loops.toNat ≤ ticks.length) :
    ∃ r, loop_for loops e now ticks = some r ∧ r.iterations = loops.toNat ∧
      r.emergency = false := by
  obtain ⟨r, h1, h2, h3⟩ := loop_for_loop_count loops e hl ticks 0 now 0 0 (by decide) hno
    (by simpa using hlen)
  exact ⟨r, h1, by simpa using h2, h3⟩

end resspin

namespace mc2pollute

/-- The loop of `job` calls `loop_once` once for each value of the unsigned
counter below `loops` converted to `unsigned int`. -/
theorem job_loop_count {σ : Type} (loop_once : σ → Run σ)
    (htot : ∀ s, ∃ s', loop_once s = .ok s') (loops : Int) :
    ∀ (k iter calls : Nat) (s : σ), iter + k = (loops % 4294967296).toNat →
      ∃ s', job_loop loop_once loops iter calls s = .ok (calls + k, s') := by
  intro k
  induction k with
  | zero =>
    intro iter calls s h
    rw [job_loop]
    have : ¬ iter < (loops % 4294967296).toNat := by omega
    rw [if_neg this]
    exact ⟨s, rfl⟩
  | succ k ih =>
    intro iter calls s h
    rw [job_loop]
    have : iter < (loops % 4294967296).toNat := by omega
    rw [if_pos this]
    obtain ⟨s1, h1⟩ := htot s
    rw [h1]
    simp only []
    have e : (iter + 1) % 4294967296 = iter + 1 := by omega
    rw [e]
    obtain ⟨s', h2⟩ := ih (iter + 1) (calls + 1) s1 (by omega)
    exact ⟨s', by rw [h2]; congr 2; omega⟩

/-- In mc2pollute, a job that runs calls `loop_once` `loops` times when
`0 ≤ loops`, and `2^32 + loops` times when `loops < 0`. -/
theorem job_count {σ : Type} (loop_once : σ → Run σ) (htot : ∀ s, ∃ s', loop_once s = .ok s')
    (loops : Int) (wctime program_end : ℚ) (s : σ) (h1 : INT_MIN ≤ loops) (h2 : loops ≤ INT_MAX)
    (hrun : ¬ wctime > program_end) :
    ∃ s', job loop_once loops wctime program_end s
      = .ok (1, (if 0 ≤ loops then loops else 4294967296 + loops).toNat, s') := by
  unfold job
  rw [if_neg hrun]
  obtain ⟨s', h⟩ := job_loop_count loop_once htot loops
    ((if 0 ≤ loops then loops else 4294967296 + loops).toNat) 0 0 s (by
      unfold INT_MIN at h1; unfold INT_MAX at h2
      split <;> omega)
  refine ⟨s', ?_⟩
  rw [h]
  simp [Except.map]

end mc2pollute

/-- C25 (code at the failing input): with `loops = -1`, a job of mc2pollute
that runs calls `loop_once` 4294967295 times (here a `loop_once` that counts
its calls in the state), while `loop_for` of resspin calls it 0 times; with
`loops = 3` both call it 3 times. -/
theorem job_negative_loops :
    mc2pollute.job (fun (s : Nat) => .ok (s + 1)) (-1) 0 1 0 = .ok (1, 4294967295, 4294967295) ∧
    (∃ r, resspin.loop_for (-1) 0 0 [] = some r ∧ r.iterations = 0) ∧
    (∃ s, mc2pollute.job (fun (s : Nat) => .ok (s + 1)) 3 0 1 0 = .ok (1, 3, s)) ∧
    (∃ r, resspin.loop_for 3 0 0 [⟨1, 1, 1⟩, ⟨2, 2, 2⟩, ⟨3, 3, 3⟩] = some r ∧
      r.iterations = 3) := by
  refine ⟨?_, ?_, ?_, ?_⟩
  · have key : ∀ (k iter calls s : Nat), iter + k = 4294967295 →
        mc2pollute.job_loop (fun (s : Nat) => .ok (s + 1)) (-1) iter calls s
          = .ok (calls + k, s + k) := by
      intro k
      induction k with
      | zero =>
        intro iter calls s h
        rw [mc2pollute.job_loop]
        have : ¬ iter < ((-1 : Int) % 4294967296).toNat := by omega
        rw [if_neg this]
        rfl
      | succ k ih =>
        intro iter calls s h
        rw [mc2pollute.job_loop]
        have : iter < ((-1 : Int) % 4294967296).toNat := by omega
        rw [if_pos this]
        simp only []
        have e : (iter + 1) % 4294967296 = iter + 1 := by omega
        rw [e, ih (iter + 1) (calls + 1) (s + 1) (by omega)]
        congr 2 <;> omega
    unfold mc2pollute.job
    have hrun : ¬ ((0 : ℚ) > 1) := by norm_num
    rw [if_neg hrun, key 4294967295 0 0 0 (by omega)]
    rfl
  · obtain ⟨r, h1, h2, -⟩ := resspin.loop_for_count (-1) 0 0 [] (by decide) (by simp) (by simp)
    exact ⟨r, h1, by simpa using h2⟩
  · obtain ⟨s, h⟩ := mc2pollute.job_count (fun (s : Nat) => .ok (s + 1)) (fun s => ⟨_, rfl⟩) 3 0 1 0
      (by decide) (by decide) (by norm_num)
    exact ⟨s, by simpa using h⟩
  · obtain ⟨r, h1, h2, -⟩ := resspin.loop_for_count 3 0 0 [⟨1, 1, 1⟩, ⟨2, 2, 2⟩, ⟨3, 3, 3⟩]
      (by decide) (by simp) (by simp)
    exact ⟨r, h1, by simpa using h2⟩

/-! ## A zero working-set size in mc2pollute -/

/-- C21 (code at the failing input): mc2pollute with `wss = 0`, 32-byte
lines, glibc's `RAND_MAX` and an `mmap` that fails for the length 0. The
failed mapping passes `assert(arena)`, so `alloc_arena` returns `MAP_FAILED`
and the process goes on; `init_arena` is called on size 0 and returns (no
call of `randrange`); the first `loop_once` calls `random_start(0)`, that is
`randrange(0, 0)`, which divides by zero. -/
theorem zero_wss_reaches_randrange :
    mc2pollute.alloc_arena (fun size _ _ => if size = 0 then MAP_FAILED else 4096) (-1) 0 0 0
      = .ok MAP_FAILED ∧
    init_arena 2147483647 32 [] 0 [5, 6] = .ok ([], [5, 6]) ∧
    init_arena_calls 2147483647 32 [] 0 [5, 6] = [] ∧
    mc2pollute.random_start 2147483647 32 32 0 [5, 6] = randrange 2147483647 0 0 [5, 6] ∧
    randrange 2147483647 0 0 [5, 6] = .error .div_by_zero ∧
    mc2pollute.main_first_job 2147483647 32 32
        (fun size _ _ => if size = 0 then MAP_FAILED else 4096) [] 0 10 0 1 [5, 6]
      = .ok (.error .div_by_zero) := by
  have h1 : mc2pollute.alloc_arena (fun size _ _ => if size = 0 then MAP_FAILED else 4096)
      (-1) 0 0 0 = .ok MAP_FAILED := by decide
  have h2 : init_arena 2147483647 32 [] 0 [5, 6] = .ok ([], [5, 6]) := by decide
  have h3 : mc2pollute.random_start 2147483647 32 32 0 [5, 6]
      = randrange 2147483647 0 0 [5, 6] := by decide
  have h4 : randrange 2147483647 0 0 [5, 6] = .error .div_by_zero := by decide
  refine ⟨h1, h2, by decide, h3, h4, ?_⟩
  unfold mc2pollute.main_first_job
  have hsz : (to_size_t 32 (wrap32 (0 * 1024))).toNat = 0 := by decide
  simp only [hsz, h1, h2, bind, Except.bind]
  unfold mc2pollute.job
  have hrun : ¬ ((0 : ℚ) > 1) := by norm_num
  rw [if_neg hrun, mc2pollute.job_loop]
  have hlt : 0 < ((10 : Int) % 4294967296).toNat := by decide
  rw [if_pos hlt]
  have hl : mc2pollute.loop_once 2147483647 32 32 0 (([] : Arena), [5, 6], (0 : Int))
      = .error .div_by_zero := by
    unfold mc2pollute.loop_once
    simp only [h3, h4, bind, Except.bind]
  rw [hl]
  rfl

/-! ## `parse_td_intervals` -/

namespace mc2spin

/-- The checks made by one iteration of the loop of `parse_td_intervals` on
token `i`, the overlap check being made on the converted values. -/
theorem parse_step {lt_t : Type} [LinearOrder lt_t] (ms2ns : ℚ → lt_t) (arg : Nat → Scan)
    (count i n : Nat) :
    parse_td_intervals_loop ms2ns arg (count + 1) i ((List.range i).map (slot_of ms2ns arg)) n
      = if (arg i).matched = 2 ∧ 0 ≤ (arg i).start ∧ (arg i).start < (arg i).end_ ∧
            (0 < i → ms2ns (arg (i - 1)).end_ < ms2ns (arg i).start) then
          parse_td_intervals_loop ms2ns arg count (i + 1)
            ((List.range (i + 1)).map (slot_of ms2ns arg)) (n + 1)
        else .error (.exit 5) := by
  rw [parse_td_intervals_loop]
  have happ : (List.range i).map (slot_of ms2ns arg)
      ++ [(⟨ms2ns (arg i).start, ms2ns (arg i).end_⟩ : lt_interval lt_t)]
        = (List.range (i + 1)).map (slot_of ms2ns arg) := by
    rw [List.range_succ, List.map_append]
    rfl
  by_cases h1 : (arg i).matched = 2
  · by_cases h2 : (arg i).start < 0
    · have : ¬ (0 ≤ (arg i).start) := not_le.mpr h2
      simp [h1, h2, this]
    · by_cases h3 : (arg i).end_ ≤ (arg i).start
      · have : ¬ ((arg i).start < (arg i).end_) := not_lt.mpr h3
        simp [h1, h2, h3, this]
      · have h2' : 0 ≤ (arg i).start := not_lt.mp h2
        have h3' : (arg i).start < (arg i).end_ := not_le.mp h3
        simp only [h1, ne_eq, not_true_eq_false, if_false, h2, h3, h2', h3', true_and, happ]
        by_cases hi : 0 < i
        · have hprev : ((List.range i).map (slot_of ms2ns arg))[i - 1]?
              = some (slot_of ms2ns arg (i - 1)) := by
            rw [List.getElem?_map, List.getElem?_range (by omega)]
            rfl
          simp only [gt_iff_lt, hi, if_true, hprev, forall_true_left]
          by_cases h4 : ms2ns (arg (i - 1)).end_ < ms2ns (arg i).start
          · have : ¬ ((slot_of ms2ns arg (i - 1)).end_ ≥ ms2ns (arg i).start) := not_le.mpr h4
            rw [if_neg this, if_pos h4]
          · have : (slot_of ms2ns arg (i - 1)).end_ ≥ ms2ns (arg i).start := not_lt.mp h4
            rw [if_pos this, if_neg h4]
        · have hi0 : i = 0 := by omega
          subst hi0
          simp
  · simp [h1]

/-- The loop of `parse_td_intervals` returns exactly when every remaining
token passes the checks, with one interval per token, and ends the process
with `exit(5)` otherwise. -/
theorem parse_loop_spec {lt_t : Type} [LinearOrder lt_t] (ms2ns : ℚ → lt_t) (arg : Nat → Scan) :
    ∀ (count i n : Nat),
      parse_td_intervals_loop ms2ns arg count i ((List.range i).map (slot_of ms2ns arg)) n
        = if ∀ k, i ≤ k → k < i + count →
              ((arg k).matched = 2 ∧ 0 ≤ (arg k).start ∧ (arg k).start < (arg k).end_ ∧
                (0 < k → ms2ns (arg (k - 1)).end_ < ms2ns (arg k).start)) then
            .ok ((List.range (i + count)).map (slot_of ms2ns arg), n + count)
          else .error (.exit 5) := by
  classical
  intro count
  induction count with
  | zero =>
    intro i n
    have : ∀ k, i ≤ k → k < i + 0 →
        ((arg k).matched = 2 ∧ 0 ≤ (arg k).start ∧ (arg k).start < (arg k).end_ ∧
          (0 < k → ms2ns (arg (k - 1)).end_ < ms2ns (arg k).start)) :=
      fun k h1 h2 => absurd h2 (by omega)
    rw [if_pos this]
    rfl
  | succ count ih =>
    intro i n
    rw [parse_step, ih]
    by_cases hi : (arg i).matched = 2 ∧ 0 ≤ (arg i).start ∧ (arg i).start < (arg i).end_ ∧
        (0 < i → ms2ns (arg (i - 1)).end_ < ms2ns (arg i).start)
    · rw [if_pos hi]
      by_cases hrest : ∀ k, i + 1 ≤ k → k < i + 1 + count →
          ((arg k).matched = 2 ∧ 0 ≤ (arg k).start ∧ (arg k).start < (arg k).end_ ∧
            (0 < k → ms2ns (arg (k - 1)).end_ < ms2ns (arg k).start))
      · have hall : ∀ k, i ≤ k → k < i + (count + 1) →
            ((arg k).matched = 2 ∧ 0 ≤ (arg k).start ∧ (arg k).start < (arg k).end_ ∧
              (0 < k → ms2ns (arg (k - 1)).end_ < ms2ns (arg k).start)) := by
          intro k h1 h2
          rcases Nat.eq_or_lt_of_le h1 with h | h
          · subst h; exact hi
          · exact hrest k h (by omega)
        rw [if_pos hrest, if_pos hall]
        have e1 : i + 1 + count = i + (count + 1) := by omega
        have e2 : n + 1 + count = n + (count + 1) := by omega
        rw [e1, e2]
      · have hall : ¬ ∀ k, i ≤ k → k < i + (count + 1) →
            ((arg k).matched = 2 ∧ 0 ≤ (arg k).start ∧ (arg k).start < (arg k).end_ ∧
              (0 < k → ms2ns (arg (k - 1)).end_ < ms2ns (arg k).start)) :=
          fun h => hrest (fun k h1 h2 => h k (by omega) (by omega))
        rw [if_neg hrest, if_neg hall]
    · have hall : ¬ ∀ k, i ≤ k → k < i + (count + 1) →
          ((arg k).matched = 2 ∧ 0 ≤ (arg k).start ∧ (arg k).start < (arg k).end_ ∧
            (0 < k → ms2ns (arg (k - 1)).end_ < ms2ns (arg k).start)) :=
        fun h => hi (h i (le_refl _) (by omega))
      rw [if_neg hi, if_neg hall]

end mc2spin

/-- Along well-formed tokens the raw interval bounds increase: token `i` ends
before token `j` starts, for `i < j`. -/
theorem token_ok_chain (arg : Nat → mc2spin.Scan) (N : Nat) (hok : ∀ i, i < N → token_ok arg i) :
    ∀ d i, i + d + 1 < N → (arg i).end_ < (arg (i + d + 1)).start := by
  intro d
  induction d with
  | zero =>
    intro i h
    have := (hok (i + 1) (by omega)).2.2.2 (by omega)
    simpa using this
  | succ d ih =>
    intro i h
    have h1 := ih i (by omega)
    have h2 := (hok (i + d + 1) (by omega)).2.2.1
    have h3 := (hok (i + d + 1 + 1) (by omega)).2.2.2 (by omega)
    simp only [Nat.add_sub_cancel] at h3
    have e : i + (d + 1) + 1 = i + d + 1 + 1 := by omega
    rw [e]
    exact lt_trans (lt_trans h1 h2) h3

/-- No conversion to integers is strictly increasing between 1 and 2. -/
theorem int_conversion_collapses (f : ℚ → ℤ) :
    ∃ a b : ℚ, 1 ≤ a ∧ a < b ∧ b ≤ 2 ∧ f b ≤ f a := by
  by_contra hcon
  have hlt : ∀ a b : ℚ, 1 ≤ a → a < b → b ≤ 2 → f a < f b := by
    intro a b h1 h2 h3
    by_contra h
    exact hcon ⟨a, b, h1, h2, h3, not_lt.mp h⟩
  have hle : ∀ a b : ℚ, 1 ≤ a → a ≤ b → b ≤ 2 → f a ≤ f b := by
    intro a b h1 h2 h3
    rcases lt_or_eq_of_le h2 with h | h
    · exact le_of_lt (hlt a b h1 h h3)
    · rw [h]
  have hinj : Set.InjOn f (Set.Icc (1 : ℚ) 2) := by
    intro a ha b hb hab
    rcases lt_trichotomy a b with h | h | h
    · exact absurd hab (ne_of_lt (hlt a b ha.1 h hb.2))
    · exact h
    · exact absurd hab.symm (ne_of_lt (hlt b a hb.1 h ha.2))
  have hmaps : Set.MapsTo f (Set.Icc (1 : ℚ) 2) (Set.Icc (f 1) (f 2)) := by
    intro a ha
    exact ⟨hle 1 a (le_refl _) ha.1 ha.2, hle a 2 ha.1 ha.2 (le_refl _)⟩
  have hinf : (Set.Icc (1 : ℚ) 2).Infinite := Set.Icc_infinite (by norm_num)
  exact (Set.infinite_of_injOn_mapsTo hinj hmaps hinf) (Set.finite_Icc _ _)

/-- The outcome of `parse_td_intervals`: all `num` tokens stored, or
`exit(5)`. -/
theorem parse_td_intervals_run {lt_t : Type} [LinearOrder lt_t]
    (ms2ns : ℚ → lt_t) (num : Int) (arg : Nat → mc2spin.Scan) :
    ((∀ i, i < num.toNat → stored_ok ms2ns arg i) →
      mc2spin.parse_td_intervals ms2ns num arg
        = .ok ((List.range num.toNat).map (slot_of ms2ns arg), num.toNat)) ∧
    (¬ (∀ i, i < num.toNat → stored_ok ms2ns arg i) →
      mc2spin.parse_td_intervals ms2ns num arg = .error (.exit 5)) := by
  classical
  have hspec := mc2spin.parse_loop_spec ms2ns arg num.toNat 0 0
  have hiff : (∀ k, 0 ≤ k → k < 0 + num.toNat →
      ((arg k).matched = 2 ∧ 0 ≤ (arg k).start ∧ (arg k).start < (arg k).end_ ∧
        (0 < k → ms2ns (arg (k - 1)).end_ < ms2ns (arg k).start))) ↔
      (∀ i, i < num.toNat → stored_ok ms2ns arg i) := by
    constructor
    · intro h i hi
      exact h i (Nat.zero_le _) (by omega)
    · intro h k _ hk
      exact h k (by omega)
  have h0 : ([] : List (mc2spin.lt_interval lt_t)) = (List.range 0).map (slot_of ms2ns arg) := rfl
  constructor
  · intro hall
    unfold mc2spin.parse_td_intervals
    rw [h0, hspec, if_pos (hiff.mpr hall)]
    simp
  · intro hall
    unfold mc2spin.parse_td_intervals
    rw [h0, hspec, if_neg (fun h => hall (hiff.mp h))]

/-- Along tokens that pass the checks, under a monotone conversion, the
stored end of a token is below the stored start of every later token. -/
theorem stored_ok_chain {lt_t : Type} [LinearOrder lt_t] (ms2ns : ℚ → lt_t)
    (hmono : Monotone ms2ns) (arg : Nat → mc2spin.Scan) (N : Nat)
    (hok : ∀ i, i < N → stored_ok ms2ns arg i) :
    ∀ d i, i + d + 1 < N → ms2ns (arg i).end_ < ms2ns (arg (i + d + 1)).start := by
  intro d
  induction d with
  | zero =>
    intro i h
    have := (hok (i + 1) (by omega)).2.2.2 (by omega)
    simpa using this
  | succ d ih =>
    intro i h
    have h1 := ih i (by omega)
    have h2 := hmono (le_of_lt (hok (i + d + 1) (by omega)).2.2.1)
    have h3 := (hok (i + d + 1 + 1) (by omega)).2.2.2 (by omega)
    simp only [Nat.add_sub_cancel] at h3
    have e : i + (d + 1) + 1 = i + d + 1 + 1 := by omega
    rw [e]
    exact (lt_of_lt_of_le h1 h2).trans h3

/-- C24 (counterexample): whatever the conversion `ms2ns` to an integer type
is, there are two tokens `[0,a]:[b,b+1]` with `0 < a < b`, well-formed and
with the second starting strictly after the end of the first, on which
`parse_td_intervals` ends the process with `exit(5)`: the gap between `a` and
`b` is lost in the conversion. With the conversion to whole nanoseconds
`⌊x * 10^6⌋` the tokens `[0,0.0000001]:[0.0000002,1]` are such a pair. -/
theorem parse_td_intervals_rejects_ok_tokens :
    (∀ ms2ns : ℚ → ℤ, ∃ arg : Nat → mc2spin.Scan,
      (∀ i, i < (2 : Int).toNat → token_ok arg i) ∧
      mc2spin.parse_td_intervals ms2ns 2 arg = .error (.exit 5)) ∧
    (∀ i, i < (2 : Int).toNat → token_ok
      (fun i => [(⟨2, 0, 1 / 10000000⟩ : mc2spin.Scan), ⟨2, 2 / 10000000, 1⟩].getD i ⟨0, 0, 0⟩)
      i) ∧
    mc2spin.parse_td_intervals (fun x : ℚ => ⌊x * 1000000⌋) 2
      (fun i => [(⟨2, 0, 1 / 10000000⟩ : mc2spin.Scan), ⟨2, 2 / 10000000, 1⟩].getD i ⟨0, 0, 0⟩)
        = .error (.exit 5) := by
  refine ⟨?_, ?_, ?_⟩
  · intro ms2ns
    obtain ⟨a, b, h1, h2, h3, h4⟩ := int_conversion_collapses ms2ns
    refine ⟨fun i => [(⟨2, 0, a⟩ : mc2spin.Scan), ⟨2, b, b + 1⟩].getD i ⟨0, 0, 0⟩, ?_, ?_⟩
    · intro i hi
      have hi' : i < 2 := hi
      interval_cases i
      · refine ⟨rfl, le_refl _, ?_, fun h => absurd h (lt_irrefl _)⟩
        show (0 : ℚ) < a
        linarith
      · refine ⟨rfl, ?_, ?_, fun _ => ?_⟩
        · show (0 : ℚ) ≤ b
          linarith
        · show b < b + 1
          linarith
        · show a < b
          exact h2
    · apply (parse_td_intervals_run ms2ns 2 _).2
      intro hall
      have := (hall 1 (by decide)).2.2.2 (by decide)
      exact absurd this (not_lt.mpr h4)
  · intro i hi
    have hi' : i < 2 := hi
    interval_cases i <;> norm_num [token_ok]
  · apply (parse_td_intervals_run _ 2 _).2
    intro hall
    have h := (hall 1 (by decide)).2.2.2 (by decide)
    have e1 : ⌊(1 / 10000000 : ℚ) * 1000000⌋ = 0 := by
      rw [Int.floor_eq_iff]; norm_num
    have e2 : ⌊(2 / 10000000 : ℚ) * 1000000⌋ = 0 := by
      rw [Int.floor_eq_iff]; norm_num
    simp only [List.getD_cons_zero, List.getD_cons_succ, Nat.sub_self] at h
    rw [e1, e2] at h
    exact absurd h (lt_irrefl _)

/-- C24 (amended): for `num ≥ 0` tokens and whatever the conversion `ms2ns`
is, `parse_td_intervals` returns, with `*num_intervals = num`, if and only if
every token parses as `"[start,end]"` with `0 ≤ start < end` and the stored
start `ms2ns(start)` of every token after the first is strictly greater than
the stored end of the previous one; otherwise it ends the process with
`exit(5)`, which is not the `exit(EXIT_FAILURE)` of `usage`. In a returned
list every interval ends strictly before the next one starts; for a monotone
conversion every returned token also starts strictly after the end of the
previous token, no stored interval ends before it starts, and each stored
interval ends before every later one starts. -/
theorem parse_td_intervals_spec {lt_t : Type} [LinearOrder lt_t] (ms2ns : ℚ → lt_t)
    (num : Int) (arg : Nat → mc2spin.Scan) (hnum : 0 ≤ num) :
    ((∀ i, i < num.toNat → stored_ok ms2ns arg i) ↔
      ∃ slots n, mc2spin.parse_td_intervals ms2ns num arg = .ok (slots, n)) ∧
    (¬ (∀ i, i < num.toNat → stored_ok ms2ns arg i) →
      mc2spin.parse_td_intervals ms2ns num arg = .error (.exit 5)) ∧
    Fatal.exit 5 ≠ mc2spin.usage ∧
    (∀ slots n, mc2spin.parse_td_intervals ms2ns num arg = .ok (slots, n) →
      (n : Int) = num ∧ slots = (List.range num.toNat).map (slot_of ms2ns arg) ∧
      (∀ i a b, slots[i]? = some a → slots[i + 1]? = some b → a.end_ < b.start) ∧
      (Monotone ms2ns →
        (∀ i, i < num.toNat → token_ok arg i) ∧
        (∀ s ∈ slots, s.start ≤ s.end_) ∧
        slots.Pairwise (fun a b => a.end_ < b.start ∧ a.start < b.start))) := by
  obtain ⟨hok, herr⟩ := parse_td_intervals_run ms2ns num arg
  refine ⟨?_, herr, by decide, ?_⟩
  · constructor
    · intro h
      exact ⟨_, _, hok h⟩
    · intro ⟨slots, n, h⟩
      by_contra hc
      rw [herr hc] at h
      simp at h
  · intro slots n h
    have hall : ∀ i, i < num.toNat → stored_ok ms2ns arg i := by
      by_contra hc
      rw [herr hc] at h
      simp at h
    rw [hok hall] at h
    injection h with h
    injection h with h1 h2
    subst h1; subst h2
    refine ⟨by omega, rfl, ?_, ?_⟩
    · intro i a b ha hb
      rw [List.getElem?_map] at ha hb
      have hi1 : i + 1 < num.toNat := by
        by_contra hc
        rw [List.getElem?_eq_none (by rw [List.length_range]; omega)] at hb
        simp at hb
      rw [List.getElem?_range (by omega)] at ha
      rw [List.getElem?_range hi1] at hb
      simp only [Option.map_some', Option.some.injEq] at ha hb
      subst ha; subst hb
      have := (hall (i + 1) hi1).2.2.2 (Nat.succ_pos _)
      simpa [slot_of] using this
    · intro hmono
      refine ⟨?_, ?_, ?_⟩
      · intro i hi
        obtain ⟨a, b, c, d⟩ := hall i hi
        refine ⟨a, b, c, fun h0 => ?_⟩
        by_contra hc
        exact absurd (d h0) (not_lt.mpr (hmono (not_lt.mp hc)))
      · intro s hs
        rw [List.mem_map] at hs
        obtain ⟨i, hi, rfl⟩ := hs
        rw [List.mem_range] at hi
        exact hmono (le_of_lt (hall i hi).2.2.1)
      · rw [List.pairwise_map]
        have hlt : (List.range num.toNat).Pairwise (fun a b => a < b) := List.pairwise_lt_range _
        have hmem : ∀ a ∈ List.range num.toNat, a < num.toNat := fun a ha => List.mem_range.mp ha
        refine (List.Pairwise.and_mem.mp hlt).imp ?_
        intro a b ⟨ha, hb, hab⟩
        have h1 := stored_ok_chain ms2ns hmono arg num.toNat hall (b - a - 1) a (by
          have := hmem b hb
          omega)
        have e : a + (b - a - 1) + 1 = b := by omega
        rw [e] at h1
        have h2 := hmono (le_of_lt (hall a (hmem a ha)).2.2.1)
        exact ⟨h1, lt_of_le_of_lt h2 h1⟩

/-- Witness for `parse_td_intervals_spec`: the conversion to whole nanoseconds
`⌊x * 10^6⌋` and the tokens `[0,1]:[2,3.5]`. -/
theorem parse_td_intervals_spec_witness :
    ∃ slots n, mc2spin.parse_td_intervals (fun x : ℚ => ⌊x * 1000000⌋) 2
      (fun i => [(⟨2, 0, 1⟩ : mc2spin.Scan), ⟨2, 2, 7 / 2⟩].getD i ⟨0, 0, 0⟩) = .ok (slots, n) :=
  (parse_td_intervals_spec (fun x : ℚ => ⌊x * 1000000⌋) 2
    (fun i => [(⟨2, 0, 1⟩ : mc2spin.Scan), ⟨2, 2, 7 / 2⟩].getD i ⟨0, 0, 0⟩) (by decide)).1.mp
    (by
      intro i hi
      have hi' : i < 2 := hi
      interval_cases i
      · norm_num [stored_ok]
      · refine ⟨rfl, by norm_num, by norm_num, fun _ => ?_⟩
        show ⌊(1 : ℚ) * 1000000⌋ < ⌊(2 : ℚ) * 1000000⌋
        have e1 : ⌊(1 : ℚ) * 1000000⌋ = 1000000 := by
          rw [Int.floor_eq_iff]; norm_num
        have e2 : ⌊(2 : ℚ) * 1000000⌋ = 2000000 := by
          rw [Int.floor_eq_iff]; norm_num
        rw [e1, e2]
        norm_num)

/-! ## Sattolo's algorithm: one cycle -/

/-- Adding the point `n` to a cycle through `0, ..., n - 1`: composing the
cyclic permutation of a list `l` of these points with the exchange of `n` and
a point `j < n` gives the cyclic permutation of a list of `0, ..., n`. -/
theorem cycle_insert (l : List Nat) (n j : Nat) (hd : l.Nodup) (hmem : ∀ x, x ∈ l ↔ x < n)
    (hj : j < n) :
    ∃ l' : List Nat, l'.Nodup ∧ (∀ x, x ∈ l' ↔ x < n + 1) ∧
      l'.formPerm = Equiv.swap n j * l.formPerm := by
  obtain ⟨k, hk, hkj⟩ := List.getElem_of_mem ((hmem j).mpr hj)
  have hhead : (l.rotate k).head? = some j := by
    rw [List.head?_rotate hk, List.getElem?_eq_getElem hk, hkj]
  have hn : n ∉ l.rotate k := by
    rw [List.mem_rotate, hmem]; omega
  refine ⟨n :: l.rotate k, List.nodup_cons.mpr ⟨hn, List.nodup_rotate.mpr hd⟩, ?_, ?_⟩
  · intro x
    rw [List.mem_cons, List.mem_rotate, hmem]
    omega
  · cases hr : l.rotate k with
    | nil => rw [hr] at hhead; simp at hhead
    | cons a rest =>
      rw [hr] at hhead
      simp only [List.head?_cons, Option.some.injEq] at hhead
      subst hhead
      rw [List.formPerm_cons_cons, ← hr, List.formPerm_rotate l hd k]

theorem length_of_nodup_mem (l : List Nat) (N : Nat) (hd : l.Nodup) (hmem : ∀ x, x ∈ l ↔ x < N) :
    l.length = N := by
  have hp : l.Perm (List.range N) :=
    (List.perm_ext_iff_of_nodup hd (List.nodup_range N)).mpr
      (fun a => by rw [hmem, List.mem_range])
  simpa using hp.length_eq

theorem mod_of_lt_two_mul (a N : Nat) (h : a < N + N) :
    a % N = if a < N then a else a - N := by
  split
  · rename_i h1; exact Nat.mod_eq_of_lt h1
  · rename_i h1
    rw [Nat.mod_eq_sub_mod (by omega), Nat.mod_eq_of_lt (by omega)]

/-- A map that agrees on `[0, N)` with the cyclic permutation of a list of
the points `0, ..., N - 1` walks from every point through all `N` points and
back: the orbit of every `s < N` is a cycle of length `N`. -/
theorem orbit_of_formPerm (l : List Nat) (N : Nat) (hd : l.Nodup) (hmem : ∀ x, x ∈ l ↔ x < N)
    (f : Nat → Nat) (hf : ∀ p, p < N → f p = l.formPerm p) (s : Nat) (hs : s < N) :
    f^[N] s = s ∧ (∀ t, t < N → 0 < t → f^[t] s ≠ s) ∧
    (∀ t, t < N → ∀ u, u < N → 0 < t → t < u → f^[t] s ≠ f^[u] s) := by
  have hlen := length_of_nodup_mem l N hd hmem
  obtain ⟨i, hi, his⟩ := List.getElem_of_mem ((hmem s).mpr hs)
  have hiN : i < N := by omega
  have hpos : 0 < N := by omega
  have key : ∀ t, l[(i + t) % N]? = some (f^[t] s) := by
    intro t
    induction t with
    | zero =>
      rw [Nat.add_zero, Nat.mod_eq_of_lt hiN, List.getElem?_eq_getElem hi, his]
      rfl
    | succ t ih =>
      have hk : (i + t) % N < l.length := by rw [hlen]; exact Nat.mod_lt _ hpos
      rw [List.getElem?_eq_getElem hk] at ih
      injection ih with ih
      have hin : f^[t] s < N := by
        rw [← ih]; exact (hmem _).mp (List.getElem_mem _)
      have hstep := List.formPerm_apply_getElem l hd ((i + t) % N) hk
      rw [Function.iterate_succ_apply', hf _ hin, ← ih, hstep]
      have e : ((i + t) % N + 1) % l.length = (i + (t + 1)) % N := by
        rw [hlen, Nat.mod_add_mod]; rfl
      have hk' : (i + (t + 1)) % N < l.length := by rw [hlen]; exact Nat.mod_lt _ hpos
      rw [List.getElem?_eq_getElem hk']
      congr 1
      simp only [e]
  have hinj : ∀ a b, a < N → b < N → l[a]? = l[b]? → a = b := by
    intro a b ha hb h
    rw [List.getElem?_eq_getElem (by omega), List.getElem?_eq_getElem (by omega)] at h
    injection h with h
    exact (hd.getElem_inj_iff).mp h
  have hval : ∀ t u, f^[t] s = f^[u] s → (i + t) % N = (i + u) % N := by
    intro t u h
    apply hinj _ _ (Nat.mod_lt _ hpos) (Nat.mod_lt _ hpos)
    rw [key t, key u, h]
  refine ⟨?_, ?_, ?_⟩
  · have := key N
    rw [Nat.add_mod_right, Nat.mod_eq_of_lt hiN, List.getElem?_eq_getElem hi, his] at this
    injection this with this
    exact this.symm
  · intro t ht h0 h
    have := hval t 0 h
    rw [mod_of_lt_two_mul (i + t) N (by omega), mod_of_lt_two_mul (i + 0) N (by omega)] at this
    split at this <;> split at this <;> omega
  · intro t ht u hu h0 htu h
    have := hval t u h
    rw [mod_of_lt_two_mul (i + t) N (by omega), mod_of_lt_two_mul (i + u) N (by omega)] at this
    split at this <;> split at this <;> omega

/-- Exchanging the entries `i` and `j` of a list relabels its positions by the
exchange of `i` and `j`. -/
theorem set_set_getElem? {α : Type} (xs : List α) (i j : Nat) (xi xj : α)
    (hi : xs[i]? = some xi) (hj : xs[j]? = some xj) (p : Nat) :
    ((xs.set j xi).set i xj)[p]? = xs[Equiv.swap i j p]? := by
  have hil : i < xs.length := by
    by_contra hc
    rw [List.getElem?_eq_none (by omega)] at hi
    simp at hi
  have hjl : j < xs.length := by
    by_contra hc
    rw [List.getElem?_eq_none (by omega)] at hj
    simp at hj
  rw [List.getElem?_set, List.getElem?_set]
  by_cases h1 : i = p
  · subst h1
    simp [hil, hj]
  · by_cases h2 : j = p
    · subst h2
      simp [h1, hjl, hi]
    · rw [Equiv.swap_apply_of_ne_of_ne (Ne.symm h1) (Ne.symm h2)]
      simp [h1, h2]

/-- The shuffle loop with in-range choices returns, and the arena it leaves is
the arena it was given read through the cyclic permutation of a list of the
lines `0, ..., n - 1`. -/
theorem shuffle_choices_cycle (j : Nat → Int) (N : Nat) :
    ∀ (n : Nat) (a : Arena), n ≤ N → a.length = N →
      (∀ i, 1 ≤ i → i < n → 0 ≤ j i ∧ j i < (i : Int)) →
      ∃ (a' : Arena) (l : List Nat), shuffle_choices j n a = .ok a' ∧ a'.length = N ∧
        l.Nodup ∧ (∀ x, x ∈ l ↔ x < n) ∧ ∀ p, a'[p]? = a[l.formPerm p]? := by
  intro n
  induction n with
  | zero =>
    intro a _ hlen _
    exact ⟨a, [], rfl, hlen, List.nodup_nil, fun x => by simp, fun p => by simp⟩
  | succ n ih =>
    intro a hn hlen hj
    by_cases h1 : 1 < n + 1
    · obtain ⟨hj0, hjn⟩ := hj n (by omega) (by omega)
      obtain ⟨jn, hjn_eq⟩ : ∃ jn : Nat, j n = (jn : Int) := ⟨(j n).toNat, by omega⟩
      have hjn' : jn < n := by omega
      have hjl : jn < a.length := by omega
      have hnl : n < a.length := by omega
      have hs := swap_lines_natCast a jn n a[jn] a[n] (List.getElem?_eq_getElem hjl)
        (List.getElem?_eq_getElem hnl)
      obtain ⟨a', l, hrun, hlen', hd, hmem, hread⟩ := ih ((a.set jn a[n]).set n a[jn]) (by omega)
        (by simp [hlen]) (fun i hi1 hi2 => hj i hi1 (by omega))
      obtain ⟨l', hd', hmem', hform⟩ := cycle_insert l n jn hd hmem hjn'
      refine ⟨a', l', ?_, hlen', hd', hmem', ?_⟩
      · simp only [shuffle_choices, h1, if_true, hjn_eq, hs, bind, Except.bind]
        exact hrun
      · intro p
        rw [hread, set_set_getElem? a n jn a[n] a[jn] (List.getElem?_eq_getElem hnl)
          (List.getElem?_eq_getElem hjl), hform]
        rfl
    · have hn0 : n = 0 := by omega
      subst hn0
      exact ⟨a, [0], by simp [shuffle_choices], hlen, List.nodup_singleton 0,
        fun x => by simp, fun p => by simp⟩

/-- An `N`-line arena in which line `p` holds the value `σ p` in every slot,
for the cyclic permutation `σ` of a list of the lines `0, ..., N - 1`, is
slot-uniform, its "next" is a rearrangement of `[0, N)` and a single
`N`-cycle without fixed point. -/
theorem single_cycle_of_formPerm (ints N : Nat) (a' : Arena) (l : List Nat) (hN : 2 ≤ N)
    (hints : 0 < ints) (hlen : a'.length = N) (hd : l.Nodup) (hmem : ∀ x, x ∈ l ↔ x < N)
    (hread : ∀ p, p < N → a'[p]? = some (List.replicate ints ((l.formPerm p : Nat) : Int))) :
    slot_uniform ints N a' ∧ ((List.range N).map (next_line a')).Perm (List.range N) ∧
    single_cycle N a' ∧ ∀ i, i < N → next_line a' i ≠ i := by
  have hlt : ∀ p, p < N → l.formPerm p < N := fun p hp =>
    (hmem _).mp (List.formPerm_apply_mem_of_mem ((hmem p).mpr hp))
  have hnext : ∀ p, p < N → next_line a' p = l.formPerm p := fun p hp =>
    next_line_of_getElem? a' p ints _ hints (hread p hp)
  have hcyc : single_cycle N a' := fun s hs =>
    orbit_of_formPerm l N hd hmem (next_line a') hnext s hs
  refine ⟨⟨hlen, fun i hi => ⟨_, hlt i hi, hread i hi⟩⟩, ?_, hcyc, ?_⟩
  · apply perm_range_of_nodup
    · rw [List.nodup_map_iff_inj_on (List.nodup_range N)]
      intro x hx y hy h
      rw [List.mem_range] at hx hy
      rw [hnext x hx, hnext y hy] at h
      exact l.formPerm.injective h
    · simp
    · intro x hx
      rw [List.mem_map] at hx
      obtain ⟨p, hp, rfl⟩ := hx
      rw [List.mem_range] at hp
      rw [hnext p hp]
      exact hlt p hp
  · intro i hi h
    have := (hcyc i hi).2.1 1 (by omega) (by omega)
    exact this h

/-- C26: for `N ≥ 2` lines and every choice of values `j i` with
`0 ≤ j i < i` returned by the calls `randrange(0, i)`, `init_arena` (setting
line `i` to `i`, then exchanging lines `i` and `j i` for `i = N - 1` down to
1) returns a slot-uniform arena whose "next" is a rearrangement of `[0, N)`
and a single cycle of length `N`, without fixed point. -/
theorem sattolo_single_cycle (CACHELINE_SIZE N : Nat) (j : Nat → Int) (arena : Arena) (size : Nat)
    (hN : 2 ≤ N) (hsize : size / sizeof_cacheline_t CACHELINE_SIZE = N)
    (hlen : arena.length = N) (hints : 0 < INTS_IN_CACHELINE CACHELINE_SIZE)
    (hmax : (N : Int) ≤ INT_MAX) (hj : ∀ i, 1 ≤ i → i < N → 0 ≤ j i ∧ j i < (i : Int)) :
    ∃ arena', init_arena_choices CACHELINE_SIZE j arena size = .ok arena' ∧
      slot_uniform (INTS_IN_CACHELINE CACHELINE_SIZE) N arena' ∧
      ((List.range N).map (next_line arena')).Perm (List.range N) ∧
      single_cycle N arena' ∧ ∀ i, i < N → next_line arena' i ≠ i := by
  obtain ⟨a1, h1, hl1, hfill, -⟩ := init_lines_spec CACHELINE_SIZE N arena (by omega)
  obtain ⟨a', l, hrun, hlen', hd, hmem, hread⟩ := shuffle_choices_cycle j N N a1 (le_refl _)
    (by omega) hj
  refine ⟨a', ?_, ?_⟩
  · unfold init_arena_choices
    simp only [hsize]
    rw [if_neg (by omega), h1]
    exact hrun
  · apply single_cycle_of_formPerm _ N a' l hN hints hlen' hd hmem
    intro p hp
    rw [hread p]
    exact hfill _ ((hmem _).mp (List.formPerm_apply_mem_of_mem ((hmem p).mpr hp)))

/-- Witness for `sattolo_single_cycle`: four 16-byte lines with the choices
`j 3 = 1`, `j 2 = 0`, `j 1 = 0`. -/
theorem sattolo_single_cycle_witness :
    ∃ arena', init_arena_choices 16 (fun i => if i = 3 then 1 else 0)
        (List.replicate 4 (List.replicate 4 0)) 64 = .ok arena' ∧
      slot_uniform 4 4 arena' ∧
      ((List.range 4).map (next_line arena')).Perm (List.range 4) ∧
      single_cycle 4 arena' ∧ ∀ i, i < 4 → next_line arena' i ≠ i :=
  sattolo_single_cycle 16 4 (fun i => if i = 3 then 1 else 0)
    (List.replicate 4 (List.replicate 4 0)) 64 (by decide) (by decide) (by decide) (by decide)
    (by decide) (by
      intro i h1 h2
      interval_cases i <;> simp)

/-- The choice loop covers the code: a run of the shuffle loop of `init_arena`
that returns is a run of the choice loop on the values that its calls of
`randrange` returned. -/
theorem shuffle_eq_choices (RAND_MAX : Nat) :
    ∀ (n : Nat) (a a' : Arena) (rs rs' : List Nat), shuffle RAND_MAX n a rs = .ok (a', rs') →
      ∃ j : Nat → Int, shuffle_choices j n a = .ok a' ∧
        ∀ i, 1 ≤ i → i < n → ∃ rs1 rs2, randrange RAND_MAX 0 (i : Int) rs1 = .ok (j i, rs2) := by
  intro n
  induction n with
  | zero =>
    intro a a' rs rs' h
    simp only [shuffle] at h
    injection h with h
    injection h with h1 _
    subst h1
    exact ⟨fun _ => 0, rfl, fun i h1 h2 => absurd h2 (by omega)⟩
  | succ n ih =>
    intro a a' rs rs' h
    simp only [shuffle] at h
    by_cases hn : 1 < n + 1
    · simp only [hn, if_true] at h
      obtain ⟨⟨jn, rs1⟩, h1, h⟩ := (bind_ok _ _ _).mp h
      obtain ⟨a1, h2, h3⟩ := (bind_ok _ _ _).mp h
      obtain ⟨j, hj1, hj2⟩ := ih a1 a' rs1 rs' h3
      have hcongr : ∀ (m : Nat) (b : Arena), m ≤ n →
          shuffle_choices (Function.update j n jn) m b = shuffle_choices j m b := by
        intro m
        induction m with
        | zero => intro b _; rfl
        | succ m ihm =>
          intro b hm
          simp only [shuffle_choices]
          have : Function.update j n jn m = j m := Function.update_noteq (by omega) _ _
          rw [this]
          split
          · cases swap_lines b (j m) (m : Int) with
            | error e => rfl
            | ok b1 => simp only [bind, Except.bind]; exact ihm b1 (by omega)
          · rfl
      refine ⟨Function.update j n jn, ?_, ?_⟩
      · simp only [shuffle_choices, hn, if_true, Function.update_same, h2, bind, Except.bind]
        rw [hcongr n a1 (le_refl _)]
        exact hj1
      · intro i hi1 hi2
        by_cases hin : i = n
        · subst hin
          exact ⟨rs, rs1, by rw [Function.update_same]; exact h1⟩
        · rw [Function.update_noteq hin]
          exact hj2 i hi1 (by omega)
    · simp only [hn, if_false] at h
      injection h with h
      injection h with h1 _
      subst h1
      exact ⟨fun _ => 0, by simp [shuffle_choices, hn], fun i h1 h2 => absurd h2 (by omega)⟩

/-! ## `sattolo` of mc2spin -/

namespace mc2spin

/-- `randrange(max)` of mc2spin.c returns a value in `[0, max)` for
`1 ≤ max ≤ RAND_MAX` and a PRNG output in `[0, RAND_MAX]`. -/
theorem randrange_in_range (RAND_MAX max x : Nat) (rs : List Nat) (h1 : 1 ≤ max)
    (h2 : max ≤ RAND_MAX) (hRM : (RAND_MAX : Int) ≤ INT_MAX) (hx : x ≤ RAND_MAX) :
    ∃ r : Nat, randrange RAND_MAX (max : Int) (x :: rs) = .ok ((r : Int), rs) ∧ r < max := by
  unfold INT_MAX at hRM
  have hmax0 : ¬ ((max : Int) = 0) := by omega
  have hq : Int.tdiv (RAND_MAX : Int) (max : Int) = ((RAND_MAX / max : Nat) : Int) :=
    tdiv_natCast _ _
  have hqle : RAND_MAX / max ≤ RAND_MAX := Nat.div_le_self _ _
  have hlt : RAND_MAX < max * (RAND_MAX / max + 1) := Nat.lt_mul_div_succ RAND_MAX (by omega)
  simp only [randrange, hmax0, if_false, hq]
  generalize RAND_MAX / max = q at hqle hlt ⊢
  by_cases hov : q + 1 ≤ 2147483647
  · have hw : wrap32 ((q : Int) + 1) = ((q + 1 : Nat) : Int) := by
      unfold wrap32; omega
    rw [hw]
    have hd0 : ¬ (((q + 1 : Nat) : Int) = 0) := by omega
    rw [if_neg hd0, tdiv_natCast]
    refine ⟨x / (q + 1), rfl, ?_⟩
    rw [Nat.div_lt_iff_lt_mul (by omega)]
    omega
  · have hq1 : q = 2147483647 := by omega
    subst hq1
    have hw : wrap32 (((2147483647 : Nat) : Int) + 1) = -2147483648 := by decide
    rw [hw]
    rw [if_neg (by decide)]
    have hx0 : Int.tdiv (x : Int) (-2147483648) = ((0 : Nat) : Int) := by
      rw [Int.tdiv_neg, Int.tdiv_eq_zero_of_lt (by omega) (by omega)]
      rfl
    rw [hx0]
    refine ⟨0, rfl, by omega⟩

theorem read_item_natCast (items : List Int) (i : Nat) (v : Int) (h : items[i]? = some v) :
    read_item items (i : Int) = .ok v := by
  unfold read_item
  have : ¬ ((i : Int) < 0) := by omega
  simp [this, h]

theorem write_item_natCast (items : List Int) (i : Nat) (v : Int) (h : i < items.length) :
    write_item items (i : Int) v = .ok (items.set i v) := by
  unfold write_item
  have : ¬ ((i : Int) < 0) := by omega
  simp [this, h]

/-- The first loop of `sattolo` on an array of at least `len` entries returns,
keeps the length and sets entry `k < len` to `k`. -/
theorem sattolo_fill_spec (len : Nat) (items : List Int) (hlen : len ≤ items.length) :
    ∃ a1, sattolo_fill len items = .ok a1 ∧ a1.length = items.length ∧
      (∀ k, k < len → a1[k]? = some (k : Int)) := by
  obtain ⟨a1, h1, hl, hP1⟩ := for_loop_total
    (fun i (a : List Int) => a.length = items.length ∧ (∀ k, k < i → a[k]? = some (k : Int)))
    (fun i a => write_item a (i : Int) (i : Int)) len 0
    (by
      intro i a _ hi ⟨hl, hP1⟩
      refine ⟨_, write_item_natCast a i _ (by omega), by simp [hl], ?_⟩
      intro k hk
      rw [List.getElem?_set]
      by_cases hki : i = k
      · subst hki
        have : i < a.length := by omega
        simp [this]
      · simp only [hki, if_false]
        exact hP1 k (by omega))
    items ⟨rfl, fun k hk => absurd hk (by omega)⟩
  exact ⟨a1, h1, hl, fun k hk => hP1 k (by omega)⟩

end mc2spin


namespace mc2spin

theorem sattolo_loop_step (RAND_MAX LONG_BITS n jn : Nat) (a : List Int) (x : Nat) (rs1 : List Nat)
    (vn vj : Int) (h1 : 1 < n + 1)
    (hwn : wrap32 (n : Int) = (n : Int))
    (hrand : randrange RAND_MAX (n : Int) (x :: rs1) = .ok ((jn : Int), rs1))
    (hvn : a[n]? = some vn) (hvj : a[jn]? = some vj)
    (ht : wrap32 vn % 2 ^ LONG_BITS = vn) :
    sattolo_loop RAND_MAX LONG_BITS (n + 1) a (x :: rs1)
      = sattolo_loop RAND_MAX LONG_BITS n ((a.set n vj).set jn vn) rs1 := by
  have hnl : n < a.length := by
    by_contra hc
    rw [List.getElem?_eq_none (by omega)] at hvn
    simp at hvn
  have hjl : jn < a.length := by
    by_contra hc
    rw [List.getElem?_eq_none (by omega)] at hvj
    simp at hvj
  rw [sattolo_loop, if_pos h1, hwn, hrand]
  simp only [bind, Except.bind]
  rw [read_item_natCast a n _ hvn]
  simp only []
  rw [read_item_natCast a jn _ hvj]
  simp only []
  rw [write_item_natCast a n _ hnl]
  simp only []
  rw [ht, write_item_natCast _ jn _ (by simpa using hjl)]

end mc2spin

/-- An `int` value that is not negative survives the conversion to `int` and
back to an unsigned type of at least 32 bits. -/
theorem wrap32_emod_of_nat (BITS v : Nat) (hb : 32 ≤ BITS) (hv : (v : Int) ≤ INT_MAX) :
    wrap32 (v : Int) % 2 ^ BITS = (v : Int) := by
  have hpow : (4294967296 : Int) ≤ 2 ^ BITS := by
    have h : (2 : Int) ^ 32 ≤ 2 ^ BITS := pow_le_pow_right₀ (by norm_num) hb
    norm_num at h
    exact h
  have : wrap32 (v : Int) = (v : Int) := by
    unfold INT_MAX at hv; unfold wrap32; omega
  rw [this]
  exact Int.emod_eq_of_lt (by omega) (by unfold INT_MAX at hv; omega)

namespace mc2spin

theorem sattolo_loop_one (RAND_MAX LONG_BITS : Nat) (a : List Int) (rs : List Nat) :
    sattolo_loop RAND_MAX LONG_BITS 1 a rs = .ok (a, rs) := by
  rw [sattolo_loop, if_neg (by omega)]

/-- One iteration of the loop of `sattolo` on entries that fit an `int`: it
consumes one PRNG output and exchanges `items[n]` with `items[j]` for some
`j < n`. -/
theorem sattolo_loop_succ (RAND_MAX LONG_BITS n x : Nat) (a : List Int) (rs1 : List Nat)
    (hRM : (RAND_MAX : Int) ≤ INT_MAX) (hLB : 32 ≤ LONG_BITS) (h1 : 1 ≤ n) (hnR : n ≤ RAND_MAX)
    (hx : x ≤ RAND_MAX)
    (hval : ∀ p, p < n + 1 → ∃ v : Nat, (v : Int) ≤ INT_MAX ∧ a[p]? = some (v : Int)) :
    ∃ (jn vn vj : Nat), jn < n ∧ a[n]? = some (vn : Int) ∧ a[jn]? = some (vj : Int) ∧
      sattolo_loop RAND_MAX LONG_BITS (n + 1) a (x :: rs1)
        = sattolo_loop RAND_MAX LONG_BITS n ((a.set n (vj : Int)).set jn (vn : Int)) rs1 := by
  obtain ⟨jn, hrand, hjn⟩ := randrange_in_range RAND_MAX n x rs1 h1 hnR hRM hx
  have hwn : wrap32 (n : Int) = (n : Int) := by
    unfold INT_MAX at hRM; unfold wrap32; omega
  obtain ⟨vn, hvn1, hvn⟩ := hval n (Nat.lt_succ_self n)
  obtain ⟨vj, hvj1, hvj⟩ := hval jn (Nat.lt_succ_of_lt hjn)
  exact ⟨jn, vn, vj, hjn, hvn, hvj,
    sattolo_loop_step RAND_MAX LONG_BITS n jn a x rs1 (vn : Int) (vj : Int)
      (Nat.lt_succ_of_le h1) hwn hrand hvn hvj (wrap32_emod_of_nat LONG_BITS vn hLB hvn1)⟩

end mc2spin

namespace mc2spin

/-- The loop of `sattolo` on entries that fit an `int` returns, consumes one
PRNG output per iteration, and leaves the array it was given read through the
cyclic permutation of a list of the indices `0, ..., n - 1`. -/
theorem sattolo_loop_cycle (RAND_MAX LONG_BITS : Nat) (hRM : (RAND_MAX : Int) ≤ INT_MAX)
    (hLB : 32 ≤ LONG_BITS) :
    ∀ (n : Nat) (a : List Int) (rs : List Nat), n ≤ RAND_MAX + 1 →
      (∀ p, p < n → ∃ v : Nat, (v : Int) ≤ INT_MAX ∧ a[p]? = some (v : Int)) →
      (∀ x ∈ rs, x ≤ RAND_MAX) → n - 1 ≤ rs.length →
      ∃ (a' : List Int) (l : List Nat),
        sattolo_loop RAND_MAX LONG_BITS n a rs = .ok (a', rs.drop (n - 1)) ∧
        a'.length = a.length ∧ l.Nodup ∧ (∀ x, x ∈ l ↔ x < n) ∧
        ∀ p, a'[p]? = a[l.formPerm p]? := by
  intro n
  induction n with
  | zero =>
    intro a rs _ _ _ _
    exact ⟨a, [], rfl, rfl, List.nodup_nil, fun x => by simp, fun p => by simp⟩
  | succ n ih =>
    intro a rs hnR hval hrs hrsl
    rcases Nat.eq_zero_or_pos n with hn0 | hpos
    · subst hn0
      exact ⟨a, [0], sattolo_loop_one RAND_MAX LONG_BITS a rs, rfl, List.nodup_singleton 0,
        fun x => by simp, fun p => by simp⟩
    · cases rs with
      | nil =>
        exfalso
        simp only [List.length_nil, Nat.add_sub_cancel] at hrsl
        omega
      | cons x rs1 =>
        obtain ⟨jn, vn, vj, hjn, hvn, hvj, hstep⟩ := sattolo_loop_succ RAND_MAX LONG_BITS n x a rs1
          hRM hLB hpos (Nat.le_of_succ_le_succ hnR) (hrs x (List.mem_cons_self _ _)) hval
        have hval1 : ∀ p, p < n → ∃ v : Nat, (v : Int) ≤ INT_MAX ∧
            ((a.set n (vj : Int)).set jn (vn : Int))[p]? = some (v : Int) := by
          intro p hp
          rw [set_set_getElem? a jn n (vj : Int) (vn : Int) hvj hvn p]
          by_cases hpj : p = jn
          · rw [hpj, Equiv.swap_apply_left]
            exact hval n (Nat.lt_succ_self n)
          · rw [Equiv.swap_apply_of_ne_of_ne hpj (Nat.ne_of_lt hp)]
            exact hval p (Nat.lt_succ_of_lt hp)
        have hlen1 : ((a.set n (vj : Int)).set jn (vn : Int)).length = a.length := by
          rw [List.length_set, List.length_set]
        have hrsl1 : n - 1 ≤ rs1.length := by
          simp only [List.length_cons, Nat.add_sub_cancel] at hrsl
          omega
        obtain ⟨a', l, hrun, hlen', hd, hmem, hread⟩ := ih ((a.set n (vj : Int)).set jn (vn : Int))
          rs1 (Nat.le_of_succ_le hnR) hval1
          (fun y hy => hrs y (List.mem_cons_of_mem _ hy)) hrsl1
        obtain ⟨l', hd', hmem', hform⟩ := cycle_insert l n jn hd hmem hjn
        have hdrop : (x :: rs1).drop (n + 1 - 1) = rs1.drop (n - 1) := by
          obtain ⟨m, hm⟩ : ∃ m, n = m + 1 := ⟨n - 1, by omega⟩
          rw [hm]
          rfl
        refine ⟨a', l', ?_, ?_, hd', hmem', ?_⟩
        · rw [hstep, hrun, hdrop]
        · rw [hlen', hlen1]
        · intro p
          rw [hread, set_set_getElem? a jn n (vj : Int) (vn : Int) hvj hvn, hform,
            Equiv.swap_comm]
          rfl

end mc2spin

/-- A map that agrees on `[0, N)` with the cyclic permutation of a list of the
points `0, ..., N - 1`, `N ≥ 2`, is a rearrangement of `[0, N)`, has every
orbit a cycle of length `N`, and has no fixed point. -/
theorem orbit_cycle_of_formPerm (N : Nat) (l : List Nat) (f : Nat → Nat) (hN : 2 ≤ N)
    (hd : l.Nodup) (hmem : ∀ x, x ∈ l ↔ x < N) (hf : ∀ p, p < N → f p = l.formPerm p) :
    ((List.range N).map f).Perm (List.range N) ∧ (∀ s, s < N → orbit_cycle N f s) ∧
    ∀ i, i < N → f i ≠ i := by
  have hlt : ∀ p, p < N → l.formPerm p < N := fun p hp =>
    (hmem _).mp (List.formPerm_apply_mem_of_mem ((hmem p).mpr hp))
  have hcyc : ∀ s, s < N → orbit_cycle N f s := fun s hs =>
    orbit_of_formPerm l N hd hmem f hf s hs
  refine ⟨?_, hcyc, ?_⟩
  · apply perm_range_of_nodup
    · rw [List.nodup_map_iff_inj_on (List.nodup_range N)]
      intro x hx y hy h
      rw [List.mem_range] at hx hy
      rw [hf x hx, hf y hy] at h
      exact l.formPerm.injective h
    · simp
    · intro x hx
      rw [List.mem_map] at hx
      obtain ⟨p, hp, rfl⟩ := hx
      rw [List.mem_range] at hp
      rw [hf p hp]
      exact hlt p hp
  · intro i hi h
    exact (hcyc i hi).2.1 1 (by omega) (by omega) h

/-- C23: for `2 ≤ len ≤ RAND_MAX` and PRNG outputs in `[0, RAND_MAX]`,
`sattolo(items, len)` of mc2spin returns after consuming `len - 1` outputs;
the entries `items[0..len-1]` are then indices whose list is a rearrangement
of `0, ..., len - 1`, the map `i ↦ items[i]` has every orbit a cycle of length
`len`, and `items[i] ≠ i` for all `i < len`. Moreover `randrange(max)` of
mc2spin returns a value in `[0, max)` for every `1 ≤ max ≤ RAND_MAX`. -/
theorem sattolo_items_single_cycle (RAND_MAX LONG_BITS len : Nat) (items : List Int)
    (rs : List Nat) (h2 : 2 ≤ len) (hlenM : len ≤ RAND_MAX) (hRM : (RAND_MAX : Int) ≤ INT_MAX)
    (hLB : 32 ≤ LONG_BITS) (hbuf : len ≤ items.length) (hrs : ∀ x ∈ rs, x ≤ RAND_MAX)
    (hrsl : len - 1 ≤ rs.length) :
    (∃ items', mc2spin.sattolo RAND_MAX LONG_BITS items len rs
        = .ok (items', rs.drop (len - 1)) ∧
      (∀ i, i < len → items'[i]? = some ((next_item items' i : Nat) : Int)) ∧
      ((List.range len).map (next_item items')).Perm (List.range len) ∧
      (∀ s, s < len → orbit_cycle len (next_item items') s) ∧
      (∀ i, i < len → next_item items' i ≠ i) ∧
      (∀ i : Nat, i < len → items'[i]? ≠ some (i : Int))) ∧
    (∀ (max x : Nat) (rs0 : List Nat), 1 ≤ max → max ≤ RAND_MAX → x ≤ RAND_MAX →
      ∃ r : Nat, mc2spin.randrange RAND_MAX (max : Int) (x :: rs0) = .ok ((r : Int), rs0) ∧
        r < max) := by
  refine ⟨?_, fun max x rs0 h1 h3 hx =>
    mc2spin.randrange_in_range RAND_MAX max x rs0 h1 h3 hRM hx⟩
  obtain ⟨a1, hfill, hl1, hval⟩ := mc2spin.sattolo_fill_spec len items hbuf
  have hfit : ∀ p, p < len → ∃ v : Nat, (v : Int) ≤ INT_MAX ∧ a1[p]? = some (v : Int) := by
    intro p hp
    refine ⟨p, ?_, hval p hp⟩
    have : (p : Int) < (RAND_MAX : Int) := by exact_mod_cast Nat.lt_of_lt_of_le hp hlenM
    omega
  obtain ⟨a', l, hrun, -, hd, hmem, hread⟩ := mc2spin.sattolo_loop_cycle RAND_MAX LONG_BITS hRM hLB
    len a1 rs (Nat.le_succ_of_le hlenM) hfit hrs hrsl
  have hentry : ∀ p, p < len → a'[p]? = some ((l.formPerm p : Nat) : Int) := by
    intro p hp
    rw [hread p]
    exact hval _ ((hmem _).mp (List.formPerm_apply_mem_of_mem ((hmem p).mpr hp)))
  have hnext : ∀ p, p < len → next_item a' p = l.formPerm p := by
    intro p hp
    unfold next_item
    rw [List.getD_eq_getElem?_getD, hentry p hp]
    simp
  obtain ⟨hperm, hcyc, hfix⟩ := orbit_cycle_of_formPerm len l (next_item a') h2 hd hmem hnext
  refine ⟨a', ?_, ?_, hperm, hcyc, hfix, ?_⟩
  · unfold mc2spin.sattolo
    rw [hfill]
    exact hrun
  · intro i hi
    rw [hnext i hi]
    exact hentry i hi
  · intro i hi h
    rw [hentry i hi] at h
    injection h with h
    have : l.formPerm i = i := by exact_mod_cast h
    exact hfix i hi (by rw [hnext i hi]; exact this)

/-- Witness for `sattolo_items_single_cycle`: four items, `RAND_MAX = 32767`,
the PRNG outputs 32767, 0 and 20000. -/
theorem sattolo_items_single_cycle_witness :
    mc2spin.sattolo 32767 64 [9, 9, 9, 9] 4 [32767, 0, 20000] = .ok ([1, 3, 0, 2], []) ∧
    ∃ items', mc2spin.sattolo 32767 64 [9, 9, 9, 9] 4 [32767, 0, 20000]
        = .ok (items', ([32767, 0, 20000] : List Nat).drop (4 - 1)) ∧
      (∀ i, i < 4 → items'[i]? = some ((next_item items' i : Nat) : Int)) ∧
      ((List.range 4).map (next_item items')).Perm (List.range 4) ∧
      (∀ s, s < 4 → orbit_cycle 4 (next_item items') s) ∧
      (∀ i, i < 4 → next_item items' i ≠ i) ∧
      (∀ i : Nat, i < 4 → items'[i]? ≠ some (i : Int)) :=
  ⟨by decide,
   (sattolo_items_single_cycle 32767 64 4 [9, 9, 9, 9] [32767, 0, 20000] (by decide) (by decide)
      (by decide) (by decide) (by decide) (by decide) (by decide)).1⟩

/-- C15 (amended): in mc2thrash2, from every cursor reached from `pos = 0` by
policy-respecting calls, two consecutive calls of `sequential_start` with
positive request sizes `n1` and `n2`, each at most half of `NUM_ARENA_ELEM`,
both return, and the range `[off2, off2 + n2)` of the second is disjoint from
the range `[off1, off1 + n1)` of the first exactly when the second call does
not wrap to offset 0 or the first range starts at an offset `off1 ≥ n2`. -/
theorem sequential_start_consecutive_ranges (SIZE_BITS CACHELINE_SIZE : Nat) (hist : List Int)
    (wss1 wss2 : Int) (hb : 32 ≤ SIZE_BITS)
    (hpol : ∀ w ∈ hist, 0 ≤ mc2thrash2.num_cachelines CACHELINE_SIZE w ∧
      2 * mc2thrash2.num_cachelines CACHELINE_SIZE w
        ≤ (mc2thrash2.NUM_ARENA_ELEM CACHELINE_SIZE : Int))
    (hn1 : 0 < mc2thrash2.num_cachelines CACHELINE_SIZE wss1)
    (hh1 : 2 * mc2thrash2.num_cachelines CACHELINE_SIZE wss1
      ≤ (mc2thrash2.NUM_ARENA_ELEM CACHELINE_SIZE : Int))
    (hn2 : 0 < mc2thrash2.num_cachelines CACHELINE_SIZE wss2)
    (hh2 : 2 * mc2thrash2.num_cachelines CACHELINE_SIZE wss2
      ≤ (mc2thrash2.NUM_ARENA_ELEM CACHELINE_SIZE : Int)) :
    ∃ pos off1 pos1 off2 pos2,
      cursor_after SIZE_BITS CACHELINE_SIZE 0 hist = some pos ∧
      mc2thrash2.sequential_start SIZE_BITS CACHELINE_SIZE pos wss1 = (.ok off1, pos1) ∧
      mc2thrash2.sequential_start SIZE_BITS CACHELINE_SIZE pos1 wss2 = (.ok off2, pos2) ∧
      (ranges_disjoint off1 (mc2thrash2.num_cachelines CACHELINE_SIZE wss1)
          off2 (mc2thrash2.num_cachelines CACHELINE_SIZE wss2) ↔
        (pos1 + mc2thrash2.num_cachelines CACHELINE_SIZE wss2
            ≤ (mc2thrash2.NUM_ARENA_ELEM CACHELINE_SIZE : Int) ∨
         mc2thrash2.num_cachelines CACHELINE_SIZE wss2 ≤ off1)) := by
  obtain ⟨pos, hpos⟩ := cursor_after_total SIZE_BITS CACHELINE_SIZE hb hist 0 (le_refl _)
    (by omega) hpol
  obtain ⟨hp1, hp2⟩ := cursor_after_bounds SIZE_BITS CACHELINE_SIZE hb hist 0 pos (le_refl _)
    (by omega) hpol hpos
  have hc1 := mc2thrash2.sequential_start_policy SIZE_BITS CACHELINE_SIZE pos wss1 hb hp1 hp2
    (by omega) hh1
  obtain ⟨off1, pos1, e1, ho1, hpos1, hle1⟩ : ∃ off1 pos1,
      mc2thrash2.sequential_start SIZE_BITS CACHELINE_SIZE pos wss1 = (.ok off1, pos1) ∧
      0 ≤ off1 ∧ 0 ≤ pos1 ∧ pos1 ≤ (mc2thrash2.NUM_ARENA_ELEM CACHELINE_SIZE : Int) := by
    by_cases hw : pos + mc2thrash2.num_cachelines CACHELINE_SIZE wss1
        > (mc2thrash2.NUM_ARENA_ELEM CACHELINE_SIZE : Int)
    · rw [if_pos hw] at hc1
      exact ⟨0, _, hc1, le_refl _, by omega, by omega⟩
    · rw [if_neg hw] at hc1
      exact ⟨pos, _, hc1, hp1, by omega, by omega⟩
  have hc2 := mc2thrash2.sequential_start_policy SIZE_BITS CACHELINE_SIZE pos1 wss2 hb hpos1 hle1
    (by omega) hh2
  obtain ⟨off2, pos2, e2⟩ : ∃ off2 pos2,
      mc2thrash2.sequential_start SIZE_BITS CACHELINE_SIZE pos1 wss2 = (.ok off2, pos2) := by
    by_cases hw : pos1 + mc2thrash2.num_cachelines CACHELINE_SIZE wss2
        > (mc2thrash2.NUM_ARENA_ELEM CACHELINE_SIZE : Int)
    · rw [if_pos hw] at hc2
      exact ⟨0, _, hc2⟩
    · rw [if_neg hw] at hc2
      exact ⟨pos1, _, hc2⟩
  refine ⟨pos, off1, pos1, off2, pos2, hpos, e1, e2, ?_⟩
  rw [consecutive_starts SIZE_BITS CACHELINE_SIZE pos wss1 wss2 off1 off2 pos1 pos2 hb hp1 hp2
    hn1 hh1 hn2 hh2 e1 e2]
  constructor
  · intro h
    by_contra hc
    exact h ⟨by omega, by omega⟩
  · intro h hc
    omega

/-- Witness for `sequential_start_consecutive_ranges`: 32768 lines of 32
bytes, the history `wss = 312` and then two calls with `wss = 512`. -/
theorem sequential_start_consecutive_ranges_witness :
    ∃ pos off1 pos1 off2 pos2,
      cursor_after 32 32 0 [312] = some pos ∧
      mc2thrash2.sequential_start 32 32 pos 512 = (.ok off1, pos1) ∧
      mc2thrash2.sequential_start 32 32 pos1 512 = (.ok off2, pos2) ∧
      (ranges_disjoint off1 (mc2thrash2.num_cachelines 32 512)
          off2 (mc2thrash2.num_cachelines 32 512) ↔
        (pos1 + mc2thrash2.num_cachelines 32 512 ≤ (mc2thrash2.NUM_ARENA_ELEM 32 : Int) ∨
         mc2thrash2.num_cachelines 32 512 ≤ off1)) :=
  sequential_start_consecutive_ranges 32 32 [312] 512 512 (by decide) (by decide) (by decide)
    (by decide) (by decide) (by decide)

end Litmus
